import Mathlib

/-!
# SearchServer: an in-memory TF-IDF search engine

A shallow embedding of the C++ sources (`string_processing.cpp`, `concurrent_map.h`,
`search_server.h`, `search_server.cpp`) and theorems about it.

Modelling conventions.
* `std::string` / `std::string_view` are value-level character sequences (`Str`). The
  containers of `SearchServer` hold the words by value; the lifetime of the characters behind
  the `string_view` keys of the inverted index is kept in `TrackedServer`, whose operations
  have no defined behaviour when a lookup meets a key whose characters were destroyed.
* `std::map<K, V>` and `std::set<K>` are association lists / lists kept in strictly
  ascending key order by the operations below (`StdMap`, `StdSet`).
* `double` is an arbitrary linearly ordered field `R` (the reals, or the rationals when a
  value has to be computed); the natural logarithm is a parameter `ln : R → R`.
* `int` is `Int`; where the source relies on wrap-around or on an unsigned cast this is
  written out with an explicit modulus.
* A thrown exception or an operation without defined behaviour is an `Except Error` result;
  a method that mutates the server returns the outcome together with the state it leaves.
* `std::sort` is known by its contract only (`strictWeakOrderOn`, `StdSortPost`): the results
  of `FindTopDocuments` within the contract are the relation `FindTopDocumentsReturns`. The
  function `std_sort`, a linear insertion sort, is one rearrangement among those a library may
  produce; where it stands in a result only its being a rearrangement is used, and under a
  strict weak ordering it shows that the contract can be met.
-/

/-- Text: the characters of a `std::string` or of a `std::string_view`. -/
abbrev Str := List Char

/-- The enumeration `DocumentStatus`. -/
inductive DocumentStatus where
  | ACTUAL
  | IRRELEVANT
  | BANNED
  | REMOVED
deriving DecidableEq

/-- Ways in which a call can fail: the two exception classes thrown in the sources and
the operations whose behaviour the language leaves undefined (a remainder by zero, a read
through a `string_view` whose characters were destroyed). -/
inductive Error where
  | invalid_argument
  | out_of_range
  | undefined_behaviour
deriving DecidableEq

/-- The record `Document` returned by a search: id, relevance, rating. -/
structure Document (R : Type) where
  id : Int
  relevance : R
  rating : Int
deriving DecidableEq

/-! ## Ordered containers -/

/-- An ordered map `std::map<K, V>`: the entries in ascending key order. -/
abbrev StdMap (K V : Type) := List (K × V)

/-- An ordered set `std::set<K>`: the elements in ascending order. -/
abbrev StdSet (K : Type) := List K

namespace StdMap

variable {K V : Type}

/-- The value stored under a key, if any (`find`). -/
def find? [LinearOrder K] : StdMap K V → K → Option V
  | [], _ => none
  | (k', v) :: m, k => if k = k' then some v else find? m k

/-- Number of entries with the key, 0 or 1 (`count`). -/
def count [LinearOrder K] (m : StdMap K V) (k : K) : Nat :=
  if (find? m k).isSome then 1 else 0

/-- Checked access (`at`): throws `std::out_of_range` for a missing key. -/
def atKey [LinearOrder K] (m : StdMap K V) (k : K) : Except Error V :=
  match find? m k with
  | some v => .ok v
  | none => .error .out_of_range

/-- The statement `m[k] = f(m[k])`: `operator[]` first inserts the value `d` under a
missing key, then the stored value is replaced by its image under `f`. -/
def update [LinearOrder K] : StdMap K V → K → V → (V → V) → StdMap K V
  | [], k, d, f => [(k, f d)]
  | (k', v) :: m, k, d, f =>
    if k < k' then (k, f d) :: (k', v) :: m
    else if k = k' then (k', f v) :: m
    else (k', v) :: update m k d f

/-- Insertion that keeps an existing entry (`emplace`, `insert`). -/
def emplace [LinearOrder K] (m : StdMap K V) (k : K) (v : V) : StdMap K V :=
  update m k v id

/-- Removal of a key (`erase`). -/
def erase [LinearOrder K] (m : StdMap K V) (k : K) : StdMap K V :=
  m.filter (fun p => !decide (p.1 = k))

/-- The keys in iteration order. -/
def keys (m : StdMap K V) : List K := m.map Prod.fst

end StdMap

namespace StdSet

variable {K : Type}

/-- Insertion into an ordered set (`insert`, `emplace`). -/
def insert [LinearOrder K] : StdSet K → K → StdSet K
  | [], k => [k]
  | k' :: s, k =>
    if k < k' then k :: k' :: s
    else if k = k' then k' :: s
    else k' :: insert s k

/-- Number of occurrences of an element, 0 or 1 (`count`). -/
def count [LinearOrder K] (s : StdSet K) (k : K) : Nat :=
  if k ∈ s then 1 else 0

/-- Removal of an element (`erase`). -/
def erase [LinearOrder K] (s : StdSet K) (k : K) : StdSet K :=
  s.filter (fun x => !decide (x = k))

end StdSet

/-! ## concurrent_map.h -/

/-- The conversion `static_cast<uint64_t>(key)` of an `int`. -/
def toUInt64 (key : Int) : Nat := (key % 2 ^ 64).toNat

/-- The class `ConcurrentMap<int, Value>`: a vector of buckets, each an ordered map
(the mutexes play no role when the operations run one after another). -/
structure ConcurrentMap (V : Type) where
  bucket_ : List (StdMap Int V)

namespace ConcurrentMap

variable {V : Type}

/-- The constructor `ConcurrentMap(bucket_count)`. -/
def create (bucket_count : Nat) : ConcurrentMap V := ⟨List.replicate bucket_count []⟩

/-- The statement `map[key].ref_to_value += delta`: `operator[]` selects the bucket
`static_cast<uint64_t>(key) % bucket_.size()` (undefined for an empty vector), creates the
key with value 0 if it is absent, and the caller adds `delta` through the reference. -/
def accumulate [Zero V] [Add V] (cm : ConcurrentMap V) (key : Int) (delta : V) :
    Except Error (ConcurrentMap V) :=
  if cm.bucket_.length = 0 then .error .undefined_behaviour
  else
    let index := toUInt64 key % cm.bucket_.length
    .ok ⟨cm.bucket_.set index
      (StdMap.update (cm.bucket_.getD index []) key 0 (fun v => v + delta))⟩

/-- The method `BuildOrdinaryMap`: the buckets in index order, each inserted into the result
with `std::map::insert` (which keeps an entry that is already there). -/
def BuildOrdinaryMap (cm : ConcurrentMap V) : StdMap Int V :=
  cm.bucket_.foldl (fun result bucket =>
    bucket.foldl (fun r kv => StdMap.emplace r kv.1 kv.2) result) []

end ConcurrentMap

/-- The class `ConcurrentSet<int>`: a vector of buckets, each an ordered set. -/
structure ConcurrentSet where
  bucket_ : List (StdSet Int)

namespace ConcurrentSet

/-- The constructor `ConcurrentSet(bucket_count)`. -/
def create (bucket_count : Nat) : ConcurrentSet := ⟨List.replicate bucket_count []⟩

/-- The method `Insert`. -/
def Insert (cs : ConcurrentSet) (value : Int) : Except Error ConcurrentSet :=
  if cs.bucket_.length = 0 then .error .undefined_behaviour
  else
    let index := toUInt64 value % cs.bucket_.length
    .ok ⟨cs.bucket_.set index (StdSet.insert (cs.bucket_.getD index []) value)⟩

/-- The method `Contains`. -/
def Contains (cs : ConcurrentSet) (value : Int) : Except Error Bool :=
  if cs.bucket_.length = 0 then .error .undefined_behaviour
  else
    let index := toUInt64 value % cs.bucket_.length
    .ok (decide (StdSet.count (cs.bucket_.getD index []) value > 0))

end ConcurrentSet

/-! ## string_processing.cpp -/

/-- The call `text.find(c, 0)`: position of the first occurrence, `none` for `npos`. -/
def findChar (c : Char) : Str → Option Nat
  | [] => none
  | x :: xs => if x = c then some 0 else (findChar c xs).map (· + 1)

/-- The loop of `SplitIntoWords`, one iteration per unit of fuel: the token up to the next
space is emitted and the text advanced past it; without a space the rest is emitted and the
loop ends. -/
def SplitIntoWordsLoop : Nat → Str → List Str
  | 0, _ => []
  | fuel + 1, text =>
    match findChar ' ' text with
    | none => [text]
    | some space => text.take space :: SplitIntoWordsLoop fuel (text.drop (space + 1))

/-- The function `SplitIntoWords`; every iteration but the last consumes a character, so
`text.length + 1` iterations are enough. -/
def SplitIntoWords (text : Str) : List Str := SplitIntoWordsLoop (text.length + 1) text

/-- The function `MakeUniqueNonEmptyStrings`. -/
def MakeUniqueNonEmptyStrings (strings : List Str) : StdSet Str :=
  strings.foldl (fun non_empty_strings str =>
    if !str.isEmpty then StdSet.insert non_empty_strings str else non_empty_strings) []

/-! ## search_server.h, search_server.cpp -/

/-- The record `SearchServer::DocumentData`. -/
structure DocumentData where
  rating : Int
  status : DocumentStatus
  words : StdSet Str
deriving DecidableEq

/-- The data members of the class `SearchServer`. -/
structure SearchServer (R : Type) where
  stop_words_ : StdSet Str
  word_to_document_freqs_ : StdMap Str (StdMap Int R)
  document_to_word_freqs_ : StdMap Int (StdMap Str R)
  documents_ : StdMap Int DocumentData
  document_ids_ : StdSet Int

/-- The record `SearchServer::QueryWord`. -/
structure QueryWord where
  data : Str
  is_minus : Bool
  is_stop : Bool
deriving DecidableEq

/-- The record `SearchServer::Query`. -/
structure Query where
  plus_words : StdSet Str
  minus_words : StdSet Str
deriving DecidableEq

/-- The execution policies `std::execution::seq` and `std::execution::par`. -/
inductive ExecutionPolicy where
  | seq
  | par
deriving DecidableEq

/-- The type of the document predicates: id, status, rating. -/
abbrev DocumentPredicate := Int → DocumentStatus → Int → Bool

/-- The conversion of an arithmetic result to a 32-bit `int` (two's complement). -/
def wrapInt32 (x : Int) : Int := (x + 2 ^ 31) % 2 ^ 32 - 2 ^ 31

namespace SearchServer

variable {R : Type}

/-- The static method `IsValidWord`: no character with a code from 0 to 31. -/
def IsValidWord (word : Str) : Bool :=
  !word.any (fun c => decide (c.toNat < 32))

/-- The method `IsStopWord`. -/
def IsStopWord (s : SearchServer R) (word : Str) : Bool :=
  decide (StdSet.count s.stop_words_ word > 0)

/-- The constructor from a container of stop words. -/
def create (stop_words : List Str) : Except Error (SearchServer R) :=
  let stop := MakeUniqueNonEmptyStrings stop_words
  if !stop.all IsValidWord then .error .invalid_argument
  else .ok ⟨stop, [], [], [], []⟩

/-- The constructors from a text of space-separated stop words. -/
def ofText (stop_words_view : Str) : Except Error (SearchServer R) :=
  create (SplitIntoWords stop_words_view)

/-- The method `SplitIntoWordsNoStop`: the loop stops at the first invalid word. -/
def SplitIntoWordsNoStop (s : SearchServer R) (text : Str) : Except Error (List Str) :=
  (SplitIntoWords text).foldlM (fun words word =>
    if !IsValidWord word then .error .invalid_argument
    else if !s.IsStopWord word then .ok (words ++ [word])
    else .ok words) []

/-- The static method `ComputeAverageRating`; the sum is kept in an `int`. -/
def ComputeAverageRating (ratings : List Int) : Int :=
  if ratings.isEmpty then 0
  else
    let rating_sum := ratings.foldl (fun sum rating => wrapInt32 (sum + rating)) 0
    Int.tdiv rating_sum (wrapInt32 ratings.length)

/-- The body of the loop of `AddDocument` for one word: the word is interned in
`doc_words` and `inv_word_count` is added to both index entries. -/
def AddDocumentStep [Zero R] [Add R] (document_id : Int) (inv_word_count : R)
    (acc : StdSet Str × SearchServer R) (word : Str) : StdSet Str × SearchServer R :=
  (StdSet.insert acc.1 word,
   { acc.2 with
     word_to_document_freqs_ :=
       StdMap.update acc.2.word_to_document_freqs_ word []
         (fun freqs => StdMap.update freqs document_id 0 (fun v => v + inv_word_count))
     document_to_word_freqs_ :=
       StdMap.update acc.2.document_to_word_freqs_ document_id []
         (fun freqs => StdMap.update freqs word 0 (fun v => v + inv_word_count)) })

/-- The method `AddDocument`: the outcome and the state the call leaves. -/
def AddDocument [DivisionRing R] (s : SearchServer R) (document_id : Int) (document : Str)
    (status : DocumentStatus) (ratings : List Int) : Except Error Unit × SearchServer R :=
  if document_id < 0 ∨ StdMap.count s.documents_ document_id > 0 then
    (.error .invalid_argument, s)
  else
    match s.SplitIntoWordsNoStop document with
    | .error e => (.error e, s)
    | .ok words =>
      let inv_word_count : R := 1 / (words.length : R)
      let acc := words.foldl (AddDocumentStep document_id inv_word_count) ([], s)
      (.ok (),
       { acc.2 with
         documents_ := StdMap.emplace acc.2.documents_ document_id
           ⟨ComputeAverageRating ratings, status, acc.1⟩
         document_ids_ := StdSet.insert acc.2.document_ids_ document_id })

/-- The method `GetDocumentCount`. -/
def GetDocumentCount (s : SearchServer R) : Int := s.documents_.length

/-- The range `begin() .. end()`: the document ids in ascending order. -/
def ids (s : SearchServer R) : List Int := s.document_ids_

/-- The method `GetWordFrequencies`. -/
def GetWordFrequencies (s : SearchServer R) (document_id : Int) : StdMap Str R :=
  if StdMap.count s.document_to_word_freqs_ document_id > 0 then
    (StdMap.find? s.document_to_word_freqs_ document_id).getD []
  else []

/-- The method `RemoveDocument`, for either policy, as it acts on the containers: the sweep
over the inverted index touches every per-word map independently and keeps every outer key.
The outer keys are `string_view`s; those that point into the word set destroyed by
`documents_.erase` are left dangling, which `TrackedServer.RemoveDocument` records. -/
def RemoveDocument (s : SearchServer R) (document_id : Int) : SearchServer R :=
  if StdSet.count s.document_ids_ document_id > 0 then
    { s with
      document_ids_ := StdSet.erase s.document_ids_ document_id
      documents_ := StdMap.erase s.documents_ document_id
      document_to_word_freqs_ := StdMap.erase s.document_to_word_freqs_ document_id
      word_to_document_freqs_ := s.word_to_document_freqs_.map (fun word_freqs =>
        if StdMap.count word_freqs.2 document_id > 0 then
          (word_freqs.1, StdMap.erase word_freqs.2 document_id)
        else word_freqs) }
  else s

/-- The method `ParseQueryWord`. -/
def ParseQueryWord (s : SearchServer R) (text : Str) : Except Error QueryWord :=
  if text.isEmpty then .error .invalid_argument
  else
    let is_minus := decide (text.head? = some '-')
    let word := if is_minus then text.drop 1 else text
    if word.isEmpty || decide (word.head? = some '-') || !IsValidWord word then
      .error .invalid_argument
    else .ok ⟨word, is_minus, s.IsStopWord word⟩

/-- The method `ParseQuery`. -/
def ParseQuery (s : SearchServer R) (text : Str) : Except Error Query :=
  (SplitIntoWords text).foldlM (fun result word => do
    let query_word ← s.ParseQueryWord word
    if !query_word.is_stop then
      if query_word.is_minus then
        pure { result with minus_words := StdSet.insert result.minus_words query_word.data }
      else
        pure { result with plus_words := StdSet.insert result.plus_words query_word.data }
    else pure result) ⟨[], []⟩

/-- The method `ComputeWordInverseDocumentFreq`, with the logarithm `ln`. -/
def ComputeWordInverseDocumentFreq [DivisionRing R] (ln : R → R) (s : SearchServer R)
    (word : Str) : Except Error R := do
  let freqs ← StdMap.atKey s.word_to_document_freqs_ word
  pure (ln ((s.GetDocumentCount : R) * 1 / (freqs.length : R)))

/-- The first loop of `FindAllDocuments` (the same in both overloads): every document of
every indexed minus-word is inserted into `bad_documents`. -/
def markBadDocuments (s : SearchServer R) (query : Query) (bad_documents : ConcurrentSet) :
    Except Error ConcurrentSet :=
  query.minus_words.foldlM (fun bad word =>
    if StdMap.count s.word_to_document_freqs_ word != 0 then do
      let freqs ← StdMap.atKey s.word_to_document_freqs_ word
      freqs.foldlM (fun b entry => b.Insert entry.1) bad
    else pure bad) bad_documents

/-- The last loop of `FindAllDocuments` (the same in both overloads): one record per entry
of the drained accumulator, with the rating looked up in `documents_`. -/
def collectDocuments (s : SearchServer R) (relevance : StdMap Int R) :
    Except Error (List (Document R)) :=
  relevance.foldlM (fun matched_documents entry => do
    let data ← StdMap.atKey s.documents_ entry.1
    pure (matched_documents ++ [⟨entry.1, entry.2, data.rating⟩])) []

/-- The body of the inner loop of the sequential `FindAllDocuments`, for one entry
`(document_id, term_freq)` of the word: the metadata is looked up with `at`, and the product
`term_freq * inverse_document_freq` is accumulated if the document is not in `bad_documents`
and the predicate holds. -/
def addRelevanceSeq [DivisionRing R] (s : SearchServer R) (bad_documents : ConcurrentSet)
    (document_predicate : DocumentPredicate) (inverse_document_freq : R)
    (document_to_relevance : ConcurrentMap R) (entry : Int × R) :
    Except Error (ConcurrentMap R) := do
  let document_data ← StdMap.atKey s.documents_ entry.1
  let bad ← bad_documents.Contains entry.1
  if !bad && document_predicate entry.1 document_data.status document_data.rating then
    document_to_relevance.accumulate entry.1 (entry.2 * inverse_document_freq)
  else pure document_to_relevance

/-- The body of the loop over the plus-words of the sequential `FindAllDocuments`: a word
that is not indexed is skipped. -/
def scoreWordSeq [DivisionRing R] (ln : R → R) (s : SearchServer R)
    (bad_documents : ConcurrentSet) (document_predicate : DocumentPredicate)
    (document_to_relevance : ConcurrentMap R) (word : Str) :
    Except Error (ConcurrentMap R) :=
  if StdMap.count s.word_to_document_freqs_ word == 0 then pure document_to_relevance
  else do
    let inverse_document_freq ← s.ComputeWordInverseDocumentFreq ln word
    let freqs ← StdMap.atKey s.word_to_document_freqs_ word
    freqs.foldlM (s.addRelevanceSeq bad_documents document_predicate inverse_document_freq)
      document_to_relevance

/-- The overload of `FindAllDocuments` for `std::execution::sequenced_policy`. -/
def FindAllDocumentsSeq [DivisionRing R] (ln : R → R) (s : SearchServer R) (query : Query)
    (document_predicate : DocumentPredicate) : Except Error (List (Document R)) := do
  let document_to_relevance : ConcurrentMap R := ConcurrentMap.create query.plus_words.length
  let bad_documents ← s.markBadDocuments query (ConcurrentSet.create s.document_ids_.length)
  let document_to_relevance ← query.plus_words.foldlM
    (s.scoreWordSeq ln bad_documents document_predicate) document_to_relevance
  s.collectDocuments document_to_relevance.BuildOrdinaryMap

/-- The constant `PART_COUNT` of the parallel overload. -/
def PART_COUNT : Nat := 10

/-- The slices `[part_begin, part_end)` of the plus-words handed to the asynchronous tasks:
`PART_COUNT - 1` slices of `part_length` words and a last one up to the end. -/
def plusWordParts (plus_words : List Str) : List (List Str) :=
  let part_length := plus_words.length / PART_COUNT
  (List.range PART_COUNT).map (fun i =>
    if i = PART_COUNT - 1 then plus_words.drop (i * part_length)
    else (plus_words.drop (i * part_length)).take part_length)

/-- The body of the inner loop of the lambda `function` of the parallel `FindAllDocuments`:
the product is accumulated if the document is not in `bad_documents`; the predicate is not
consulted. -/
def addRelevancePar [DivisionRing R] (bad_documents : ConcurrentSet)
    (inverse_document_freq : R) (document_to_relevance : ConcurrentMap R) (entry : Int × R) :
    Except Error (ConcurrentMap R) := do
  let bad ← bad_documents.Contains entry.1
  if !bad then document_to_relevance.accumulate entry.1 (entry.2 * inverse_document_freq)
  else pure document_to_relevance

/-- The lambda `function` of the parallel `FindAllDocuments`, applied to one plus-word: the
word is looked up with `at` without a prior `count`. -/
def scoreWordPar [DivisionRing R] (ln : R → R) (s : SearchServer R)
    (bad_documents : ConcurrentSet) (document_to_relevance : ConcurrentMap R) (word : Str) :
    Except Error (ConcurrentMap R) := do
  let inverse_document_freq ← s.ComputeWordInverseDocumentFreq ln word
  let freqs ← StdMap.atKey s.word_to_document_freqs_ word
  freqs.foldlM (addRelevancePar bad_documents inverse_document_freq) document_to_relevance

/-- The overload of `FindAllDocuments` for `std::execution::parallel_policy`, its tasks run
one after another, each over its slice of the plus-words; an exception thrown inside a task
surfaces at `futures[i].get()`. -/
def FindAllDocumentsPar [DivisionRing R] (ln : R → R) (s : SearchServer R) (query : Query)
    (_document_predicate : DocumentPredicate) : Except Error (List (Document R)) := do
  let document_to_relevance : ConcurrentMap R := ConcurrentMap.create query.plus_words.length
  let bad_documents ← s.markBadDocuments query (ConcurrentSet.create s.document_ids_.length)
  let document_to_relevance ← (plusWordParts query.plus_words).foldlM (fun rel part =>
    part.foldlM (s.scoreWordPar ln bad_documents) rel) document_to_relevance
  s.collectDocuments document_to_relevance.BuildOrdinaryMap

/-- The private method `FindAllDocuments`, dispatched on the policy. -/
def FindAllDocuments [DivisionRing R] (ln : R → R) (s : SearchServer R)
    (policy : ExecutionPolicy) (query : Query) (document_predicate : DocumentPredicate) :
    Except Error (List (Document R)) :=
  match policy with
  | .seq => s.FindAllDocumentsSeq ln query document_predicate
  | .par => s.FindAllDocumentsPar ln query document_predicate

end SearchServer

/-! ## Ranking -/

/-- The comparator handed to `std::sort` in `FindTopDocuments`; `1e-6` is the rational
`1 / 1000000`. -/
def documentLess {R : Type} [LinearOrderedField R] (lhs rhs : Document R) : Bool :=
  if |lhs.relevance - rhs.relevance| < 1 / 1000000 then decide (lhs.rating > rhs.rating)
  else decide (lhs.relevance > rhs.relevance)

/-- One insertion of the sort: `a` is placed behind the leading elements that the
comparator puts before it. -/
def sortedInsert {α : Type} (comp : α → α → Bool) (a : α) : List α → List α
  | [] => [a]
  | b :: l => if comp b a then b :: sortedInsert comp a l else a :: b :: l

/-- A linear insertion sort, standing for the rearrangement that the library call
`std::sort(first, last, comp)` leaves. The standard fixes the result only up to the order of
equivalent elements, and only for a comparator that is a strict weak ordering on the range
(`StdSortPost`, `strictWeakOrderOn`); another library orders the elements differently, so of
this function only two facts may be relied on: its result is a rearrangement of the input,
and for a strict weak ordering it is one of the rearrangements that the contract allows. -/
def std_sort {α : Type} (comp : α → α → Bool) : List α → List α
  | [] => []
  | a :: l => sortedInsert comp a (std_sort comp l)

namespace SearchServer

variable {R : Type}

/-- The method `FindTopDocuments(policy, raw_query, document_predicate)`; the constant
`MAX_RESULT_DOCUMENT_COUNT` of `document.h` is a parameter. -/
def FindTopDocuments [LinearOrderedField R] (MAX_RESULT_DOCUMENT_COUNT : Nat) (ln : R → R)
    (s : SearchServer R) (policy : ExecutionPolicy) (raw_query : Str)
    (document_predicate : DocumentPredicate) : Except Error (List (Document R)) := do
  let query ← s.ParseQuery raw_query
  let matched_documents ← s.FindAllDocuments ln policy query document_predicate
  let matched_documents := std_sort documentLess matched_documents
  if matched_documents.length > MAX_RESULT_DOCUMENT_COUNT then
    pure (matched_documents.take MAX_RESULT_DOCUMENT_COUNT)
  else pure matched_documents

/-- The method `FindTopDocuments(policy, raw_query, status)`. -/
def FindTopDocumentsByStatus [LinearOrderedField R] (MAX_RESULT_DOCUMENT_COUNT : Nat)
    (ln : R → R) (s : SearchServer R) (policy : ExecutionPolicy) (raw_query : Str)
    (status : DocumentStatus) : Except Error (List (Document R)) :=
  s.FindTopDocuments MAX_RESULT_DOCUMENT_COUNT ln policy raw_query
    (fun _document_id document_status _rating => decide (document_status = status))

/-- The method `FindTopDocuments(policy, raw_query)`. -/
def FindTopDocumentsActual [LinearOrderedField R] (MAX_RESULT_DOCUMENT_COUNT : Nat)
    (ln : R → R) (s : SearchServer R) (policy : ExecutionPolicy) (raw_query : Str) :
    Except Error (List (Document R)) :=
  s.FindTopDocumentsByStatus MAX_RESULT_DOCUMENT_COUNT ln policy raw_query DocumentStatus.ACTUAL

end SearchServer

/-! ## Reachable states and their invariant -/

/-- The value stored under a pair of keys in a map of maps. -/
def StdMap.find2? {K₁ K₂ V : Type} [LinearOrder K₁] [LinearOrder K₂]
    (m : StdMap K₁ (StdMap K₂ V)) (k₁ : K₁) (k₂ : K₂) : Option V :=
  (StdMap.find? m k₁).bind (fun inner => StdMap.find? inner k₂)

/-- The states of a server: the result of a successful construction, followed by any calls
of `AddDocument` (failed calls included) and `RemoveDocument`. -/
inductive SearchServer.Reachable {R : Type} [DivisionRing R] : SearchServer R → Prop where
  | create (stop_words : List Str) (s : SearchServer R)
      (h : SearchServer.create stop_words = .ok s) : Reachable s
  | add (s : SearchServer R) (document_id : Int) (document : Str) (status : DocumentStatus)
      (ratings : List Int) (h : Reachable s) :
      Reachable (s.AddDocument document_id document status ratings).2
  | remove (s : SearchServer R) (document_id : Int) (h : Reachable s) :
      Reachable (s.RemoveDocument document_id)

/-- The invariant of the two indices: they are ordered, down to the per-key maps, and
the inverted index is the transpose of the forward index. -/
structure IndexInv {R : Type} (inverted : StdMap Str (StdMap Int R))
    (forward : StdMap Int (StdMap Str R)) : Prop where
  inv_sorted : (StdMap.keys inverted).Sorted (· < ·)
  inv_inner_sorted : ∀ w m, StdMap.find? inverted w = some m → (StdMap.keys m).Sorted (· < ·)
  fwd_sorted : (StdMap.keys forward).Sorted (· < ·)
  fwd_inner_sorted : ∀ d m, StdMap.find? forward d = some m → (StdMap.keys m).Sorted (· < ·)
  transpose : ∀ w d, StdMap.find2? inverted w d = StdMap.find2? forward d w

/-- The representation invariant of the server: the metadata is ordered, the id set is its
key set, every id of the forward index has metadata, and the indices satisfy `IndexInv`. -/
structure SearchServer.Inv {R : Type} (s : SearchServer R) : Prop where
  docs_sorted : (StdMap.keys s.documents_).Sorted (· < ·)
  ids_eq : s.document_ids_ = StdMap.keys s.documents_
  fwd_keys : ∀ d, d ∈ StdMap.keys s.document_to_word_freqs_ → d ∈ StdMap.keys s.documents_
  index : IndexInv s.word_to_document_freqs_ s.document_to_word_freqs_

/-! ## The demo of main.cpp -/

/-- The state of a server after a call of `AddDocument`. -/
def SearchServer.added {R : Type} [DivisionRing R] (s : SearchServer R) (document_id : Int)
    (document : Str) (status : DocumentStatus) (ratings : List Int) : SearchServer R :=
  (s.AddDocument document_id document status ratings).2

/-- The state of a server after a call of `AddDocument` with a text given as a literal. -/
def SearchServer.afterAdd {R : Type} [DivisionRing R] (s : SearchServer R) (document_id : Int)
    (document : String) (status : DocumentStatus) (ratings : List Int) : SearchServer R :=
  (s.AddDocument document_id document.toList status ratings).2

/-- The server constructed by `SearchServer search_server("and with"s)`. -/
def demoEmpty (R : Type) : SearchServer R :=
  match SearchServer.ofText "and with".toList with
  | .ok s => s
  | .error _ => ⟨[], [], [], [], []⟩

/-- The server of the demo in `main`: stop words `and with` and four documents. -/
def demoServer (R : Type) [DivisionRing R] : SearchServer R :=
  ((((demoEmpty R).afterAdd 1 "white cat and yellow hat" .ACTUAL [1, 2]).afterAdd
    2 "curly cat curly tail" .ACTUAL [1, 2]).afterAdd
    3 "nasty dog with big eyes" .ACTUAL [1, 2]).afterAdd
    4 "nasty pigeon john" .ACTUAL [1, 2]

/-! ## Reference notions -/

/-- The word list of a document: the tokens of its text that are not stop words, in the
order and with the multiplicity in which they occur. -/
def nonStopTokens {R : Type} (s : SearchServer R) (text : Str) : List Str :=
  (SplitIntoWords text).filter (fun w => decide (w ∉ s.stop_words_))

/-- The bucket of a key: `static_cast<uint64_t>(key) % bucket_count`. -/
def bucketIndex (bucket_count : Nat) (key : Int) : Nat := toUInt64 key % bucket_count

/-- The membership test behind `ConcurrentSet::Contains`. -/
def ConcurrentSet.has (cs : ConcurrentSet) (value : Int) : Bool :=
  decide (StdSet.count (cs.bucket_.getD (bucketIndex cs.bucket_.length value) []) value > 0)

/-- The value a `ConcurrentMap` holds for a key: the entry of the key in its bucket. -/
def ConcurrentMap.get {V : Type} (cm : ConcurrentMap V) (key : Int) : Option V :=
  StdMap.find? (cm.bucket_.getD (bucketIndex cm.bucket_.length key) []) key

/-- Well-formed `ConcurrentMap`: every bucket is ordered and holds only keys routed to it. -/
def ConcurrentMap.WF {V : Type} (cm : ConcurrentMap V) : Prop :=
  ∀ i, i < cm.bucket_.length →
    (StdMap.keys (cm.bucket_.getD i [])).Sorted (· < ·) ∧
    ∀ k ∈ StdMap.keys (cm.bucket_.getD i []), bucketIndex cm.bucket_.length k = i

/-- Term frequency of a word in a document, read from `GetWordFrequencies` (0 when the word
does not occur). -/
def termFrequency {R : Type} [Zero R] (s : SearchServer R) (word : Str) (document_id : Int) :
    R :=
  (StdMap.find? (s.GetWordFrequencies document_id) word).getD 0

/-- A document contains a word: the word is a key of `GetWordFrequencies`. -/
def containsWord {R : Type} (s : SearchServer R) (document_id : Int) (word : Str) : Bool :=
  decide (word ∈ StdMap.keys (s.GetWordFrequencies document_id))

/-- Number of stored documents that contain a word. -/
def documentFrequency {R : Type} (s : SearchServer R) (word : Str) : Nat :=
  (s.ids.filter (fun d => containsWord s d word)).length

/-- The TF-IDF relevance of a document for a set of plus-words: the sum, over the plus-words
that occur in the document, of `tf * ln (document count / documents containing the word)`. -/
def tfidfRelevance {R : Type} [DivisionRing R] (ln : R → R) (s : SearchServer R)
    (plus_words : List Str) (document_id : Int) : R :=
  ((plus_words.filter (fun w => containsWord s document_id w)).map (fun w =>
    termFrequency s w document_id *
      ln ((s.GetDocumentCount : R) / (documentFrequency s w : R)))).sum

/-- The test of the inner loop of the sequential `FindAllDocuments` for a document: it has
metadata, it is not in `bad_documents`, and the predicate accepts it. -/
def SearchServer.passes {R : Type} (s : SearchServer R) (bad_documents : ConcurrentSet)
    (document_predicate : DocumentPredicate) (document_id : Int) : Bool :=
  match StdMap.find? s.documents_ document_id with
  | some data =>
    !bad_documents.has document_id && document_predicate document_id data.status data.rating
  | none => false

/-- The inverse document frequency the code computes for an indexed word. -/
def SearchServer.idf {R : Type} [DivisionRing R] (ln : R → R) (s : SearchServer R)
    (word : Str) : R :=
  ln ((s.GetDocumentCount : R) * 1 /
    (((StdMap.find? s.word_to_document_freqs_ word).getD []).length : R))

/-- The amount a plus-word adds to the relevance of a document: `term_freq * idf` when the
inverted index lists the document under the word, nothing otherwise. -/
def SearchServer.contribution {R : Type} [DivisionRing R] (ln : R → R) (s : SearchServer R)
    (word : Str) (document_id : Int) : R :=
  ((StdMap.find2? s.word_to_document_freqs_ word document_id).map
    (fun term_freq => term_freq * s.idf ln word)).getD 0

/-- The rating stored for a document (0 for an id without metadata). -/
def SearchServer.storedRating {R : Type} (s : SearchServer R) (document_id : Int) : Int :=
  ((StdMap.find? s.documents_ document_id).map DocumentData.rating).getD 0

/-- The predicate of the call under the heading `Even ids` in `main`. -/
def evenId : DocumentPredicate := fun document_id _ _ => document_id % 2 == 0

/-- A server with two documents that both consist of the word `cat`, with ratings 1 and 5:
their relevance for the query `cat` is the same. -/
def tieServer (R : Type) [DivisionRing R] : SearchServer R :=
  ((demoEmpty R).afterAdd 1 "cat" .ACTUAL [1]).afterAdd 2 "cat" .ACTUAL [5]

/-- A description of the public content of a server without stop words: its id list, the
rating and status stored for every id, and the term frequency of every word in every
document. -/
structure SearchServer.Describes {R : Type} (s : SearchServer R) (ids : List Int)
    (info : Int → Option (Int × DocumentStatus)) (tf : Int → Str → Option R) : Prop where
  inv : s.Inv
  stop : s.stop_words_ = []
  ids_eq : s.document_ids_ = ids
  info_eq : ∀ x, (StdMap.find? s.documents_ x).map (fun d => (d.rating, d.status)) = info x
  tf_eq : ∀ x w, StdMap.find? (s.GetWordFrequencies x) w = tf x w

/-! ## A corpus with near-equal relevances -/

/-- The word list of the document `i` of `chainServer`: `i` times the word `a`, then the
word `b`, 200000 words in all. -/
def chainTokens (i : Nat) : List Str :=
  List.replicate i ['a'] ++ List.replicate (200000 - i) ['b']

/-- The text of the document `i` of `chainServer`: its words separated by single spaces. -/
def chainText (i : Nat) : Str := List.intercalate [' '] (chainTokens i)

/-- The server constructed from an empty container of stop words. -/
def noStopWords (R : Type) : SearchServer R := ⟨[], [], [], [], []⟩

/-- The server `noStopWords` after the first document of the chain: one `a` in 200000
words, rating 3. -/
def chainServer1 (R : Type) [DivisionRing R] : SearchServer R :=
  (noStopWords R).added 1 (chainText 1) .ACTUAL [3]

/-- Document 2 is added: two `a`, rating 2. -/
def chainServer2 (R : Type) [DivisionRing R] : SearchServer R :=
  (chainServer1 R).added 2 (chainText 2) .ACTUAL [2]

/-- Document 3 is added: three `a`, rating 1. -/
def chainServer3 (R : Type) [DivisionRing R] : SearchServer R :=
  (chainServer2 R).added 3 (chainText 3) .ACTUAL [1]

/-- Document 4 is added: four `a`, rating 0. -/
def chainServer4 (R : Type) [DivisionRing R] : SearchServer R :=
  (chainServer3 R).added 4 (chainText 4) .ACTUAL [0]

/-- Document 5 is added: five `a`, rating 0. -/
def chainServer5 (R : Type) [DivisionRing R] : SearchServer R :=
  (chainServer4 R).added 5 (chainText 5) .ACTUAL [0]

/-- Document 6 is added: six `a`, rating 0. -/
def chainServer6 (R : Type) [DivisionRing R] : SearchServer R :=
  (chainServer5 R).added 6 (chainText 6) .ACTUAL [0]

/-- A server without stop words holding seven documents of 200000 words each: document `i`
contains the word `a` exactly `i` times for `i` from 1 to 6, document 7 does not contain
it; the ratings of the documents 1, 2, 3 are 3, 2, 1 and the others are rated 0. -/
def chainServer (R : Type) [DivisionRing R] : SearchServer R :=
  (chainServer6 R).added 7 (chainText 0) .ACTUAL [0]

/-- The rating of the document `i` of `chainServer`. -/
def chainRating (i : Int) : Int :=
  if i = 1 then 3 else if i = 2 then 2 else if i = 3 then 1 else 0

/-- The record that a search for `a` on `chainServer` produces for the document `i`. -/
def chainDocument {R : Type} [DivisionRing R] (ln : R → R) (i : Int) : Document R :=
  ⟨i, (i : R) / 200000 * ln (7 / 6), chainRating i⟩

/-! ## search_server.h: MatchDocument -/

/-- The front part that `std::unique` builds: of every run of equal neighbours the first
element. -/
def dedupAdjacent {α : Type} [DecidableEq α] : List α → List α
  | [] => []
  | [a] => [a]
  | a :: b :: l => if a = b then dedupAdjacent (b :: l) else a :: dedupAdjacent (b :: l)

/-- The contents of a vector after `std::unique` over its whole range when the returned
iterator is dropped: the kept elements at the front, and behind them the positions that the
algorithm never writes. -/
def std_unique {α : Type} [DecidableEq α] (v : List α) : List α :=
  dedupAdjacent v ++ v.drop (dedupAdjacent v).length

namespace SearchServer

variable {R : Type}

/-- The test that `MatchDocument` applies to a query word: the inverted index has the word
and its per-word map has the document; `at` stands behind the test of `count` and cannot
throw. -/
def wordInDocument (s : SearchServer R) (document_id : Int) (word : Str) : Bool :=
  StdMap.count s.word_to_document_freqs_ word != 0 &&
    decide (StdMap.count ((StdMap.find? s.word_to_document_freqs_ word).getD []) document_id > 0)

/-- The method `MatchDocument`; the policy is handed to `std::any_of`, `std::sort` and
`std::unique` only. -/
def MatchDocument (s : SearchServer R) (_policy : ExecutionPolicy) (raw_query : Str)
    (document_id : Int) : Except Error (List Str × DocumentStatus) := do
  let query ← s.ParseQuery raw_query
  if query.minus_words.any (s.wordInDocument document_id) then
    let data ← StdMap.atKey s.documents_ document_id
    pure ([], data.status)
  else
    let matched_words := query.plus_words.filter (s.wordInDocument document_id)
    let matched_words := std_sort (fun a b => decide (a < b)) matched_words
    let matched_words := std_unique matched_words
    let data ← StdMap.atKey s.documents_ document_id
    pure (matched_words, data.status)

end SearchServer

/-! ## Reference notions for the tokenizer and the query -/

/-- The maximal space-free runs of a text, by recursion on the text. -/
def spaceFreeRuns : Str → List Str
  | [] => [[]]
  | c :: text =>
    if c = ' ' then [] :: spaceFreeRuns text
    else
      match spaceFreeRuns text with
      | [] => [[c]]
      | w :: ws => (c :: w) :: ws

/-- A query token that `ParseQueryWord` rejects: empty, a lone `-`, starting with `--`, or
holding a character below 0x20. -/
def malformedToken (token : Str) : Prop :=
  token = [] ∨ token = ['-'] ∨ (∃ rest, token = '-' :: '-' :: rest) ∨ ∃ c ∈ token, c.toNat < 0x20

/-- A server without stop words and with one document, of the text `-cat  dog` with two
spaces: its indexed words are the empty word, `-cat` and `dog`. -/
def dashServer (R : Type) [DivisionRing R] : SearchServer R :=
  (noStopWords R).afterAdd 1 "-cat  dog" .ACTUAL [1]

/-- A rating list of 2^31 + 1 elements, 2^31 times `-1` and then `0`: every element and every
partial sum fits in an `int`, the number of elements does not. -/
def manyRatings : List Int := List.replicate (2 ^ 31) (-1) ++ [0]

/-! ## request_queue.h, request_queue.cpp -/

/-- The record `RequestQueue::QueryResult`. -/
structure QueryResult where
  time : Int
  empty_query : Bool
deriving DecidableEq

/-- The data member `requests_` of the class `RequestQueue`, front first; the server behind
the reference `search_server_` is an argument of the calls. -/
structure RequestQueue where
  requests_ : List QueryResult

namespace RequestQueue

variable {R : Type}

/-- The constant `sec_in_day_`. -/
def sec_in_day_ : Int := 1440

/-- The constructor: an empty deque. -/
def create : RequestQueue := ⟨[]⟩

/-- The loop `while (requests_.size() > sec_in_day_) requests_.pop_front()`. -/
def popWhileLong : List QueryResult → List QueryResult
  | [] => []
  | r :: rest =>
    if ((r :: rest).length : Int) > sec_in_day_ then popWhileLong rest else r :: rest

/-- The method `AddQuery`. -/
def AddQuery (q : RequestQueue) (documents : List (Document R)) : RequestQueue :=
  let time : Int :=
    match q.requests_.getLast? with
    | none => 1
    | some backquery =>
      if backquery.time = sec_in_day_ then 1 else wrapInt32 (backquery.time + 1)
  ⟨popWhileLong (q.requests_ ++ [⟨time, documents.isEmpty⟩])⟩

/-- The method `GetNoResultRequests`: `count_if` over the deque. -/
def GetNoResultRequests (q : RequestQueue) : Int :=
  (q.requests_.filter (fun req => req.empty_query)).length

/-- The method `AddFindRequest(raw_query, document_predicate)`: the result and the queue the
call leaves; an exception of `FindTopDocuments` leaves the queue as it was. -/
def AddFindRequest [LinearOrderedField R] (MAX_RESULT_DOCUMENT_COUNT : Nat) (ln : R → R)
    (q : RequestQueue) (search_server : SearchServer R) (raw_query : Str)
    (document_predicate : DocumentPredicate) :
    Except Error (List (Document R) × RequestQueue) := do
  let doc ← search_server.FindTopDocuments MAX_RESULT_DOCUMENT_COUNT ln .seq raw_query
    document_predicate
  pure (doc, q.AddQuery doc)

/-- The method `AddFindRequest(raw_query, status)`. -/
def AddFindRequestByStatus [LinearOrderedField R] (MAX_RESULT_DOCUMENT_COUNT : Nat)
    (ln : R → R) (q : RequestQueue) (search_server : SearchServer R) (raw_query : Str)
    (status : DocumentStatus) : Except Error (List (Document R) × RequestQueue) := do
  let doc ← search_server.FindTopDocumentsByStatus MAX_RESULT_DOCUMENT_COUNT ln .seq raw_query
    status
  pure (doc, q.AddQuery doc)

/-- The method `AddFindRequest(raw_query)`. -/
def AddFindRequestActual [LinearOrderedField R] (MAX_RESULT_DOCUMENT_COUNT : Nat)
    (ln : R → R) (q : RequestQueue) (search_server : SearchServer R) (raw_query : Str) :
    Except Error (List (Document R) × RequestQueue) := do
  let doc ← search_server.FindTopDocumentsActual MAX_RESULT_DOCUMENT_COUNT ln .seq raw_query
  pure (doc, q.AddQuery doc)

/-- The queues that calls of `AddFindRequest` produce from a new queue, with the log of the
calls that returned: for each, whether its result list was empty, oldest first. The server
may change between the calls. -/
inductive Served [LinearOrderedField R] (MAX_RESULT_DOCUMENT_COUNT : Nat) (ln : R → R) :
    List Bool → RequestQueue → Prop where
  | create : Served MAX_RESULT_DOCUMENT_COUNT ln [] RequestQueue.create
  | predicate (log : List Bool) (q q' : RequestQueue) (search_server : SearchServer R)
      (raw_query : Str) (document_predicate : DocumentPredicate) (doc : List (Document R))
      (h : Served MAX_RESULT_DOCUMENT_COUNT ln log q)
      (hcall : q.AddFindRequest MAX_RESULT_DOCUMENT_COUNT ln search_server raw_query
        document_predicate = .ok (doc, q')) :
      Served MAX_RESULT_DOCUMENT_COUNT ln (log ++ [doc.isEmpty]) q'
  | status (log : List Bool) (q q' : RequestQueue) (search_server : SearchServer R)
      (raw_query : Str) (document_status : DocumentStatus) (doc : List (Document R))
      (h : Served MAX_RESULT_DOCUMENT_COUNT ln log q)
      (hcall : q.AddFindRequestByStatus MAX_RESULT_DOCUMENT_COUNT ln search_server raw_query
        document_status = .ok (doc, q')) :
      Served MAX_RESULT_DOCUMENT_COUNT ln (log ++ [doc.isEmpty]) q'
  | actual (log : List Bool) (q q' : RequestQueue) (search_server : SearchServer R)
      (raw_query : Str) (doc : List (Document R))
      (h : Served MAX_RESULT_DOCUMENT_COUNT ln log q)
      (hcall : q.AddFindRequestActual MAX_RESULT_DOCUMENT_COUNT ln search_server raw_query
        = .ok (doc, q')) :
      Served MAX_RESULT_DOCUMENT_COUNT ln (log ++ [doc.isEmpty]) q'

end RequestQueue

/-! ## main.cpp: RemoveDuplicates -/

namespace SearchServer

variable {R : Type}

/-- The body of the first loop of `RemoveDuplicates` for one document id: the words of the
document are collected into `temp`; the id goes to `docs_for_remove` if `docs` has the key
`temp`, and under the key `temp` into `docs` otherwise. -/
def RemoveDuplicatesStep (s : SearchServer R)
    (acc : StdSet Int × StdMap (StdSet Str) (StdSet Int)) (document_id : Int) :
    StdSet Int × StdMap (StdSet Str) (StdSet Int) :=
  let temp : StdSet Str :=
    (s.GetWordFrequencies document_id).foldl (fun temp entry => StdSet.insert temp entry.1) []
  if StdMap.count acc.2 temp > 0 then (StdSet.insert acc.1 document_id, acc.2)
  else (acc.1, StdMap.update acc.2 temp [] (fun ids => StdSet.insert ids document_id))

/-- The function `RemoveDuplicates`: the ids it reports, in the order of the report, and the
state of the server after the removals. -/
def RemoveDuplicates (s : SearchServer R) : List Int × SearchServer R :=
  let acc := s.ids.foldl (RemoveDuplicatesStep s) ([], [])
  (acc.1, acc.1.foldl RemoveDocument s)

end SearchServer

/-! ## Further servers of main.cpp and inputs of the results -/

/-- The server constructed by `SearchServer search_server("and in at"s)`. -/
def queueEmpty (R : Type) : SearchServer R :=
  match SearchServer.ofText "and in at".toList with
  | .ok s => s
  | .error _ => ⟨[], [], [], [], []⟩

/-- The server of the request queue demo in `main`; the text of document 3 ends with a
space. -/
def queueServer (R : Type) [DivisionRing R] : SearchServer R :=
  (((((queueEmpty R).afterAdd 1 "curly cat curly tail" .ACTUAL [7, 2, 7]).afterAdd
    2 "curly dog and fancy collar" .ACTUAL [1, 2, 3]).afterAdd
    3 "big cat fancy collar " .ACTUAL [1, 2, 8]).afterAdd
    4 "big dog sparrow Eugene" .ACTUAL [1, 3, 2]).afterAdd
    5 "big dog sparrow Vasiliy" .ACTUAL [1, 1, 1]

/-- The server with the stop words `and with` and one document whose words are all stop
words. -/
def stopOnlyServer (R : Type) [DivisionRing R] : SearchServer R :=
  (demoEmpty R).afterAdd 1 "and with" .ACTUAL [1, 2]

/-- The server of the duplicates demo in `main`, documents 1 to 5. -/
def duplicatesServer5 (R : Type) [DivisionRing R] : SearchServer R :=
  (((((demoEmpty R).afterAdd 1 "funny pet and nasty rat" .ACTUAL [7, 2, 7]).afterAdd
    2 "funny pet with curly hair" .ACTUAL [1, 2]).afterAdd
    3 "funny pet with curly hair" .ACTUAL [1, 2]).afterAdd
    4 "funny pet and curly hair" .ACTUAL [1, 2]).afterAdd
    5 "funny funny pet and nasty nasty rat" .ACTUAL [1, 2]

/-- The server of the duplicates demo in `main`, all nine documents. -/
def duplicatesServer (R : Type) [DivisionRing R] : SearchServer R :=
  ((((duplicatesServer5 R).afterAdd 6 "funny pet and not very nasty rat" .ACTUAL [1, 2]).afterAdd
    7 "very nasty rat and not very funny pet" .ACTUAL [1, 2]).afterAdd
    8 "pet with rat and rat and rat" .ACTUAL [1, 2]).afterAdd
    9 "nasty rat with curly hair" .ACTUAL [1, 2]

/-- The operations `map[key].ref_to_value += delta` of a list, one after another, on a new
`ConcurrentMap` with `bucket_count` buckets. -/
def accumulateAll {V : Type} [Zero V] [Add V] (bucket_count : Nat) (ops : List (Int × V)) :
    Except Error (ConcurrentMap V) :=
  ops.foldlM (fun cm op => cm.accumulate op.1 op.2) (ConcurrentMap.create bucket_count)

/-- The sum of the deltas that a list of operations accumulates for a key, starting from 0. -/
def deltaSum {V : Type} [Zero V] [Add V] (ops : List (Int × V)) (key : Int) : V :=
  (ops.filter (fun op => decide (op.1 = key))).foldl (fun sum op => sum + op.2) 0

/-- A strict weak ordering on three elements: the comparison is irreflexive, asymmetric and
transitive, and so is its incomparability. -/
def strictWeakOn {α : Type} (comp : α → α → Bool) (a b c : α) : Prop :=
  comp a a = false ∧ (comp a b = true → comp b a = false) ∧
  (comp a b = true → comp b c = true → comp a c = true) ∧
  (comp a b = false → comp b a = false → comp b c = false → comp c b = false →
    comp a c = false ∧ comp c a = false)

/-! ## The contract of `std::sort` -/

/-- The precondition of `std::sort`: the comparator is a strict weak ordering on the values of
the range. -/
def strictWeakOrderOn {α : Type} (comp : α → α → Bool) (range : List α) : Prop :=
  ∀ a ∈ range, ∀ b ∈ range, ∀ c ∈ range, strictWeakOn comp a b c

/-- The postcondition of `std::sort(first, last, comp)`: the range afterwards is a
rearrangement of the range before in which no element is ranked before an earlier one. -/
def StdSortPost {α : Type} (comp : α → α → Bool) (before after : List α) : Prop :=
  after.Perm before ∧ after.Pairwise (fun a b => comp b a = false)

/-! ## The lifetime of the keys of the inverted index -/

/-- A server together with the lifetime of the keys of `word_to_document_freqs_`. A key is a
`string_view` into the word set `documents_[id].words` of the document that brought the word
into the index; `key_owner_` maps the key to that id, and to `none` once `RemoveDocument` has
destroyed the word set. -/
structure TrackedServer (R : Type) where
  server : SearchServer R
  key_owner_ : StdMap Str (Option Int)

namespace TrackedServer

variable {R : Type}

/-- No key of the inverted index is dangling. -/
def keysLive (t : TrackedServer R) : Bool :=
  t.key_owner_.all (fun entry => entry.2.isSome)

/-- A lookup of the given words in `word_to_document_freqs_` (`count`, `at`, `operator[]`)
compares each word with the keys on its way through the tree. The shape of the tree is not
modelled: the lookups are defined when there is no word to look up or no key is dangling, and
they are taken to be undefined otherwise. The second verdict is exact when
`readsDestroyedKey` holds and an over-approximation in the other cases. -/
def lookupsDefined (t : TrackedServer R) (words : List Str) : Bool :=
  words.isEmpty || t.keysLive

/-- One of the words looked up is itself a dangling key: the search for the word runs down
the tree to that key and compares the word with its destroyed characters. -/
def readsDestroyedKey (t : TrackedServer R) (words : List Str) : Bool :=
  words.any (fun word => StdMap.find? t.key_owner_ word == some none)

/-- The constructor from a container of stop words: no key yet. -/
def create (stop_words : List Str) : Except Error (TrackedServer R) :=
  match SearchServer.create stop_words with
  | .ok s => .ok ⟨s, []⟩
  | .error e => .error e

/-- The method `AddDocument`: after the two checks, the loop looks every word up with
`word_to_document_freqs_[*iter]`; a word that is not yet a key becomes one, as a view into
the word set of this document. After a call without defined behaviour nothing is known of
the state; the model keeps the state before. -/
def AddDocument [DivisionRing R] (t : TrackedServer R) (document_id : Int) (document : Str)
    (status : DocumentStatus) (ratings : List Int) : Except Error Unit × TrackedServer R :=
  match t.server.AddDocument document_id document status ratings,
      t.server.SplitIntoWordsNoStop document with
  | (.ok (), server), .ok words =>
    if t.lookupsDefined words then
      (.ok (), ⟨server, words.foldl (fun owner word =>
        StdMap.emplace owner word (some document_id)) t.key_owner_⟩)
    else (.error .undefined_behaviour, t)
  | (.ok (), _), .error e => (.error e, t)
  | (.error e, _), _ => (.error e, t)

/-- The method `RemoveDocument`, for either policy: no word is looked up; the keys that
point into the word set of the removed document dangle from now on. -/
def RemoveDocument (t : TrackedServer R) (document_id : Int) : TrackedServer R :=
  ⟨t.server.RemoveDocument document_id,
   if StdSet.count t.server.document_ids_ document_id > 0 then
     t.key_owner_.map (fun entry =>
       if entry.2 = some document_id then (entry.1, none) else entry)
   else t.key_owner_⟩

/-- The test `word_to_document_freqs_.count(word) != 0 && ...at(word).count(id) > 0` of
`MatchDocument`, with the lifetime of the keys. -/
def wordInDocument (t : TrackedServer R) (document_id : Int) (word : Str) : Except Error Bool :=
  if t.lookupsDefined [word] then .ok (t.server.wordInDocument document_id word)
  else .error .undefined_behaviour

/-- The private method `FindAllDocuments`, for either policy, with the lifetime of the keys:
every minus-word and every plus-word is looked up in `word_to_document_freqs_`. -/
def FindAllDocuments [DivisionRing R] (ln : R → R) (t : TrackedServer R)
    (policy : ExecutionPolicy) (query : Query) (document_predicate : DocumentPredicate) :
    Except Error (List (Document R)) :=
  if t.lookupsDefined (query.minus_words ++ query.plus_words) then
    t.server.FindAllDocuments ln policy query document_predicate
  else .error .undefined_behaviour

/-- The method `MatchDocument`, with the lifetime of the keys: every minus-word and, unless a
minus-word matches, every plus-word is looked up in `word_to_document_freqs_`. -/
def MatchDocument (t : TrackedServer R) (policy : ExecutionPolicy) (raw_query : Str)
    (document_id : Int) : Except Error (List Str × DocumentStatus) := do
  let query ← t.server.ParseQuery raw_query
  if t.lookupsDefined (query.minus_words ++ query.plus_words) then
    t.server.MatchDocument policy raw_query document_id
  else .error .undefined_behaviour

/-- The lists that `FindTopDocuments(policy, raw_query, document_predicate)` can return when
its behaviour is defined: the query parses, `FindAllDocuments` returns the matched documents,
the comparator is a strict weak ordering on them, `std::sort` leaves them in an order that
its contract allows, and the list is cut to `MAX_RESULT_DOCUMENT_COUNT` elements. -/
def FindTopDocumentsReturns [LinearOrderedField R] (MAX_RESULT_DOCUMENT_COUNT : Nat)
    (ln : R → R) (t : TrackedServer R) (policy : ExecutionPolicy) (raw_query : Str)
    (document_predicate : DocumentPredicate) (docs : List (Document R)) : Prop :=
  ∃ query matched_documents sorted,
    t.server.ParseQuery raw_query = .ok query ∧
    t.FindAllDocuments ln policy query document_predicate = .ok matched_documents ∧
    strictWeakOrderOn documentLess matched_documents ∧
    StdSortPost documentLess matched_documents sorted ∧
    docs = if sorted.length > MAX_RESULT_DOCUMENT_COUNT then
      sorted.take MAX_RESULT_DOCUMENT_COUNT else sorted

/-- A call of `FindTopDocuments` without defined behaviour: the query parses, and a lookup
meets a dangling key, or `std::sort` is handed matched documents on which the comparator is
not a strict weak ordering. -/
def FindTopDocumentsUndefined [LinearOrderedField R] (ln : R → R) (t : TrackedServer R)
    (policy : ExecutionPolicy) (raw_query : Str) (document_predicate : DocumentPredicate) :
    Prop :=
  ∃ query, t.server.ParseQuery raw_query = .ok query ∧
    (t.FindAllDocuments ln policy query document_predicate = .error .undefined_behaviour ∨
      ∃ matched_documents,
        t.FindAllDocuments ln policy query document_predicate = .ok matched_documents ∧
        ¬ strictWeakOrderOn documentLess matched_documents)

/-- The states of a server with the lifetime of its keys: a successful construction followed
by calls of `AddDocument` and `RemoveDocument`. -/
inductive Reachable [DivisionRing R] : TrackedServer R → Prop where
  | create (stop_words : List Str) (t : TrackedServer R)
      (h : TrackedServer.create stop_words = .ok t) : Reachable t
  | add (t : TrackedServer R) (document_id : Int) (document : Str) (status : DocumentStatus)
      (ratings : List Int) (h : Reachable t) :
      Reachable (t.AddDocument document_id document status ratings).2
  | remove (t : TrackedServer R) (document_id : Int) (h : Reachable t) :
      Reachable (t.RemoveDocument document_id)

/-- The state after a call of `AddDocument` with a text given as a literal. -/
def afterAdd [DivisionRing R] (t : TrackedServer R) (document_id : Int) (document : String)
    (status : DocumentStatus) (ratings : List Int) : TrackedServer R :=
  (t.AddDocument document_id document.toList status ratings).2

end TrackedServer

/-- The demo server of `main` with the lifetime of its keys: every key is alive. -/
def trackedDemo (R : Type) [DivisionRing R] : TrackedServer R :=
  ((((⟨demoEmpty R, []⟩ : TrackedServer R).afterAdd 1 "white cat and yellow hat" .ACTUAL
    [1, 2]).afterAdd 2 "curly cat curly tail" .ACTUAL [1, 2]).afterAdd
    3 "nasty dog with big eyes" .ACTUAL [1, 2]).afterAdd 4 "nasty pigeon john" .ACTUAL [1, 2]

/-- A server without stop words after `AddDocument(1, "big")`, `AddDocument(3, "big dog")` and
`RemoveDocument(1)`: the key `big`, the root of the inverted index, points into the word set
of the removed document 1, and document 3 contains the word. -/
def danglingServer (R : Type) [DivisionRing R] : TrackedServer R :=
  (((⟨noStopWords R, []⟩ : TrackedServer R).afterAdd 1 "big" .ACTUAL [1]).afterAdd
    3 "big dog" .ACTUAL [2]).RemoveDocument 1

/-- The demo server after `AddDocument(5, "zebra")` and `RemoveDocument(5)`: the key `zebra`
stays in the inverted index and points into the word set of the removed document. -/
def trackedDemoAfterZebra (R : Type) [DivisionRing R] : TrackedServer R :=
  ((trackedDemo R).afterAdd 5 "zebra" .ACTUAL [1]).RemoveDocument 5

/-- The state after a call of `AddDocument`. -/
def TrackedServer.added {R : Type} [DivisionRing R] (t : TrackedServer R) (document_id : Int)
    (document : Str) (status : DocumentStatus) (ratings : List Int) : TrackedServer R :=
  (t.AddDocument document_id document status ratings).2

/-- The server `chainServer` with the lifetime of its keys. -/
def trackedChainServer (R : Type) [DivisionRing R] : TrackedServer R :=
  (((((((⟨noStopWords R, []⟩ : TrackedServer R).added 1 (chainText 1) .ACTUAL [3]).added
    2 (chainText 2) .ACTUAL [2]).added 3 (chainText 3) .ACTUAL [1]).added
    4 (chainText 4) .ACTUAL [0]).added 5 (chainText 5) .ACTUAL [0]).added
    6 (chainText 6) .ACTUAL [0]).added 7 (chainText 0) .ACTUAL [0]

/-- The server `tieServer` with the lifetime of its keys. -/
def trackedTieServer (R : Type) [DivisionRing R] : TrackedServer R :=
  ((⟨demoEmpty R, []⟩ : TrackedServer R).afterAdd 1 "cat" .ACTUAL [1]).afterAdd 2 "cat"
    .ACTUAL [5]

namespace StdMap
variable {K V : Type}

theorem find?_eq_none_iff [LinearOrder K] (m : StdMap K V) (k : K) :
    find? m k = none ↔ k ∉ keys m := by
  induction m with
  | nil => simp [find?, keys]
  | cons p m ih =>
    obtain ⟨k', v⟩ := p
    by_cases h : k = k'
    · simp [find?, keys, h]
    · simp only [find?, if_neg h, ih, keys, List.map_cons, List.mem_cons, not_or]
      exact ⟨fun h2 => ⟨h, h2⟩, fun h2 => h2.2⟩

theorem find?_isSome_iff [LinearOrder K] (m : StdMap K V) (k : K) :
    (find? m k).isSome = true ↔ k ∈ keys m := by
  rw [← not_iff_not, ← find?_eq_none_iff]
  cases find? m k <;> simp

theorem count_pos_iff [LinearOrder K] (m : StdMap K V) (k : K) :
    count m k > 0 ↔ k ∈ keys m := by
  unfold count
  rw [← find?_isSome_iff]
  by_cases h : (find? m k).isSome = true <;> simp [h]

theorem mem_of_find? [LinearOrder K] {m : StdMap K V} {k : K} {v : V}
    (h : find? m k = some v) : (k, v) ∈ m := by
  induction m with
  | nil => simp [find?] at h
  | cons p m ih =>
    obtain ⟨k', v'⟩ := p
    by_cases hk : k = k'
    · simp [find?, hk] at h
      simp [hk, h]
    · simp only [find?, if_neg hk] at h
      exact List.mem_cons_of_mem _ (ih h)

theorem sorted_keys_cons [LinearOrder K] {p : K × V} {m : StdMap K V} :
    (keys (p :: m)).Sorted (· < ·) ↔ (∀ k ∈ keys m, p.1 < k) ∧ (keys m).Sorted (· < ·) := by
  simp [keys, List.Sorted]

theorem find?_of_mem [LinearOrder K] {m : StdMap K V} (hs : (keys m).Sorted (· < ·))
    {k : K} {v : V} (h : (k, v) ∈ m) : find? m k = some v := by
  induction m with
  | nil => simp at h
  | cons p m ih =>
    obtain ⟨k', v'⟩ := p
    rw [sorted_keys_cons] at hs
    rcases List.mem_cons.1 h with h | h
    · cases h; simp [find?]
    · have hk : k' < k := hs.1 k (List.mem_map.2 ⟨(k, v), h, rfl⟩)
      simp only [find?, if_neg (ne_of_gt hk)]
      exact ih hs.2 h

theorem find?_iff_mem [LinearOrder K] {m : StdMap K V} (hs : (keys m).Sorted (· < ·))
    (k : K) (v : V) : find? m k = some v ↔ (k, v) ∈ m :=
  ⟨mem_of_find?, find?_of_mem hs⟩

theorem keys_update_mem [LinearOrder K] (m : StdMap K V) (k : K) (d : V) (f : V → V) (x : K) :
    x ∈ keys (update m k d f) ↔ x = k ∨ x ∈ keys m := by
  induction m with
  | nil => simp [update, keys]
  | cons p m ih =>
    obtain ⟨k', v⟩ := p
    unfold update
    by_cases h1 : k < k'
    · simp [h1, keys]
    · by_cases h2 : k = k'
      · simp [h2, keys]
      · simp only [if_neg h1, if_neg h2]
        simp only [keys, List.map_cons, List.mem_cons] at ih ⊢
        rw [ih]; tauto

theorem sorted_update [LinearOrder K] {m : StdMap K V} (hs : (keys m).Sorted (· < ·))
    (k : K) (d : V) (f : V → V) : (keys (update m k d f)).Sorted (· < ·) := by
  induction m with
  | nil => simp [update, keys]
  | cons p m ih =>
    obtain ⟨k', v⟩ := p
    have hs' := sorted_keys_cons.1 hs
    unfold update
    by_cases h1 : k < k'
    · rw [if_pos h1, sorted_keys_cons]
      refine ⟨?_, hs⟩
      intro x hx
      simp only [keys, List.map_cons, List.mem_cons] at hx
      rcases hx with hx | hx
      · exact hx ▸ h1
      · exact lt_trans h1 (hs'.1 x hx)
    · by_cases h2 : k = k'
      · rw [if_neg h1, if_pos h2]
        exact hs
      · rw [if_neg h1, if_neg h2, sorted_keys_cons]
        refine ⟨?_, ih hs'.2⟩
        intro x hx
        rcases (keys_update_mem m k d f x).1 hx with hx | hx
        · rw [hx]; exact lt_of_le_of_ne (not_lt.1 h1) (Ne.symm h2)
        · exact hs'.1 x hx

theorem find?_update [LinearOrder K] {m : StdMap K V} (hs : (keys m).Sorted (· < ·))
    (k : K) (d : V) (f : V → V) (x : K) :
    find? (update m k d f) x = if x = k then some (f ((find? m k).getD d)) else find? m x := by
  induction m with
  | nil => simp [update, find?]
  | cons p m ih =>
    obtain ⟨k', v⟩ := p
    have hs' := sorted_keys_cons.1 hs
    unfold update
    by_cases h1 : k < k'
    · have hnone : find? m k = none := by
        rw [find?_eq_none_iff]
        intro hk
        exact lt_asymm h1 (hs'.1 k hk)
      rw [if_pos h1]
      by_cases hx : x = k
      · simp [find?, hx, ne_of_lt h1, hnone]
      · simp [find?, hx]
    · by_cases h2 : k = k'
      · rw [if_neg h1, if_pos h2]
        by_cases hx : x = k
        · simp [find?, hx, h2]
        · have : x ≠ k' := h2 ▸ hx
          simp [find?, hx, this]
      · rw [if_neg h1, if_neg h2]
        have ih' := ih hs'.2
        by_cases hx : x = k
        · subst hx
          simp only [find?, if_neg h2, if_true] at ih' ⊢
          exact ih'
        · by_cases hx' : x = k'
          · subst hx'
            simp [find?, hx]
          · simp only [find?, if_neg hx', if_neg hx] at ih' ⊢
            exact ih'

theorem keys_erase [LinearOrder K] (m : StdMap K V) (k : K) :
    keys (erase m k) = StdSet.erase (keys m) k := by
  induction m with
  | nil => rfl
  | cons p m ih =>
    simp only [erase, StdSet.erase, keys] at ih ⊢
    by_cases h : p.1 = k <;> simp [List.filter_cons, h, ih]

theorem sorted_erase [LinearOrder K] {m : StdMap K V} (hs : (keys m).Sorted (· < ·))
    (k : K) : (keys (erase m k)).Sorted (· < ·) := by
  rw [keys_erase]
  exact List.Sorted.filter _ hs

theorem find?_erase [LinearOrder K] (m : StdMap K V) (k x : K) :
    find? (erase m k) x = if x = k then none else find? m x := by
  induction m with
  | nil => simp [erase, find?]
  | cons p m ih =>
    obtain ⟨k', v⟩ := p
    simp only [erase] at ih ⊢
    by_cases h : k' = k
    · subst h
      by_cases hx : x = k'
      · subst hx
        simpa [List.filter_cons] using ih
      · simp [List.filter_cons, ih, find?, hx]
    · by_cases hx : x = k
      · subst hx
        simp [List.filter_cons, h, find?, ih, Ne.symm h]
      · simp [List.filter_cons, h, find?, ih, hx]

theorem erase_of_count_eq_zero [LinearOrder K] (m : StdMap K V) (k : K)
    (h : ¬ count m k > 0) : erase m k = m := by
  rw [count_pos_iff] at h
  simp only [erase]
  rw [List.filter_eq_self]
  intro p hp
  simp only [Bool.not_eq_true', decide_eq_false_iff_not]
  intro hk
  exact h (List.mem_map.2 ⟨p, hp, hk⟩)

theorem keys_emplace [LinearOrder K] (m : StdMap K V) (k : K) (v : V) :
    keys (emplace m k v) = StdSet.insert (keys m) k := by
  induction m with
  | nil => rfl
  | cons p m ih =>
    obtain ⟨k', v'⟩ := p
    simp only [emplace, keys] at ih ⊢
    simp only [update, List.map_cons, StdSet.insert]
    by_cases h1 : k < k'
    · simp [h1]
    · by_cases h2 : k = k'
      · simp [h2]
      · simp [h1, h2, ih]

end StdMap

namespace StdSet
variable {K : Type}

theorem mem_insert [LinearOrder K] (s : StdSet K) (k x : K) :
    x ∈ insert s k ↔ x = k ∨ x ∈ s := by
  induction s with
  | nil => simp [insert]
  | cons k' s ih =>
    unfold insert
    by_cases h1 : k < k'
    · simp [h1]
    · by_cases h2 : k = k'
      · simp [h2]
      · simp only [if_neg h1, if_neg h2, List.mem_cons, ih]; tauto

theorem sorted_insert [LinearOrder K] {s : StdSet K} (hs : s.Sorted (· < ·)) (k : K) :
    (insert s k).Sorted (· < ·) := by
  induction s with
  | nil => simp [insert]
  | cons k' s ih =>
    have hs' := List.sorted_cons.1 hs
    unfold insert
    by_cases h1 : k < k'
    · rw [if_pos h1]
      refine List.sorted_cons.2 ⟨?_, hs⟩
      intro x hx
      rcases List.mem_cons.1 hx with hx | hx
      · exact hx ▸ h1
      · exact lt_trans h1 (hs'.1 x hx)
    · by_cases h2 : k = k'
      · rw [if_neg h1, if_pos h2]; exact hs
      · rw [if_neg h1, if_neg h2]
        refine List.sorted_cons.2 ⟨?_, ih hs'.2⟩
        intro x hx
        rcases (mem_insert s k x).1 hx with hx | hx
        · rw [hx]; exact lt_of_le_of_ne (not_lt.1 h1) (Ne.symm h2)
        · exact hs'.1 x hx

theorem set_count_pos_iff [LinearOrder K] (s : StdSet K) (k : K) : count s k > 0 ↔ k ∈ s := by
  unfold count
  by_cases h : k ∈ s <;> simp [h]

theorem mem_erase [LinearOrder K] (s : StdSet K) (k x : K) :
    x ∈ erase s k ↔ x ≠ k ∧ x ∈ s := by
  simp [erase, List.mem_filter, and_comm]

end StdSet

/-- Two strictly ascending lists with the same elements are equal. -/
theorem sorted_ext {K : Type} [LinearOrder K] {l₁ l₂ : List K} (h₁ : l₁.Sorted (· < ·))
    (h₂ : l₂.Sorted (· < ·)) (h : ∀ x, x ∈ l₁ ↔ x ∈ l₂) : l₁ = l₂ :=
  List.eq_of_perm_of_sorted ((List.perm_ext_iff_of_nodup h₁.nodup h₂.nodup).2 h) h₁ h₂

namespace StdMap
variable {K V : Type}

theorem find2?_update2 {K₁ K₂ : Type} [LinearOrder K₁] [LinearOrder K₂]
    {m : StdMap K₁ (StdMap K₂ V)} (hs : (keys m).Sorted (· < ·))
    (hi : ∀ k i, find? m k = some i → (keys i).Sorted (· < ·))
    (k₁ : K₁) (k₂ : K₂) (d : V) (f : V → V) (x₁ : K₁) (x₂ : K₂) :
    find2? (update m k₁ [] (fun i => update i k₂ d f)) x₁ x₂ =
      if x₁ = k₁ ∧ x₂ = k₂ then some (f ((find2? m k₁ k₂).getD d)) else find2? m x₁ x₂ := by
  unfold find2?
  rw [find?_update hs]
  by_cases h1 : x₁ = k₁
  · subst h1
    have hsi : (keys ((find? m x₁).getD [])).Sorted (· < ·) := by
      cases hf : find? m x₁ with
      | none => simp [keys]
      | some i => exact hi _ _ hf
    simp only [if_true, Option.some_bind, true_and]
    rw [find?_update hsi]
    cases hf : find? m x₁ <;> simp [find?]
  · simp [h1]

theorem sorted_inner_update2 {K₁ K₂ : Type} [LinearOrder K₁] [LinearOrder K₂]
    {m : StdMap K₁ (StdMap K₂ V)} (hs : (keys m).Sorted (· < ·))
    (hi : ∀ k i, find? m k = some i → (keys i).Sorted (· < ·))
    (k₁ : K₁) (k₂ : K₂) (d : V) (f : V → V) (x : K₁) (i : StdMap K₂ V)
    (h : find? (update m k₁ [] (fun i => update i k₂ d f)) x = some i) :
    (keys i).Sorted (· < ·) := by
  rw [find?_update hs] at h
  by_cases h1 : x = k₁
  · subst h1
    simp only [if_true, Option.some.injEq] at h
    rw [← h]
    apply sorted_update
    cases hf : find? m x with
    | none => simp [keys]
    | some i => exact hi _ _ hf
  · rw [if_neg h1] at h
    exact hi _ _ h

theorem find?_map_snd [LinearOrder K] {W : Type} (m : StdMap K V) (g : K × V → K × W)
    (h : V → W) (hg : ∀ p, g p = (p.1, h p.2)) (k : K) :
    find? (m.map g) k = (find? m k).map h := by
  induction m with
  | nil => rfl
  | cons p m ih =>
    obtain ⟨k', v⟩ := p
    simp only [List.map_cons, hg, find?]
    by_cases hk : k = k'
    · simp [hk]
    · simp only [if_neg hk]; exact ih

theorem keys_map_snd {W : Type} (m : StdMap K V) (g : K × V → K × W)
    (hg : ∀ p, (g p).1 = p.1) : keys (m.map g) = keys m := by
  simp only [keys, List.map_map]
  apply List.map_congr_left
  intro p _
  exact hg p

end StdMap

theorem IndexInv.empty {R : Type} : IndexInv ([] : StdMap Str (StdMap Int R)) [] :=
  ⟨by simp [StdMap.keys], by simp [StdMap.find?], by simp [StdMap.keys],
   by simp [StdMap.find?], by simp [StdMap.find2?, StdMap.find?]⟩

theorem IndexInv.step {R : Type} [Zero R] [Add R] {inverted : StdMap Str (StdMap Int R)}
    {forward : StdMap Int (StdMap Str R)} (h : IndexInv inverted forward)
    (word : Str) (document_id : Int) (delta : R) :
    IndexInv
      (StdMap.update inverted word [] (fun freqs =>
        StdMap.update freqs document_id 0 (fun v => v + delta)))
      (StdMap.update forward document_id [] (fun freqs =>
        StdMap.update freqs word 0 (fun v => v + delta))) where
  inv_sorted := StdMap.sorted_update h.inv_sorted _ _ _
  inv_inner_sorted := fun w m hm =>
    StdMap.sorted_inner_update2 h.inv_sorted h.inv_inner_sorted _ _ _ _ w m hm
  fwd_sorted := StdMap.sorted_update h.fwd_sorted _ _ _
  fwd_inner_sorted := fun d m hm =>
    StdMap.sorted_inner_update2 h.fwd_sorted h.fwd_inner_sorted _ _ _ _ d m hm
  transpose := by
    intro w d
    rw [StdMap.find2?_update2 h.inv_sorted h.inv_inner_sorted,
      StdMap.find2?_update2 h.fwd_sorted h.fwd_inner_sorted, h.transpose, h.transpose]
    by_cases h1 : w = word <;> by_cases h2 : d = document_id <;> simp [h1, h2]

theorem IndexInv.remove_document {R : Type} {inverted : StdMap Str (StdMap Int R)}
    {forward : StdMap Int (StdMap Str R)} (h : IndexInv inverted forward) (document_id : Int) :
    IndexInv
      (inverted.map (fun word_freqs =>
        if StdMap.count word_freqs.2 document_id > 0 then
          (word_freqs.1, StdMap.erase word_freqs.2 document_id)
        else word_freqs))
      (StdMap.erase forward document_id) := by
  have hg : ∀ p : Str × StdMap Int R,
      (if StdMap.count p.2 document_id > 0 then (p.1, StdMap.erase p.2 document_id) else p)
        = (p.1, StdMap.erase p.2 document_id) := by
    intro p
    by_cases hc : StdMap.count p.2 document_id > 0
    · rw [if_pos hc]
    · rw [if_neg hc, StdMap.erase_of_count_eq_zero _ _ hc]
  have hfind := fun w => StdMap.find?_map_snd inverted _ (fun m => StdMap.erase m document_id) hg w
  refine ⟨?_, ?_, StdMap.sorted_erase h.fwd_sorted _, ?_, ?_⟩
  · rw [StdMap.keys_map_snd]
    · exact h.inv_sorted
    · intro p; rw [hg]
  · intro w m hm
    rw [hfind] at hm
    cases hf : StdMap.find? inverted w with
    | none => simp [hf] at hm
    | some i =>
      simp only [hf, Option.map_some', Option.some.injEq] at hm
      rw [← hm]
      exact StdMap.sorted_erase (h.inv_inner_sorted _ _ hf) _
  · intro d m hm
    rw [StdMap.find?_erase] at hm
    by_cases hd : d = document_id
    · simp [hd] at hm
    · rw [if_neg hd] at hm
      exact h.fwd_inner_sorted _ _ hm
  · intro w d
    have ht := h.transpose w d
    unfold StdMap.find2? at ht ⊢
    rw [hfind, StdMap.find?_erase]
    by_cases hd : d = document_id
    · subst hd
      cases hf : StdMap.find? inverted w <;> simp [StdMap.find?_erase]
    · rw [if_neg hd, ← ht]
      cases hf : StdMap.find? inverted w <;> simp [StdMap.find?_erase, hd]

namespace SearchServer
variable {R : Type}

theorem AddDocumentStep_fold_fixed [Zero R] [Add R] (document_id : Int) (delta : R)
    (words : List Str) (acc : StdSet Str × SearchServer R) :
    (words.foldl (AddDocumentStep document_id delta) acc).2.documents_ = acc.2.documents_ ∧
    (words.foldl (AddDocumentStep document_id delta) acc).2.document_ids_ = acc.2.document_ids_ ∧
    (words.foldl (AddDocumentStep document_id delta) acc).2.stop_words_ = acc.2.stop_words_ := by
  induction words generalizing acc with
  | nil => simp
  | cons w ws ih =>
    simp only [List.foldl_cons]
    obtain ⟨h1, h2, h3⟩ := ih (AddDocumentStep document_id delta acc w)
    exact ⟨h1, h2, h3⟩

theorem AddDocumentStep_fold_index [Zero R] [Add R] (document_id : Int) (delta : R)
    (words : List Str) (acc : StdSet Str × SearchServer R)
    (h : IndexInv acc.2.word_to_document_freqs_ acc.2.document_to_word_freqs_) :
    IndexInv (words.foldl (AddDocumentStep document_id delta) acc).2.word_to_document_freqs_
      (words.foldl (AddDocumentStep document_id delta) acc).2.document_to_word_freqs_ := by
  induction words generalizing acc with
  | nil => exact h
  | cons w ws ih =>
    simp only [List.foldl_cons]
    exact ih _ (h.step w document_id delta)

theorem AddDocumentStep_fold_fwd_keys [Zero R] [Add R] (document_id : Int) (delta : R)
    (words : List Str) (acc : StdSet Str × SearchServer R) (d : Int)
    (h : d ∈ StdMap.keys
      (words.foldl (AddDocumentStep document_id delta) acc).2.document_to_word_freqs_) :
    d = document_id ∨ d ∈ StdMap.keys acc.2.document_to_word_freqs_ := by
  induction words generalizing acc with
  | nil => exact Or.inr h
  | cons w ws ih =>
    simp only [List.foldl_cons] at h
    rcases ih _ h with h | h
    · exact Or.inl h
    · exact (StdMap.keys_update_mem _ _ _ _ _).1 h

theorem Inv.create (stop_words : List Str) (s : SearchServer R)
    (h : SearchServer.create stop_words = .ok s) : s.Inv := by
  simp only [SearchServer.create] at h
  split at h
  · cases h
  · cases h
    exact ⟨by simp [StdMap.keys], rfl, by simp [StdMap.keys], IndexInv.empty⟩

theorem Inv.add [DivisionRing R] {s : SearchServer R} (h : s.Inv) (document_id : Int)
    (document : Str) (status : DocumentStatus) (ratings : List Int) :
    (s.AddDocument document_id document status ratings).2.Inv := by
  unfold AddDocument
  split
  · exact h
  · split
    · exact h
    · rename_i words _
      obtain ⟨h1, h2, _⟩ := AddDocumentStep_fold_fixed document_id (1 / (words.length : R))
        words ([], s)
      refine ⟨?_, ?_, ?_, ?_⟩
      · simp only [h1]
        exact StdMap.sorted_update h.docs_sorted _ _ _
      · simp only [h1, h2, StdMap.keys_emplace, h.ids_eq]
      · intro d hd
        simp only [h1, StdMap.keys_emplace, StdSet.mem_insert]
        rcases AddDocumentStep_fold_fwd_keys _ _ _ _ d hd with hd | hd
        · exact Or.inl hd
        · exact Or.inr (h.fwd_keys d hd)
      · exact AddDocumentStep_fold_index _ _ _ _ h.index

theorem Inv.remove_preserved {s : SearchServer R} (h : s.Inv) (document_id : Int) :
    (s.RemoveDocument document_id).Inv := by
  unfold RemoveDocument
  split
  · refine ⟨StdMap.sorted_erase h.docs_sorted _, ?_, ?_, h.index.remove_document document_id⟩
    · simp only [StdMap.keys_erase, h.ids_eq]
    · intro d hd
      simp only [StdMap.keys_erase, StdSet.mem_erase] at hd ⊢
      exact ⟨hd.1, h.fwd_keys d hd.2⟩
  · exact h

theorem Reachable.inv [DivisionRing R] {s : SearchServer R} (h : s.Reachable) : s.Inv := by
  induction h with
  | create stop_words s h => exact Inv.create stop_words s h
  | add s document_id document status ratings _ ih => exact ih.add _ _ _ _
  | remove s document_id _ ih => exact ih.remove_preserved _

end SearchServer


namespace SearchServer
variable {R : Type}

theorem SplitIntoWordsNoStop_fold (s : SearchServer R) (l : List Str) (acc : List Str) :
    l.foldlM (fun words word =>
      if !IsValidWord word then (Except.error Error.invalid_argument : Except Error (List Str))
      else if !s.IsStopWord word then .ok (words ++ [word])
      else .ok words) acc =
    if l.all IsValidWord then .ok (acc ++ l.filter (fun w => !s.IsStopWord w))
    else .error .invalid_argument := by
  induction l generalizing acc with
  | nil => simp [pure, Except.pure]
  | cons w ws ih =>
    rw [List.foldlM_cons]
    by_cases hv : IsValidWord w = true
    · by_cases hst : s.IsStopWord w = true
      · simp only [hv, hst, Bool.not_true, Bool.false_eq_true, if_false, bind, Except.bind, ih,
          List.all_cons, Bool.true_and, List.filter_cons]
      · rw [Bool.not_eq_true] at hst
        simp only [hv, hst, Bool.not_true, Bool.not_false, Bool.false_eq_true, if_false,
          if_true, bind, Except.bind, ih, List.all_cons, Bool.true_and, List.filter_cons,
          List.append_assoc, List.singleton_append]
    · rw [Bool.not_eq_true] at hv
      simp only [hv, Bool.not_false, if_true, bind, Except.bind, List.all_cons,
        Bool.false_and, Bool.false_eq_true, if_false]

theorem SplitIntoWordsNoStop_eq (s : SearchServer R) (text : Str) :
    s.SplitIntoWordsNoStop text =
      if (SplitIntoWords text).all IsValidWord then
        .ok ((SplitIntoWords text).filter (fun w => !s.IsStopWord w))
      else .error .invalid_argument := by
  unfold SplitIntoWordsNoStop
  rw [SplitIntoWordsNoStop_fold]
  simp

theorem all_IsValidWord_iff (l : List Str) :
    l.all IsValidWord = true ↔ ¬ ∃ word ∈ l, ∃ c ∈ word, c.toNat < 0x20 := by
  simp [IsValidWord]

theorem AddDocument_of_bad [DivisionRing R] (s : SearchServer R) (document_id : Int)
    (document : Str) (status : DocumentStatus) (ratings : List Int)
    (h : document_id < 0 ∨ document_id ∈ StdMap.keys s.documents_ ∨
        ∃ word ∈ SplitIntoWords document, ∃ c ∈ word, c.toNat < 0x20) :
    s.AddDocument document_id document status ratings = (.error .invalid_argument, s) := by
  have hsplit := SplitIntoWordsNoStop_eq s document
  unfold AddDocument
  simp only [StdMap.count_pos_iff]
  by_cases h1 : document_id < 0 ∨ document_id ∈ StdMap.keys s.documents_
  · rw [if_pos h1]
  · have hv : ¬ (SplitIntoWords document).all IsValidWord = true := by
      rw [all_IsValidWord_iff]
      intro hc
      apply hc
      tauto
    rw [if_neg hv] at hsplit
    rw [if_neg h1]
    simp only [hsplit]

theorem AddDocument_of_good [DivisionRing R] (s : SearchServer R) (document_id : Int)
    (document : Str) (status : DocumentStatus) (ratings : List Int)
    (h : ¬ (document_id < 0 ∨ document_id ∈ StdMap.keys s.documents_ ∨
        ∃ word ∈ SplitIntoWords document, ∃ c ∈ word, c.toNat < 0x20))
    (words : List Str)
    (hw : words = (SplitIntoWords document).filter (fun w => !s.IsStopWord w))
    (acc : StdSet Str × SearchServer R)
    (hacc : acc = words.foldl (AddDocumentStep document_id (1 / (words.length : R))) ([], s)) :
    s.AddDocument document_id document status ratings =
      (.ok (),
       { acc.2 with
         documents_ := StdMap.emplace acc.2.documents_ document_id
           ⟨ComputeAverageRating ratings, status, acc.1⟩
         document_ids_ := StdSet.insert acc.2.document_ids_ document_id }) := by
  have hsplit := SplitIntoWordsNoStop_eq s document
  unfold AddDocument
  simp only [StdMap.count_pos_iff]
  have h1 : ¬ (document_id < 0 ∨ document_id ∈ StdMap.keys s.documents_) := by tauto
  have hv : (SplitIntoWords document).all IsValidWord = true := by
    rw [all_IsValidWord_iff]
    exact fun hc => h (Or.inr (Or.inr hc))
  rw [if_pos hv] at hsplit
  rw [if_neg h1]
  simp only [hsplit]
  rw [hacc, hw]

end SearchServer

namespace StdMap
variable {K : Type}

theorem sum_values_update {R : Type} [LinearOrder K] [AddCommMonoid R] (m : StdMap K R)
    (k : K) (delta : R) :
    ((update m k 0 (fun v => v + delta)).map Prod.snd).sum = (m.map Prod.snd).sum + delta := by
  induction m with
  | nil => simp [update]
  | cons p m ih =>
    obtain ⟨k', v⟩ := p
    unfold update
    by_cases h1 : k < k'
    · simp only [if_pos h1, List.map_cons, List.sum_cons, zero_add]
      rw [add_comm]
    · by_cases h2 : k = k'
      · simp only [if_neg h1, if_pos h2, List.map_cons, List.sum_cons]
        rw [add_right_comm]
      · simp only [if_neg h1, if_neg h2, List.map_cons, List.sum_cons, ih, add_assoc]

end StdMap

namespace SearchServer
variable {R : Type}

theorem find?_GetWordFrequencies (s : SearchServer R) (document_id : Int) (word : Str) :
    StdMap.find? (s.GetWordFrequencies document_id) word =
      StdMap.find2? s.document_to_word_freqs_ document_id word := by
  unfold GetWordFrequencies StdMap.find2? StdMap.count
  cases h : StdMap.find? s.document_to_word_freqs_ document_id <;> simp [StdMap.find?]

theorem GetWordFrequencies_eq (s : SearchServer R) (document_id : Int) :
    s.GetWordFrequencies document_id =
      (StdMap.find? s.document_to_word_freqs_ document_id).getD [] := by
  unfold GetWordFrequencies StdMap.count
  cases h : StdMap.find? s.document_to_word_freqs_ document_id <;> simp

theorem AddDocumentStep_fold_find2? [CommRing R] (document_id : Int) (delta : R)
    (words : List Str) (acc : StdSet Str × SearchServer R)
    (h : IndexInv acc.2.word_to_document_freqs_ acc.2.document_to_word_freqs_)
    (d : Int) (w : Str) :
    StdMap.find2? (words.foldl (AddDocumentStep document_id delta) acc).2.document_to_word_freqs_
        d w =
      if d = document_id ∧ w ∈ words then
        some ((StdMap.find2? acc.2.document_to_word_freqs_ d w).getD 0 + (words.count w : R) * delta)
      else StdMap.find2? acc.2.document_to_word_freqs_ d w := by
  induction words generalizing acc with
  | nil => simp
  | cons x xs ih =>
    simp only [List.foldl_cons]
    rw [ih _ (h.step x document_id delta)]
    simp only [AddDocumentStep]
    rw [StdMap.find2?_update2 h.fwd_sorted h.fwd_inner_sorted]
    by_cases hd : d = document_id
    · subst hd
      by_cases hx : w = x
      · subst hx
        by_cases hxs : w ∈ xs
        · simp [hxs, List.count_cons_self]
          ring
        · simp [hxs, List.count_cons_self, List.count_eq_zero_of_not_mem hxs]
      · by_cases hxs : w ∈ xs
        · simp [hx, hxs, List.count_cons_of_ne (Ne.symm hx)]
        · simp [hx, hxs]
    · simp [hd]

theorem AddDocumentStep_fold_sum [CommRing R] (document_id : Int) (delta : R)
    (words : List Str) (acc : StdSet Str × SearchServer R)
    (h : IndexInv acc.2.word_to_document_freqs_ acc.2.document_to_word_freqs_) :
    ((((StdMap.find? (words.foldl (AddDocumentStep document_id delta) acc).2.document_to_word_freqs_
        document_id).getD []).map Prod.snd).sum : R) =
      (((StdMap.find? acc.2.document_to_word_freqs_ document_id).getD []).map Prod.snd).sum
        + (words.length : R) * delta := by
  induction words generalizing acc with
  | nil => simp
  | cons x xs ih =>
    simp only [List.foldl_cons]
    rw [ih _ (h.step x document_id delta)]
    simp only [AddDocumentStep]
    rw [StdMap.find?_update h.fwd_sorted]
    simp only [if_true, Option.getD_some, StdMap.sum_values_update, List.length_cons,
      Nat.cast_add, Nat.cast_one]
    ring

end SearchServer

namespace SearchServer
variable {R : Type}

theorem filter_IsStopWord (s : SearchServer R) (l : List Str) :
    l.filter (fun w => !s.IsStopWord w) = l.filter (fun w => decide (w ∉ s.stop_words_)) := by
  apply List.filter_congr
  intro w _
  by_cases h : w ∈ s.stop_words_ <;> simp [IsStopWord, StdSet.set_count_pos_iff, h]

theorem AddDocument_ok_state [DivisionRing R] (s : SearchServer R) (document_id : Int)
    (document : Str) (status : DocumentStatus) (ratings : List Int)
    (h : (s.AddDocument document_id document status ratings).1 = .ok ()) :
    (0 ≤ document_id ∧ document_id ∉ StdMap.keys s.documents_) ∧
    (s.AddDocument document_id document status ratings).2.document_to_word_freqs_ =
      ((nonStopTokens s document).foldl
        (AddDocumentStep document_id (1 / ((nonStopTokens s document).length : R)))
        ([], s)).2.document_to_word_freqs_ := by
  by_cases hc : document_id < 0 ∨ document_id ∈ StdMap.keys s.documents_ ∨
        ∃ word ∈ SplitIntoWords document, ∃ c ∈ word, c.toNat < 0x20
  · rw [AddDocument_of_bad s _ _ _ _ hc] at h
    cases h
  · rw [AddDocument_of_good s _ _ _ _ hc _ rfl _ rfl]
    refine ⟨⟨?_, ?_⟩, ?_⟩
    · exact not_lt.1 (fun h1 => hc (Or.inl h1))
    · exact fun h1 => hc (Or.inr (Or.inl h1))
    · simp only [nonStopTokens, filter_IsStopWord]

theorem AddDocument_find2? [Field R] {s : SearchServer R} (hs : s.Inv) (document_id : Int)
    (document : Str) (status : DocumentStatus) (ratings : List Int)
    (h : (s.AddDocument document_id document status ratings).1 = .ok ()) (w : Str) :
    StdMap.find? ((s.AddDocument document_id document status ratings).2.GetWordFrequencies
        document_id) w =
      if w ∈ nonStopTokens s document then
        some (((nonStopTokens s document).count w : R) / ((nonStopTokens s document).length : R))
      else none := by
  obtain ⟨⟨_, h2⟩, h3⟩ := AddDocument_ok_state s document_id document status ratings h
  have hn : ∀ w, StdMap.find2? s.document_to_word_freqs_ document_id w = none := by
    intro w
    have : StdMap.find? s.document_to_word_freqs_ document_id = none := by
      rw [StdMap.find?_eq_none_iff]
      exact fun hk => h2 (hs.fwd_keys _ hk)
    simp [StdMap.find2?, this]
  rw [find?_GetWordFrequencies, h3, AddDocumentStep_fold_find2? _ _ _ _ hs.index, hn]
  simp [div_eq_mul_inv]

end SearchServer


namespace SearchServer
variable {R : Type}

theorem GetWordFrequencies_sorted {s : SearchServer R} (hs : s.Inv) (document_id : Int) :
    (StdMap.keys (s.GetWordFrequencies document_id)).Sorted (· < ·) := by
  rw [GetWordFrequencies_eq]
  cases h : StdMap.find? s.document_to_word_freqs_ document_id with
  | none => simp [StdMap.keys]
  | some m => exact hs.index.fwd_inner_sorted _ _ h

end SearchServer

theorem bucketIndex_lt (B : Nat) (key : Int) (h : B ≠ 0) : bucketIndex B key < B :=
  Nat.mod_lt _ (Nat.pos_of_ne_zero h)

theorem List.getD_set_eq_ite {α : Type} (l : List α) (i j : Nat) (a d : α) (hi : i < l.length) :
    (l.set i a).getD j d = if j = i then a else l.getD j d := by
  simp only [List.getD_eq_getElem?_getD, List.getElem?_set]
  by_cases h : i = j
  · subst h; simp [hi]
  · simp [h, Ne.symm h]

namespace ConcurrentSet

theorem Contains_eq (cs : ConcurrentSet) (value : Int) (h : cs.bucket_.length ≠ 0) :
    cs.Contains value = .ok (cs.has value) := by
  simp [Contains, has, bucketIndex, h]

theorem Insert_spec (cs : ConcurrentSet) (value : Int) (h : cs.bucket_.length ≠ 0) :
    ∃ cs', cs.Insert value = .ok cs' ∧ cs'.bucket_.length = cs.bucket_.length ∧
      ∀ x, cs'.has x = (decide (x = value) || cs.has x) := by
  refine ⟨⟨cs.bucket_.set (bucketIndex cs.bucket_.length value)
      (StdSet.insert (cs.bucket_.getD (bucketIndex cs.bucket_.length value) []) value)⟩, ?_, ?_, ?_⟩
  · simp [Insert, bucketIndex, h]
  · simp
  · intro x
    simp only [has, List.length_set]
    rw [List.getD_set_eq_ite _ _ _ _ _ (bucketIndex_lt _ _ h)]
    by_cases hx : bucketIndex cs.bucket_.length x = bucketIndex cs.bucket_.length value
    · rw [if_pos hx, hx]
      simp only [StdSet.set_count_pos_iff, StdSet.mem_insert]
      by_cases hxv : x = value <;> simp [hxv]
    · rw [if_neg hx]
      have hxv : x ≠ value := fun e => hx (e ▸ rfl)
      simp [hxv]

theorem has_create (n : Nat) (x : Int) : (create n).has x = false := by
  simp only [has, create, List.length_replicate, StdSet.set_count_pos_iff, decide_eq_false_iff_not,
    List.getD_eq_getElem?_getD]
  by_cases h : bucketIndex n x < n
  · simp [List.getElem?_replicate, h]
  · simp [List.getElem?_replicate, h]

end ConcurrentSet

namespace SearchServer
variable {R : Type}

theorem insert_fold (freqs : StdMap Int R) (bad : ConcurrentSet)
    (h : freqs ≠ [] → bad.bucket_.length ≠ 0) :
    ∃ bad', freqs.foldlM (fun b entry => ConcurrentSet.Insert b entry.1) bad = .ok bad' ∧
      bad'.bucket_.length = bad.bucket_.length ∧
      ∀ x, bad'.has x = (bad.has x || decide (x ∈ StdMap.keys freqs)) := by
  induction freqs generalizing bad with
  | nil => exact ⟨bad, rfl, rfl, by simp [StdMap.keys]⟩
  | cons e rest ih =>
    have hB := h (List.cons_ne_nil _ _)
    obtain ⟨b1, h1, h2, h3⟩ := ConcurrentSet.Insert_spec bad e.1 hB
    obtain ⟨b2, h4, h5, h6⟩ := ih b1 (fun _ => h2 ▸ hB)
    refine ⟨b2, ?_, h5.trans h2, ?_⟩
    · rw [List.foldlM_cons, h1]
      exact h4
    · intro x
      rw [h6, h3]
      simp only [StdMap.keys, List.map_cons, List.mem_cons]
      by_cases hx : x = e.1 <;> simp [hx]

theorem markBadDocuments_spec (s : SearchServer R) (query : Query) (bad : ConcurrentSet)
    (h : ∀ w m, StdMap.find? s.word_to_document_freqs_ w = some m → m ≠ [] →
      bad.bucket_.length ≠ 0) :
    ∃ bad', s.markBadDocuments query bad = .ok bad' ∧
      bad'.bucket_.length = bad.bucket_.length ∧
      ∀ x, bad'.has x = true ↔ (bad.has x = true ∨
        ∃ w ∈ query.minus_words, (StdMap.find2? s.word_to_document_freqs_ w x).isSome = true) := by
  unfold markBadDocuments
  generalize query.minus_words = ws
  induction ws generalizing bad with
  | nil => exact ⟨bad, rfl, rfl, by simp⟩
  | cons w ws ih =>
    rw [List.foldlM_cons]
    cases hf : StdMap.find? s.word_to_document_freqs_ w with
    | none =>
      obtain ⟨b2, h4, h5, h6⟩ := ih bad h
      refine ⟨b2, ?_, h5, ?_⟩
      · simp only [StdMap.count, hf, Option.isSome_none, Bool.false_eq_true, if_false, bne_self_eq_false,
          pure, Except.pure, bind, Except.bind]
        exact h4
      · intro x
        rw [h6]
        simp [StdMap.find2?, hf]
    | some m =>
      obtain ⟨b1, h1, h2, h3⟩ := insert_fold m bad (h w m hf)
      obtain ⟨b2, h4, h5, h6⟩ := ih b1 (fun w m hm hne => h2 ▸ h w m hm hne)
      refine ⟨b2, ?_, h5.trans h2, ?_⟩
      · simp only [StdMap.count, StdMap.atKey, hf, Option.isSome_some, if_true, bind, Except.bind, h1]
        exact h4
      · intro x
        rw [h6, h3]
        simp only [Bool.or_eq_true, decide_eq_true_eq, List.mem_cons, exists_eq_or_imp,
          StdMap.find2?, hf, Option.some_bind, StdMap.find?_isSome_iff]
        tauto

end SearchServer

namespace ConcurrentMap
variable {V : Type}

theorem WF_create (n : Nat) : (create n : ConcurrentMap V).WF := by
  intro i hi
  simp only [create, List.length_replicate] at hi
  simp [create, List.getD_eq_getElem?_getD, List.getElem?_replicate, hi, StdMap.keys]

theorem get_create (n : Nat) (x : Int) : (create n : ConcurrentMap V).get x = none := by
  simp only [get, create, List.length_replicate, List.getD_eq_getElem?_getD]
  by_cases h : bucketIndex n x < n
  · simp [List.getElem?_replicate, h, StdMap.find?]
  · simp [List.getElem?_replicate, h, StdMap.find?]

theorem accumulate_spec [Zero V] [Add V] (cm : ConcurrentMap V) (key : Int) (delta : V)
    (h : cm.bucket_.length ≠ 0) (hwf : cm.WF) :
    ∃ cm', cm.accumulate key delta = .ok cm' ∧ cm'.bucket_.length = cm.bucket_.length ∧
      cm'.WF ∧
      ∀ x, cm'.get x = if x = key then some ((cm.get key).getD 0 + delta) else cm.get x := by
  have hlt := bucketIndex_lt _ key h
  have hs := (hwf _ hlt).1
  refine ⟨⟨cm.bucket_.set (bucketIndex cm.bucket_.length key)
      (StdMap.update (cm.bucket_.getD (bucketIndex cm.bucket_.length key) []) key 0
        (fun v => v + delta))⟩, ?_, ?_, ?_, ?_⟩
  · simp [accumulate, bucketIndex, h]
  · simp
  · intro i hi
    simp only [List.length_set] at hi ⊢
    rw [List.getD_set_eq_ite _ _ _ _ _ hlt]
    by_cases hik : i = bucketIndex cm.bucket_.length key
    · rw [if_pos hik]
      refine ⟨StdMap.sorted_update hs _ _ _, ?_⟩
      intro k hk
      rcases (StdMap.keys_update_mem _ _ _ _ _).1 hk with hk | hk
      · rw [hk, hik]
      · rw [hik]; exact (hwf _ hlt).2 k hk
    · rw [if_neg hik]
      exact hwf i hi
  · intro x
    simp only [get, List.length_set]
    rw [List.getD_set_eq_ite _ _ _ _ _ hlt]
    by_cases hx : bucketIndex cm.bucket_.length x = bucketIndex cm.bucket_.length key
    · rw [if_pos hx, StdMap.find?_update hs, hx]
    · rw [if_neg hx]
      have hxv : x ≠ key := fun e => hx (e ▸ rfl)
      simp [hxv]

theorem emplace_fold_find? (bucket r : StdMap Int V) (hr : (StdMap.keys r).Sorted (· < ·)) :
    (StdMap.keys (bucket.foldl (fun r kv => StdMap.emplace r kv.1 kv.2) r)).Sorted (· < ·) ∧
    ∀ x, StdMap.find? (bucket.foldl (fun r kv => StdMap.emplace r kv.1 kv.2) r) x =
      (StdMap.find? r x).or (StdMap.find? bucket x) := by
  induction bucket generalizing r with
  | nil => exact ⟨hr, by simp [StdMap.find?]⟩
  | cons kv rest ih =>
    obtain ⟨k, v⟩ := kv
    simp only [List.foldl_cons]
    obtain ⟨h1, h2⟩ := ih (StdMap.emplace r k v) (StdMap.sorted_update hr _ _ _)
    refine ⟨h1, ?_⟩
    intro x
    rw [h2]
    simp only [StdMap.emplace, StdMap.find?_update hr, StdMap.find?]
    by_cases hx : x = k
    · subst hx
      cases hf : StdMap.find? r x <;> simp
    · simp [hx]

theorem build_fold_find? (buckets : List (StdMap Int V)) (r : StdMap Int V)
    (hr : (StdMap.keys r).Sorted (· < ·)) :
    (StdMap.keys (buckets.foldl (fun result bucket =>
      bucket.foldl (fun r kv => StdMap.emplace r kv.1 kv.2) result) r)).Sorted (· < ·) ∧
    ∀ x, StdMap.find? (buckets.foldl (fun result bucket =>
      bucket.foldl (fun r kv => StdMap.emplace r kv.1 kv.2) result) r) x =
      (StdMap.find? r x).or (buckets.findSome? (fun b => StdMap.find? b x)) := by
  induction buckets generalizing r with
  | nil => exact ⟨hr, by simp⟩
  | cons b rest ih =>
    simp only [List.foldl_cons]
    obtain ⟨h0, h0'⟩ := emplace_fold_find? b r hr
    obtain ⟨h1, h2⟩ := ih _ h0
    refine ⟨h1, ?_⟩
    intro x
    rw [h2, h0', List.findSome?_cons]
    cases StdMap.find? r x <;> cases StdMap.find? b x <;> simp

theorem findSome?_bucket (buckets : List (StdMap Int V)) (x : Int) (i : Nat)
    (h : ∀ j, j < buckets.length → j ≠ i → StdMap.find? (buckets.getD j []) x = none) :
    buckets.findSome? (fun b => StdMap.find? b x) = StdMap.find? (buckets.getD i []) x := by
  induction buckets generalizing i with
  | nil => simp [StdMap.find?]
  | cons b rest ih =>
    rw [List.findSome?_cons]
    cases i with
    | zero =>
      have hrest : rest.findSome? (fun b => StdMap.find? b x) = none := by
        rw [List.findSome?_eq_none_iff]
        intro b' hb'
        obtain ⟨j, hj, rfl⟩ := List.getElem_of_mem hb'
        have := h (j + 1) (by simp; omega) (by omega)
        simpa [List.getD_eq_getElem?_getD, hj] using this
      simp only [List.getD_cons_zero]
      cases StdMap.find? b x <;> simp [hrest]
    | succ i =>
      have hb : StdMap.find? b x = none := by
        have := h 0 (by simp) (by omega)
        simpa using this
      simp only [hb, List.getD_cons_succ]
      apply ih
      intro j hj hji
      have := h (j + 1) (by simp; omega) (by omega)
      simpa using this

theorem BuildOrdinaryMap_spec (cm : ConcurrentMap V) (hwf : cm.WF) :
    (StdMap.keys cm.BuildOrdinaryMap).Sorted (· < ·) ∧
    ∀ x, StdMap.find? cm.BuildOrdinaryMap x = cm.get x := by
  obtain ⟨h1, h2⟩ := build_fold_find? cm.bucket_ [] (by simp [StdMap.keys])
  refine ⟨h1, ?_⟩
  intro x
  unfold BuildOrdinaryMap
  rw [h2]
  simp only [StdMap.find?, Option.none_or, get]
  apply findSome?_bucket
  intro j hj hji
  rw [StdMap.find?_eq_none_iff]
  intro hk
  exact hji ((hwf j hj).2 x hk).symm

end ConcurrentMap

namespace SearchServer
variable {R : Type}

theorem Inv.entry_stored {s : SearchServer R} (hs : s.Inv) {w : Str} {m : StdMap Int R}
    (hm : StdMap.find? s.word_to_document_freqs_ w = some m) {k : Int}
    (hk : k ∈ StdMap.keys m) : k ∈ StdMap.keys s.documents_ := by
  apply hs.fwd_keys
  rw [← StdMap.find?_isSome_iff] at hk ⊢
  have ht := hs.index.transpose w k
  simp only [StdMap.find2?, hm, Option.some_bind] at ht
  cases hf : StdMap.find? s.document_to_word_freqs_ k with
  | none => rw [hf] at ht; simp [ht] at hk
  | some f => rfl

theorem Inv.ids_length_ne_zero {s : SearchServer R} (hs : s.Inv) {w : Str} {m : StdMap Int R}
    (hm : StdMap.find? s.word_to_document_freqs_ w = some m) (hne : m ≠ []) :
    s.document_ids_.length ≠ 0 := by
  obtain ⟨e, rest, rfl⟩ := List.exists_cons_of_ne_nil hne
  have := hs.entry_stored hm (k := e.1) (by simp [StdMap.keys])
  rw [hs.ids_eq]
  intro h0
  rw [List.length_eq_zero] at h0
  rw [h0] at this
  simp at this

theorem seq_inner [DivisionRing R] (s : SearchServer R) (bad_documents : ConcurrentSet)
    (document_predicate : DocumentPredicate) (inverse_document_freq : R)
    (freqs : StdMap Int R) (rel : ConcurrentMap R)
    (hsorted : (StdMap.keys freqs).Sorted (· < ·))
    (hdocs : ∀ k ∈ StdMap.keys freqs, k ∈ StdMap.keys s.documents_)
    (hbad : freqs ≠ [] → bad_documents.bucket_.length ≠ 0)
    (hB : rel.bucket_.length ≠ 0) (hwf : rel.WF) :
    ∃ rel', freqs.foldlM
        (s.addRelevanceSeq bad_documents document_predicate inverse_document_freq) rel =
        .ok rel' ∧
      rel'.bucket_.length = rel.bucket_.length ∧ rel'.WF ∧
      ∀ x, rel'.get x =
        match StdMap.find? freqs x with
        | some tf =>
          if s.passes bad_documents document_predicate x then
            some ((rel.get x).getD 0 + tf * inverse_document_freq)
          else rel.get x
        | none => rel.get x := by
  induction freqs generalizing rel with
  | nil => exact ⟨rel, rfl, rfl, hwf, by simp [StdMap.find?]⟩
  | cons e rest ih =>
    obtain ⟨k, tf⟩ := e
    have hs' := StdMap.sorted_keys_cons.1 hsorted
    have hbB := hbad (List.cons_ne_nil _ _)
    have hk : k ∈ StdMap.keys s.documents_ := hdocs k (by simp [StdMap.keys])
    rw [← StdMap.find?_isSome_iff] at hk
    obtain ⟨data, hdata⟩ := Option.isSome_iff_exists.1 hk
    have hrest_none : StdMap.find? rest k = none := by
      rw [StdMap.find?_eq_none_iff]
      intro hmem
      exact lt_irrefl _ (hs'.1 k hmem)
    have hdocs' : ∀ k ∈ StdMap.keys rest, k ∈ StdMap.keys s.documents_ := by
      intro k' hk'
      exact hdocs k' (by simp only [StdMap.keys, List.map_cons, List.mem_cons]; exact Or.inr hk')
    rw [List.foldlM_cons]
    by_cases hp : s.passes bad_documents document_predicate k = true
    · obtain ⟨r1, h1, h2, h3, h4⟩ := ConcurrentMap.accumulate_spec rel k
        (tf * inverse_document_freq) hB hwf
      obtain ⟨r2, h5, h6, h7, h8⟩ := ih r1 hs'.2 hdocs' (fun _ => hbB) (h2 ▸ hB) h3
      refine ⟨r2, ?_, h6.trans h2, h7, ?_⟩
      · have hp' := hp
        simp only [passes, hdata] at hp'
        have hstep : s.addRelevanceSeq bad_documents document_predicate inverse_document_freq
            rel (k, tf) = .ok r1 := by
          simp only [addRelevanceSeq, StdMap.atKey, hdata, ConcurrentSet.Contains_eq _ _ hbB,
            bind, Except.bind, hp', if_true, h1]
        rw [hstep]
        exact h5
      · intro x
        rw [h8, h4]
        by_cases hx : x = k
        · subst hx
          simp [StdMap.find?, hrest_none, hp]
        · simp [StdMap.find?, hx]
    · obtain ⟨r2, h5, h6, h7, h8⟩ := ih rel hs'.2 hdocs' (fun _ => hbB) hB hwf
      refine ⟨r2, ?_, h6, h7, ?_⟩
      · have hp' := hp
        simp only [passes, hdata] at hp'
        have hstep : s.addRelevanceSeq bad_documents document_predicate inverse_document_freq
            rel (k, tf) = .ok rel := by
          simp only [addRelevanceSeq, StdMap.atKey, hdata, ConcurrentSet.Contains_eq _ _ hbB,
            bind, Except.bind, hp', if_false, pure, Except.pure, Bool.false_eq_true]
        rw [hstep]
        exact h5
      · intro x
        rw [h8]
        by_cases hx : x = k
        · subst hx
          simp [StdMap.find?, hrest_none, hp]
        · simp [StdMap.find?, hx]

end SearchServer

namespace SearchServer
variable {R : Type}

theorem contribution_sum_eq_zero [DivisionRing R] (ln : R → R) (s : SearchServer R)
    (ws : List Str) (x : Int)
    (h : ¬ ∃ w ∈ ws, (StdMap.find2? s.word_to_document_freqs_ w x).isSome = true) :
    (ws.map (fun w => s.contribution ln w x)).sum = 0 := by
  induction ws with
  | nil => simp
  | cons w rest ih =>
    have h1 : StdMap.find2? s.word_to_document_freqs_ w x = none := by
      cases hf : StdMap.find2? s.word_to_document_freqs_ w x with
      | none => rfl
      | some v => exact absurd ⟨w, List.mem_cons_self _ _, by simp [hf]⟩ h
    have h2 : ¬ ∃ w ∈ rest, (StdMap.find2? s.word_to_document_freqs_ w x).isSome = true := by
      rintro ⟨w', hw', h'⟩
      exact h ⟨w', List.mem_cons_of_mem _ hw', h'⟩
    rw [List.map_cons, List.sum_cons, ih h2]
    simp [contribution, h1]

theorem seq_outer [DivisionRing R] (ln : R → R) (s : SearchServer R) (hs : s.Inv)
    (bad_documents : ConcurrentSet)
    (hbad : bad_documents.bucket_.length = s.document_ids_.length)
    (document_predicate : DocumentPredicate) (ws : List Str) (rel : ConcurrentMap R)
    (hB : ws ≠ [] → rel.bucket_.length ≠ 0) (hwf : rel.WF) :
    ∃ rel', ws.foldlM (s.scoreWordSeq ln bad_documents document_predicate) rel = .ok rel' ∧
      rel'.bucket_.length = rel.bucket_.length ∧ rel'.WF ∧
      ∀ x, rel'.get x =
        if s.passes bad_documents document_predicate x = true ∧
            ∃ w ∈ ws, (StdMap.find2? s.word_to_document_freqs_ w x).isSome = true then
          some ((rel.get x).getD 0 + (ws.map (fun w => s.contribution ln w x)).sum)
        else rel.get x := by
  induction ws generalizing rel with
  | nil => exact ⟨rel, rfl, rfl, hwf, by simp⟩
  | cons w rest ih =>
    have hB' := hB (List.cons_ne_nil _ _)
    rw [List.foldlM_cons]
    cases hf : StdMap.find? s.word_to_document_freqs_ w with
    | none =>
      have hstep : s.scoreWordSeq ln bad_documents document_predicate rel w = .ok rel := by
        simp [scoreWordSeq, StdMap.count, hf, pure, Except.pure]
      obtain ⟨r2, h5, h6, h7, h8⟩ := ih rel (fun _ => hB') hwf
      refine ⟨r2, ?_, h6, h7, ?_⟩
      · rw [hstep]; exact h5
      · intro x
        rw [h8]
        simp [StdMap.find2?, hf, contribution]
    | some m =>
      obtain ⟨r1, h1, h2, h3, h4⟩ := seq_inner s bad_documents document_predicate (s.idf ln w)
        m rel (hs.index.inv_inner_sorted _ _ hf) (fun k hk => hs.entry_stored hf hk)
        (fun hne => hbad ▸ hs.ids_length_ne_zero hf hne) hB' hwf
      have hstep : s.scoreWordSeq ln bad_documents document_predicate rel w = .ok r1 := by
        simp only [scoreWordSeq, StdMap.count, hf, Option.isSome_some, if_true,
          ComputeWordInverseDocumentFreq, StdMap.atKey, bind, Except.bind, pure, Except.pure]
        simp only [idf, hf, Option.getD_some] at h1
        simpa using h1
      obtain ⟨r2, h5, h6, h7, h8⟩ := ih r1 (fun _ => h2 ▸ hB') h3
      refine ⟨r2, ?_, h6.trans h2, h7, ?_⟩
      · rw [hstep]; exact h5
      · intro x
        rw [h8, h4]
        have hc : s.contribution ln w x =
            ((StdMap.find? m x).map (fun tf => tf * s.idf ln w)).getD 0 := by
          simp [contribution, StdMap.find2?, hf]
        by_cases hp : s.passes bad_documents document_predicate x = true
        · by_cases hr : ∃ w ∈ rest, (StdMap.find2? s.word_to_document_freqs_ w x).isSome = true
          · cases hm : StdMap.find? m x with
            | none => simp [hp, hr, hc, hm]
            | some tf => simp [hp, hr, hc, hm, add_assoc]
          · have hz := contribution_sum_eq_zero ln s rest x hr
            have hr' : ¬ ∃ a, a ∈ rest ∧
                (StdMap.find2? s.word_to_document_freqs_ a x).isSome = true := by
              rintro ⟨a, ha, ha'⟩; exact hr ⟨a, ha, ha'⟩
            cases hm : StdMap.find? m x with
            | none => simp [hp, hr', hc, hm, StdMap.find2?, hf]
            | some tf => simp [hp, hr', hc, hm, hz, StdMap.find2?, hf]
        · cases hm : StdMap.find? m x <;> simp [hp]

end SearchServer

namespace SearchServer
variable {R : Type}

theorem collectDocuments_fold (s : SearchServer R) (m : StdMap Int R)
    (acc : List (Document R)) (h : ∀ k ∈ StdMap.keys m, k ∈ StdMap.keys s.documents_) :
    m.foldlM (fun matched_documents entry => do
      let data ← StdMap.atKey s.documents_ entry.1
      pure (matched_documents ++ [(⟨entry.1, entry.2, data.rating⟩ : Document R)])) acc =
    .ok (acc ++ m.map (fun e => ⟨e.1, e.2, s.storedRating e.1⟩)) := by
  induction m generalizing acc with
  | nil => simp [pure, Except.pure]
  | cons e rest ih =>
    have hk : e.1 ∈ StdMap.keys s.documents_ := h e.1 (by simp [StdMap.keys])
    rw [← StdMap.find?_isSome_iff] at hk
    obtain ⟨data, hdata⟩ := Option.isSome_iff_exists.1 hk
    rw [List.foldlM_cons]
    have hrest : ∀ k ∈ StdMap.keys rest, k ∈ StdMap.keys s.documents_ := by
      intro k hk'
      exact h k (by simp only [StdMap.keys, List.map_cons, List.mem_cons]; exact Or.inr hk')
    have := ih (acc ++ [⟨e.1, e.2, data.rating⟩]) hrest
    simp only [StdMap.atKey, hdata, bind, Except.bind, pure, Except.pure] at this ⊢
    rw [this]
    simp [storedRating, hdata]

theorem collectDocuments_eq (s : SearchServer R) (m : StdMap Int R)
    (h : ∀ k ∈ StdMap.keys m, k ∈ StdMap.keys s.documents_) :
    s.collectDocuments m = .ok (m.map (fun e => ⟨e.1, e.2, s.storedRating e.1⟩)) := by
  unfold collectDocuments
  rw [collectDocuments_fold s m [] h]
  simp

end SearchServer

namespace SearchServer
variable {R : Type}

theorem passes_stored {s : SearchServer R} {bad : ConcurrentSet} {pred : DocumentPredicate}
    {x : Int} (h : s.passes bad pred x = true) : x ∈ StdMap.keys s.documents_ := by
  rw [← StdMap.find?_isSome_iff]
  unfold passes at h
  cases hf : StdMap.find? s.documents_ x with
  | none => rw [hf] at h; cases h
  | some d => rfl

theorem FindAllDocumentsSeq_internal [DivisionRing R] (ln : R → R) (s : SearchServer R)
    (hs : s.Inv) (query : Query) (document_predicate : DocumentPredicate) :
    ∃ (bad : ConcurrentSet) (m : StdMap Int R),
      (∀ x, bad.has x = true ↔
        ∃ w ∈ query.minus_words, (StdMap.find2? s.word_to_document_freqs_ w x).isSome = true) ∧
      (StdMap.keys m).Sorted (· < ·) ∧
      (∀ x, StdMap.find? m x =
        if s.passes bad document_predicate x = true ∧
            ∃ w ∈ query.plus_words, (StdMap.find2? s.word_to_document_freqs_ w x).isSome = true then
          some ((query.plus_words.map (fun w => s.contribution ln w x)).sum)
        else none) ∧
      s.FindAllDocumentsSeq ln query document_predicate =
        .ok (m.map (fun e => ⟨e.1, e.2, s.storedRating e.1⟩)) := by
  obtain ⟨bad, hb1, hb2, hb3⟩ := markBadDocuments_spec s query
    (ConcurrentSet.create s.document_ids_.length) (by
      intro w m hm hne
      simpa [ConcurrentSet.create] using hs.ids_length_ne_zero hm hne)
  have hblen : bad.bucket_.length = s.document_ids_.length := by
    simpa [ConcurrentSet.create] using hb2
  obtain ⟨rel, hr1, _, hr3, hr4⟩ := seq_outer ln s hs bad hblen document_predicate
    query.plus_words (ConcurrentMap.create query.plus_words.length) (by
      intro hne
      simpa [ConcurrentMap.create] using hne) (ConcurrentMap.WF_create _)
  obtain ⟨hm1, hm2⟩ := ConcurrentMap.BuildOrdinaryMap_spec rel hr3
  have hfind : ∀ x, StdMap.find? rel.BuildOrdinaryMap x =
      if s.passes bad document_predicate x = true ∧
          ∃ w ∈ query.plus_words, (StdMap.find2? s.word_to_document_freqs_ w x).isSome = true then
        some ((query.plus_words.map (fun w => s.contribution ln w x)).sum)
      else none := by
    intro x
    rw [hm2, hr4, ConcurrentMap.get_create]
    simp
  refine ⟨bad, rel.BuildOrdinaryMap, ?_, hm1, hfind, ?_⟩
  · intro x
    rw [hb3, ConcurrentSet.has_create]
    simp
  · have hkeys : ∀ k ∈ StdMap.keys rel.BuildOrdinaryMap, k ∈ StdMap.keys s.documents_ := by
      intro k hk
      rw [← StdMap.find?_isSome_iff, hfind] at hk
      by_cases hc : s.passes bad document_predicate k = true ∧
          ∃ w ∈ query.plus_words, (StdMap.find2? s.word_to_document_freqs_ w k).isSome = true
      · exact passes_stored hc.1
      · rw [if_neg hc] at hk; cases hk
    simp only [FindAllDocumentsSeq, bind, Except.bind, hb1, hr1]
    exact collectDocuments_eq s _ hkeys

end SearchServer

theorem List.sum_map_filter_ite {α M : Type} [AddMonoid M] (l : List α) (p : α → Bool)
    (f : α → M) :
    ((l.filter p).map f).sum = (l.map (fun a => if p a = true then f a else 0)).sum := by
  induction l with
  | nil => rfl
  | cons a l ih =>
    by_cases h : p a = true
    · simp [List.filter_cons, h, ih]
    · simp [List.filter_cons, h, ih]

namespace SearchServer
variable {R : Type}

theorem Inv.isSome_find2?_iff {s : SearchServer R} (hs : s.Inv) (w : Str) (x : Int) :
    (StdMap.find2? s.word_to_document_freqs_ w x).isSome = true ↔ containsWord s x w = true := by
  rw [hs.index.transpose, ← find?_GetWordFrequencies, StdMap.find?_isSome_iff]
  simp [containsWord]

theorem Inv.length_eq_documentFrequency {s : SearchServer R} (hs : s.Inv) {w : Str}
    {m : StdMap Int R} (hm : StdMap.find? s.word_to_document_freqs_ w = some m) :
    m.length = documentFrequency s w := by
  have hsorted := hs.index.inv_inner_sorted _ _ hm
  have hids : (s.ids.filter (fun d => containsWord s d w)).Sorted (· < ·) := by
    apply List.Sorted.filter
    show s.document_ids_.Sorted (· < ·)
    rw [hs.ids_eq]
    exact hs.docs_sorted
  have hext : StdMap.keys m = s.ids.filter (fun d => containsWord s d w) := by
    apply sorted_ext hsorted hids
    intro d
    rw [List.mem_filter, ← hs.isSome_find2?_iff, ← StdMap.find?_isSome_iff]
    simp only [StdMap.find2?, hm, Option.some_bind]
    constructor
    · intro h
      refine ⟨?_, h⟩
      show d ∈ s.document_ids_
      rw [hs.ids_eq]
      exact hs.entry_stored hm ((StdMap.find?_isSome_iff _ _).1 h)
    · exact fun h => h.2
  unfold documentFrequency
  rw [← hext]
  simp [StdMap.keys]

theorem Inv.contribution_eq [DivisionRing R] {s : SearchServer R} (hs : s.Inv) (ln : R → R)
    (w : Str) (x : Int) :
    s.contribution ln w x =
      if containsWord s x w = true then
        termFrequency s w x * ln ((s.GetDocumentCount : R) / (documentFrequency s w : R))
      else 0 := by
  have hiff := hs.isSome_find2?_iff w x
  have htf : termFrequency s w x = (StdMap.find2? s.word_to_document_freqs_ w x).getD 0 := by
    rw [termFrequency, find?_GetWordFrequencies, hs.index.transpose]
  unfold contribution
  cases hf : StdMap.find2? s.word_to_document_freqs_ w x with
  | none =>
    rw [hf] at hiff
    have : ¬ containsWord s x w = true := fun h => by simpa using hiff.2 h
    simp [this]
  | some tf =>
    rw [hf] at hiff htf
    have hc : containsWord s x w = true := hiff.1 rfl
    rw [if_pos hc, htf]
    unfold StdMap.find2? at hf
    cases hm : StdMap.find? s.word_to_document_freqs_ w with
    | none => simp [hm] at hf
    | some m =>
      simp only [Option.map_some', Option.getD_some, idf, hm, mul_one]
      rw [hs.length_eq_documentFrequency hm]

theorem Inv.contribution_sum [DivisionRing R] {s : SearchServer R} (hs : s.Inv) (ln : R → R)
    (plus_words : List Str) (x : Int) :
    (plus_words.map (fun w => s.contribution ln w x)).sum = tfidfRelevance ln s plus_words x := by
  unfold tfidfRelevance
  rw [List.sum_map_filter_ite]
  congr 1
  apply List.map_congr_left
  intro w _
  exact hs.contribution_eq ln w x

theorem passes_iff (s : SearchServer R) (bad : ConcurrentSet) (pred : DocumentPredicate)
    (x : Int) :
    s.passes bad pred x = true ↔
      ∃ data, StdMap.find? s.documents_ x = some data ∧ bad.has x = false ∧
        pred x data.status data.rating = true := by
  unfold passes
  cases hf : StdMap.find? s.documents_ x with
  | none => simp
  | some d => simp

end SearchServer

namespace SearchServer
variable {R : Type}

theorem FindAllDocumentsSeq_spec [DivisionRing R] (ln : R → R) (s : SearchServer R)
    (hs : s.Inv) (query : Query) (document_predicate : DocumentPredicate) :
    ∃ docs, s.FindAllDocumentsSeq ln query document_predicate = .ok docs ∧
      (docs.map Document.id).Sorted (· < ·) ∧
      ∀ d : Document R, d ∈ docs ↔
        ∃ data, StdMap.find? s.documents_ d.id = some data ∧
          (∃ w ∈ query.plus_words, containsWord s d.id w = true) ∧
          (∀ w ∈ query.minus_words, containsWord s d.id w = false) ∧
          document_predicate d.id data.status data.rating = true ∧
          d.rating = data.rating ∧
          d.relevance = tfidfRelevance ln s query.plus_words d.id := by
  obtain ⟨bad, m, hbad, hsorted, hfind, hres⟩ :=
    FindAllDocumentsSeq_internal ln s hs query document_predicate
  refine ⟨_, hres, ?_, ?_⟩
  · have : (m.map (fun e => (⟨e.1, e.2, s.storedRating e.1⟩ : Document R))).map Document.id
        = StdMap.keys m := by
      simp [StdMap.keys, List.map_map, Function.comp_def]
    rw [this]
    exact hsorted
  · intro d
    have hmem : d ∈ m.map (fun e => (⟨e.1, e.2, s.storedRating e.1⟩ : Document R)) ↔
        StdMap.find? m d.id = some d.relevance ∧ d.rating = s.storedRating d.id := by
      rw [StdMap.find?_iff_mem hsorted, List.mem_map]
      constructor
      · rintro ⟨e, he, rfl⟩
        exact ⟨he, rfl⟩
      · rintro ⟨h1, h2⟩
        refine ⟨(d.id, d.relevance), h1, ?_⟩
        cases d
        simp only at h2
        simp [h2]
    have hbadx : bad.has d.id = false ↔
        ∀ w ∈ query.minus_words, containsWord s d.id w = false := by
      rw [← Bool.not_eq_true, hbad]
      simp only [hs.isSome_find2?_iff, not_exists, not_and, Bool.not_eq_true]
    rw [hmem, hfind, hs.contribution_sum]
    simp only [hs.isSome_find2?_iff, passes_iff, hbadx]
    constructor
    · rintro ⟨h1, h2⟩
      split at h1
      · rename_i hc
        obtain ⟨⟨data, hd1, hd2, hd3⟩, hplus⟩ := hc
        refine ⟨data, hd1, hplus, hd2, hd3, ?_, ?_⟩
        · rw [h2]; simp [storedRating, hd1]
        · exact (Option.some.inj h1).symm
      · cases h1
    · rintro ⟨data, hd1, hplus, hminus, hpred, hrat, hrel⟩
      have hc : (∃ data, StdMap.find? s.documents_ d.id = some data ∧
          (∀ w ∈ query.minus_words, containsWord s d.id w = false) ∧
          document_predicate d.id data.status data.rating = true) ∧
          ∃ w ∈ query.plus_words, containsWord s d.id w = true :=
        ⟨⟨data, hd1, hminus, hpred⟩, hplus⟩
      rw [if_pos hc]
      refine ⟨by rw [hrel], ?_⟩
      rw [hrat]; simp [storedRating, hd1]

end SearchServer

theorem sortedInsert_perm {α : Type} (comp : α → α → Bool) (a : α) (l : List α) :
    (sortedInsert comp a l).Perm (a :: l) := by
  induction l with
  | nil => exact List.Perm.refl _
  | cons b l ih =>
    unfold sortedInsert
    by_cases h : comp b a = true
    · rw [if_pos h]
      exact ((List.Perm.cons b ih).trans (List.Perm.swap a b l))
    · rw [if_neg h]

theorem std_sort_perm {α : Type} (comp : α → α → Bool) (l : List α) :
    (std_sort comp l).Perm l := by
  induction l with
  | nil => exact List.Perm.refl _
  | cons a l ih =>
    unfold std_sort
    exact (sortedInsert_perm comp a _).trans (List.Perm.cons a ih)

theorem documentLess_asymm {R : Type} [LinearOrderedField R] (a b : Document R)
    (h : documentLess a b = true) : documentLess b a = false := by
  unfold documentLess at h ⊢
  rw [abs_sub_comm b.relevance a.relevance]
  by_cases hc : |a.relevance - b.relevance| < 1 / 1000000
  · rw [if_pos hc] at h ⊢
    simp only [gt_iff_lt, decide_eq_true_eq, decide_eq_false_iff_not, not_lt] at h ⊢
    exact le_of_lt h
  · rw [if_neg hc] at h ⊢
    simp only [gt_iff_lt, decide_eq_true_eq, decide_eq_false_iff_not, not_lt] at h ⊢
    exact le_of_lt h

namespace SearchServer
variable {R : Type}

theorem FindTopDocuments_eq [LinearOrderedField R] (MAX_RESULT_DOCUMENT_COUNT : Nat)
    (ln : R → R) (s : SearchServer R) (policy : ExecutionPolicy) (raw_query : Str)
    (document_predicate : DocumentPredicate) :
    s.FindTopDocuments MAX_RESULT_DOCUMENT_COUNT ln policy raw_query document_predicate =
      match s.ParseQuery raw_query with
      | .error e => .error e
      | .ok query =>
        match s.FindAllDocuments ln policy query document_predicate with
        | .error e => .error e
        | .ok docs => .ok ((std_sort documentLess docs).take MAX_RESULT_DOCUMENT_COUNT) := by
  unfold FindTopDocuments
  cases hq : s.ParseQuery raw_query with
  | error e => rfl
  | ok query =>
    cases hd : s.FindAllDocuments ln policy query document_predicate with
    | error e => simp only [bind, Except.bind, hd]
    | ok docs =>
      simp only [bind, Except.bind, pure, Except.pure, hd]
      split
      · rfl
      · rename_i h
        rw [List.take_of_length_le (not_lt.1 h)]

end SearchServer

theorem join_slices {α : Type} (l : List α) (len k : Nat) :
    ((List.range k).map (fun i => (l.drop (i * len)).take len)).flatten = l.take (k * len) := by
  induction k with
  | zero => simp
  | succ k ih =>
    rw [List.range_succ, List.map_append, List.flatten_append, ih]
    simp only [List.map_cons, List.map_nil, List.flatten_cons, List.flatten_nil, List.append_nil]
    rw [Nat.succ_mul, List.take_add]

theorem plusWordParts_flatten (plus_words : List Str) :
    (SearchServer.plusWordParts plus_words).flatten = plus_words := by
  have h := join_slices plus_words (plus_words.length / SearchServer.PART_COUNT) 9
  have hparts : SearchServer.plusWordParts plus_words =
      (List.range 9).map (fun i =>
        (plus_words.drop (i * (plus_words.length / SearchServer.PART_COUNT))).take
          (plus_words.length / SearchServer.PART_COUNT)) ++
      [plus_words.drop (9 * (plus_words.length / SearchServer.PART_COUNT))] := by
    simp [SearchServer.plusWordParts, SearchServer.PART_COUNT, List.range_succ]
  rw [hparts, List.flatten_append, h]
  simp

theorem foldlM_join_except {ε α β : Type} (f : β → α → Except ε β) (parts : List (List α))
    (b : β) :
    parts.foldlM (fun rel part => part.foldlM f rel) b = parts.flatten.foldlM f b := by
  induction parts generalizing b with
  | nil => rfl
  | cons p ps ih =>
    rw [List.foldlM_cons, List.flatten_cons, List.foldlM_append]
    cases hp : p.foldlM f b with
    | error e => rfl
    | ok b' => exact ih b'

theorem foldlM_congr_except {ε α β : Type} (f g : β → α → Except ε β) (l : List α) (b : β)
    (h : ∀ a ∈ l, ∀ b, f b a = g b a) : l.foldlM f b = l.foldlM g b := by
  induction l generalizing b with
  | nil => rfl
  | cons a l ih =>
    rw [List.foldlM_cons, List.foldlM_cons, h a (List.mem_cons_self _ _)]
    cases g b a with
    | error e => rfl
    | ok b' => exact ih b' (fun a' ha' => h a' (List.mem_cons_of_mem _ ha'))

namespace SearchServer
variable {R : Type}

theorem addRelevancePar_eq_seq [DivisionRing R] (s : SearchServer R) (bad : ConcurrentSet)
    (idf : R) (rel : ConcurrentMap R) (entry : Int × R)
    (h : entry.1 ∈ StdMap.keys s.documents_) :
    addRelevancePar bad idf rel entry =
      s.addRelevanceSeq bad (fun _ _ _ => true) idf rel entry := by
  rw [← StdMap.find?_isSome_iff] at h
  obtain ⟨data, hdata⟩ := Option.isSome_iff_exists.1 h
  simp only [addRelevancePar, addRelevanceSeq, StdMap.atKey, hdata, bind, Except.bind,
    Bool.and_true]

theorem scoreWordPar_of_indexed [DivisionRing R] (ln : R → R) (s : SearchServer R) (hs : s.Inv)
    (bad : ConcurrentSet) (rel : ConcurrentMap R) (w : Str)
    (h : w ∈ StdMap.keys s.word_to_document_freqs_) :
    s.scoreWordPar ln bad rel w = s.scoreWordSeq ln bad (fun _ _ _ => true) rel w := by
  rw [← StdMap.find?_isSome_iff] at h
  obtain ⟨m, hm⟩ := Option.isSome_iff_exists.1 h
  simp only [scoreWordPar, scoreWordSeq, StdMap.count, hm, Option.isSome_some, if_true,
    ComputeWordInverseDocumentFreq, StdMap.atKey, bind, Except.bind, pure, Except.pure]
  simp only [one_ne_zero, beq_iff_eq, if_false]
  apply foldlM_congr_except
  intro e he r
  exact addRelevancePar_eq_seq s bad _ r e
    (hs.entry_stored hm (List.mem_map.2 ⟨e, he, rfl⟩))

theorem scoreWordPar_of_not_indexed [DivisionRing R] (ln : R → R) (s : SearchServer R)
    (bad : ConcurrentSet) (rel : ConcurrentMap R) (w : Str)
    (h : w ∉ StdMap.keys s.word_to_document_freqs_) :
    s.scoreWordPar ln bad rel w = .error .out_of_range := by
  rw [← StdMap.find?_eq_none_iff] at h
  simp only [scoreWordPar, ComputeWordInverseDocumentFreq, StdMap.atKey, h, bind, Except.bind]

theorem par_outer [DivisionRing R] (ln : R → R) (s : SearchServer R) (hs : s.Inv)
    (bad : ConcurrentSet) (hbad : bad.bucket_.length = s.document_ids_.length)
    (ws : List Str) (rel : ConcurrentMap R)
    (hB : ws ≠ [] → rel.bucket_.length ≠ 0) (hwf : rel.WF) :
    ws.foldlM (s.scoreWordPar ln bad) rel =
      if ∀ w ∈ ws, w ∈ StdMap.keys s.word_to_document_freqs_ then
        ws.foldlM (s.scoreWordSeq ln bad (fun _ _ _ => true)) rel
      else .error .out_of_range := by
  induction ws generalizing rel with
  | nil => simp
  | cons w rest ih =>
    have hB' := hB (List.cons_ne_nil _ _)
    rw [List.foldlM_cons, List.foldlM_cons]
    by_cases hw : w ∈ StdMap.keys s.word_to_document_freqs_
    · rw [scoreWordPar_of_indexed ln s hs bad rel w hw]
      obtain ⟨r1, h1, h2, h3, _⟩ := seq_outer ln s hs bad hbad (fun _ _ _ => true) [w] rel
        (fun _ => hB') hwf
      have hstep : s.scoreWordSeq ln bad (fun _ _ _ => true) rel w = .ok r1 := by
        rw [List.foldlM_cons] at h1
        cases hc : s.scoreWordSeq ln bad (fun _ _ _ => true) rel w with
        | error e => rw [hc] at h1; cases h1
        | ok r =>
          rw [hc] at h1
          simp only [bind, Except.bind, List.foldlM_nil, pure, Except.pure] at h1
          rw [h1]
      rw [hstep]
      simp only [bind, Except.bind]
      rw [ih r1 (fun _ => h2 ▸ hB') h3]
      simp [hw]
    · rw [scoreWordPar_of_not_indexed ln s bad rel w hw]
      simp [hw, bind, Except.bind]

theorem FindAllDocumentsPar_eq [DivisionRing R] (ln : R → R) (s : SearchServer R) (hs : s.Inv)
    (query : Query) (document_predicate : DocumentPredicate) :
    s.FindAllDocumentsPar ln query document_predicate =
      if ∀ w ∈ query.plus_words, w ∈ StdMap.keys s.word_to_document_freqs_ then
        s.FindAllDocumentsSeq ln query (fun _ _ _ => true)
      else .error .out_of_range := by
  obtain ⟨bad, hb1, hb2, _⟩ := markBadDocuments_spec s query
    (ConcurrentSet.create s.document_ids_.length) (by
      intro w m hm hne
      simpa [ConcurrentSet.create] using hs.ids_length_ne_zero hm hne)
  have hblen : bad.bucket_.length = s.document_ids_.length := by
    simpa [ConcurrentSet.create] using hb2
  have hpar := par_outer ln s hs bad hblen query.plus_words
    (ConcurrentMap.create query.plus_words.length) (by
      intro hne
      simpa [ConcurrentMap.create] using hne) (ConcurrentMap.WF_create _)
  simp only [FindAllDocumentsPar, FindAllDocumentsSeq, bind, Except.bind, hb1]
  rw [foldlM_join_except, plusWordParts_flatten, hpar]
  by_cases hc : ∀ w ∈ query.plus_words, w ∈ StdMap.keys s.word_to_document_freqs_
  · rw [if_pos hc, if_pos hc]
  · rw [if_neg hc, if_neg hc]

end SearchServer

namespace SearchServer

theorem demoEmpty_reachable (R : Type) [DivisionRing R] : (demoEmpty R).Reachable :=
  Reachable.create (SplitIntoWords "and with".toList) (demoEmpty R) rfl

theorem demoServer_reachable (R : Type) [DivisionRing R] : (demoServer R).Reachable :=
  Reachable.add _ _ _ _ _ (Reachable.add _ _ _ _ _ (Reachable.add _ _ _ _ _
    (Reachable.add _ _ _ _ _ (demoEmpty_reachable R))))

theorem FindTopDocuments_of_ok {R : Type} [LinearOrderedField R]
    (MAX_RESULT_DOCUMENT_COUNT : Nat) (ln : R → R) (s : SearchServer R)
    (policy : ExecutionPolicy) (raw_query : Str) (document_predicate : DocumentPredicate)
    (query : Query) (hq : s.ParseQuery raw_query = .ok query) (all : List (Document R))
    (hall : s.FindAllDocuments ln policy query document_predicate = .ok all) :
    s.FindTopDocuments MAX_RESULT_DOCUMENT_COUNT ln policy raw_query document_predicate =
      .ok ((std_sort documentLess all).take MAX_RESULT_DOCUMENT_COUNT) := by
  rw [FindTopDocuments_eq, hq]
  simp only [hall]

theorem FindTopDocuments_ok_inv {R : Type} [LinearOrderedField R]
    (MAX_RESULT_DOCUMENT_COUNT : Nat) (ln : R → R) (s : SearchServer R)
    (policy : ExecutionPolicy) (raw_query : Str) (document_predicate : DocumentPredicate)
    (docs : List (Document R))
    (h : s.FindTopDocuments MAX_RESULT_DOCUMENT_COUNT ln policy raw_query document_predicate =
      .ok docs) :
    ∃ query all, s.ParseQuery raw_query = .ok query ∧
      s.FindAllDocuments ln policy query document_predicate = .ok all ∧
      docs = (std_sort documentLess all).take MAX_RESULT_DOCUMENT_COUNT := by
  rw [FindTopDocuments_eq] at h
  cases hq : s.ParseQuery raw_query with
  | error e => rw [hq] at h; cases h
  | ok query =>
    rw [hq] at h
    cases hall : s.FindAllDocuments ln policy query document_predicate with
    | error e => simp only [hall] at h; cases h
    | ok all =>
      simp only [hall] at h
      exact ⟨query, all, rfl, hall, (Except.ok.inj h).symm⟩

theorem mem_of_mem_top {α : Type} (comp : α → α → Bool) (n : Nat) (l : List α) (d : α)
    (h : d ∈ (std_sort comp l).take n) : d ∈ l :=
  (std_sort_perm comp l).mem_iff.1 (List.mem_of_mem_take h)

end SearchServer

namespace SearchServer

set_option maxRecDepth 100000 in
theorem demo_par_all : ∃ r1 r2 r3 r4 : ℝ,
    (demoServer ℝ).FindAllDocuments Real.log .par
      ⟨["cat".toList, "curly".toList, "nasty".toList], []⟩ evenId =
      .ok [⟨1, r1, 1⟩, ⟨2, r2, 1⟩, ⟨3, r3, 1⟩, ⟨4, r4, 1⟩] :=
  ⟨_, _, _, _, rfl⟩

set_option maxRecDepth 100000 in
theorem demo_seq_all : ∃ r2 r4 : ℝ,
    (demoServer ℝ).FindAllDocuments Real.log .seq
      ⟨["cat".toList, "curly".toList, "nasty".toList], []⟩ evenId =
      .ok [⟨2, r2, 1⟩, ⟨4, r4, 1⟩] :=
  ⟨_, _, rfl⟩

set_option maxRecDepth 100000 in
theorem demo_par_elephant :
    (demoServer ℝ).FindAllDocuments Real.log .par
      ⟨["cat".toList, "elephant".toList], []⟩ (fun _ _ _ => true) = .error .out_of_range :=
  rfl

theorem top_perm {α : Type} (comp : α → α → Bool) (n : Nat) (l : List α) (h : l.length ≤ n) :
    ((std_sort comp l).take n).Perm l := by
  rw [List.take_of_length_le]
  · exact std_sort_perm comp l
  · rw [(std_sort_perm comp l).length_eq]; exact h

end SearchServer

namespace SearchServer
variable {R : Type}

set_option maxRecDepth 100000 in
theorem tieServer_all :
    (tieServer ℝ).FindAllDocuments Real.log .seq ⟨["cat".toList], []⟩ (fun _ _ _ => true) =
      .ok [⟨1, 0 + (0 + 1 / ((1 : ℕ) : ℝ)) * Real.log (((2 : ℤ) : ℝ) * 1 / ((2 : ℕ) : ℝ)), 1⟩,
           ⟨2, 0 + (0 + 1 / ((1 : ℕ) : ℝ)) * Real.log (((2 : ℤ) : ℝ) * 1 / ((2 : ℕ) : ℝ)), 5⟩] :=
  rfl

end SearchServer

theorem findChar_eq_none (c : Char) (w : Str) (h : c ∉ w) : findChar c w = none := by
  induction w with
  | nil => rfl
  | cons x xs ih =>
    simp only [List.mem_cons, not_or] at h
    simp [findChar, Ne.symm h.1, ih h.2]

theorem findChar_append (c : Char) (w t : Str) (h : c ∉ w) :
    findChar c (w ++ c :: t) = some w.length := by
  induction w with
  | nil => simp [findChar]
  | cons x xs ih =>
    simp only [List.mem_cons, not_or] at h
    simp [findChar, Ne.symm h.1, ih h.2]

theorem SplitIntoWordsLoop_intercalate (ws : List Str) (hne : ws ≠ [])
    (hsp : ∀ w ∈ ws, ' ' ∉ w) (fuel : Nat) (hfuel : ws.length ≤ fuel) :
    SplitIntoWordsLoop fuel (List.intercalate [' '] ws) = ws := by
  induction ws generalizing fuel with
  | nil => exact absurd rfl hne
  | cons w rest ih =>
    cases fuel with
    | zero => simp at hfuel
    | succ fuel =>
      cases rest with
      | nil =>
        simp only [List.intercalate, List.intersperse_singleton, List.flatten_cons,
          List.flatten_nil, List.append_nil, SplitIntoWordsLoop]
        rw [findChar_eq_none _ _ (hsp w (List.mem_cons_self _ _))]
      | cons w' rest' =>
        have hrec := ih (List.cons_ne_nil _ _)
          (fun x hx => hsp x (List.mem_cons_of_mem _ hx)) fuel (by simpa using hfuel)
        have hform : List.intercalate [' '] (w :: w' :: rest') =
            w ++ ' ' :: List.intercalate [' '] (w' :: rest') := by
          simp [List.intercalate, List.intersperse]
        rw [hform]
        simp only [SplitIntoWordsLoop]
        rw [findChar_append _ _ _ (hsp w (List.mem_cons_self _ _))]
        have hdrop : List.drop (w.length + 1) (w ++ ' ' :: List.intercalate [' '] (w' :: rest'))
            = List.intercalate [' '] (w' :: rest') := by
          have : w ++ ' ' :: List.intercalate [' '] (w' :: rest') =
              (w ++ [' ']) ++ List.intercalate [' '] (w' :: rest') := by simp
          rw [this]
          exact List.drop_left' (by simp)
        simp only []
        rw [hdrop, hrec, List.take_left' rfl]

theorem length_le_intercalate (ws : List Str) (hne : ws ≠ []) :
    ws.length ≤ (List.intercalate [' '] ws).length + 1 := by
  induction ws with
  | nil => exact absurd rfl hne
  | cons w rest ih =>
    cases rest with
    | nil => simp
    | cons w' rest' =>
      have hform : List.intercalate [' '] (w :: w' :: rest') =
          w ++ ' ' :: List.intercalate [' '] (w' :: rest') := by
        simp [List.intercalate, List.intersperse]
      have := ih (List.cons_ne_nil _ _)
      rw [hform]
      simp only [List.length_append, List.length_cons] at this ⊢
      omega

theorem SplitIntoWords_intercalate (ws : List Str) (hne : ws ≠ [])
    (hsp : ∀ w ∈ ws, ' ' ∉ w) : SplitIntoWords (List.intercalate [' '] ws) = ws :=
  SplitIntoWordsLoop_intercalate ws hne hsp _ (length_le_intercalate ws hne)

namespace SearchServer
variable {R : Type}

theorem AddDocument_ok_of_good [DivisionRing R] (s : SearchServer R) (document_id : Int)
    (document : Str) (status : DocumentStatus) (ratings : List Int)
    (h : ¬ (document_id < 0 ∨ document_id ∈ StdMap.keys s.documents_ ∨
        ∃ word ∈ SplitIntoWords document, ∃ c ∈ word, c.toNat < 0x20)) :
    (s.AddDocument document_id document status ratings).1 = .ok () := by
  rw [AddDocument_of_good s _ _ _ _ h _ rfl _ rfl]

theorem AddDocument_GetWordFrequencies [Field R] {s : SearchServer R} (hs : s.Inv)
    (document_id : Int) (document : Str) (status : DocumentStatus) (ratings : List Int)
    (h : (s.AddDocument document_id document status ratings).1 = .ok ()) (x : Int) (w : Str) :
    StdMap.find? ((s.AddDocument document_id document status ratings).2.GetWordFrequencies x) w =
      if x = document_id then
        (if w ∈ nonStopTokens s document then
          some (((nonStopTokens s document).count w : R) / ((nonStopTokens s document).length : R))
        else none)
      else StdMap.find? (s.GetWordFrequencies x) w := by
  by_cases hx : x = document_id
  · subst hx
    rw [if_pos rfl]
    exact AddDocument_find2? hs x document status ratings h w
  · rw [if_neg hx]
    obtain ⟨_, h3⟩ := AddDocument_ok_state s document_id document status ratings h
    rw [find?_GetWordFrequencies, find?_GetWordFrequencies, h3,
      AddDocumentStep_fold_find2? _ _ _ _ hs.index]
    simp [hx]

theorem AddDocument_documents [DivisionRing R] {s : SearchServer R} (hs : s.Inv)
    (document_id : Int) (document : Str) (status : DocumentStatus) (ratings : List Int)
    (h : (s.AddDocument document_id document status ratings).1 = .ok ()) :
    (s.AddDocument document_id document status ratings).2.stop_words_ = s.stop_words_ ∧
    (s.AddDocument document_id document status ratings).2.document_ids_ =
      StdSet.insert s.document_ids_ document_id ∧
    ∀ x, (StdMap.find? (s.AddDocument document_id document status ratings).2.documents_ x).map
        (fun d => (d.rating, d.status)) =
      if x = document_id then some (ComputeAverageRating ratings, status)
      else (StdMap.find? s.documents_ x).map (fun d => (d.rating, d.status)) := by
  by_cases hc : document_id < 0 ∨ document_id ∈ StdMap.keys s.documents_ ∨
        ∃ word ∈ SplitIntoWords document, ∃ c ∈ word, c.toNat < 0x20
  · rw [AddDocument_of_bad s _ _ _ _ hc] at h
    cases h
  · rw [AddDocument_of_good s _ _ _ _ hc _ rfl _ rfl]
    obtain ⟨h1, h2, h3⟩ := AddDocumentStep_fold_fixed document_id
      (1 / (((SplitIntoWords document).filter (fun w => !s.IsStopWord w)).length : R))
      ((SplitIntoWords document).filter (fun w => !s.IsStopWord w)) ([], s)
    refine ⟨h3, ?_, ?_⟩
    · simp only [h2]
    · intro x
      have hnone : StdMap.find? s.documents_ document_id = none := by
        rw [StdMap.find?_eq_none_iff]
        exact fun hk => hc (Or.inr (Or.inl hk))
      simp only [h1, StdMap.emplace]
      rw [StdMap.find?_update hs.docs_sorted]
      by_cases hx : x = document_id
      · simp [hx, hnone]
      · simp [hx]

theorem Describes.add_document [Field R] {s : SearchServer R} {ids : List Int}
    {info : Int → Option (Int × DocumentStatus)} {tf : Int → Str → Option R}
    (hd : s.Describes ids info tf) (document_id : Int) (tokens : List Str)
    (status : DocumentStatus) (ratings : List Int) (hid : 0 ≤ document_id)
    (hnew : info document_id = none) (hne : tokens ≠ [])
    (hsp : ∀ w ∈ tokens, ' ' ∉ w) (hvalid : ∀ w ∈ tokens, ∀ c ∈ w, ¬ c.toNat < 0x20) :
    (s.AddDocument document_id (List.intercalate [' '] tokens) status ratings).2.Describes
      (StdSet.insert ids document_id)
      (fun x => if x = document_id then some (ComputeAverageRating ratings, status) else info x)
      (fun x w => if x = document_id then
          (if w ∈ tokens then some ((tokens.count w : R) / (tokens.length : R)) else none)
        else tf x w) := by
  have hsplit := SplitIntoWords_intercalate tokens hne hsp
  have hgood : ¬ (document_id < 0 ∨ document_id ∈ StdMap.keys s.documents_ ∨
      ∃ word ∈ SplitIntoWords (List.intercalate [' '] tokens), ∃ c ∈ word, c.toNat < 0x20) := by
    rw [hsplit]
    rintro (h | h | ⟨w, hw, c, hc, hlt⟩)
    · exact absurd hid (not_le.2 h)
    · rw [← StdMap.find?_isSome_iff] at h
      have := hd.info_eq document_id
      rw [hnew] at this
      cases hf : StdMap.find? s.documents_ document_id with
      | none => rw [hf] at h; cases h
      | some v => rw [hf] at this; cases this
    · exact hvalid w hw c hc hlt
  have hok : (s.AddDocument document_id (List.intercalate [' '] tokens) status ratings).1 =
      .ok () := AddDocument_ok_of_good s _ _ _ _ hgood
  have htok : nonStopTokens s (List.intercalate [' '] tokens) = tokens := by
    simp [nonStopTokens, hsplit, hd.stop]
  obtain ⟨h1, h2, h3⟩ := AddDocument_documents hd.inv document_id _ status ratings hok
  refine ⟨hd.inv.add _ _ _ _, h1.trans hd.stop, h2.trans (by rw [hd.ids_eq]), ?_, ?_⟩
  · intro x
    rw [h3, hd.info_eq]
  · intro x w
    rw [AddDocument_GetWordFrequencies hd.inv document_id _ status ratings hok, htok, hd.tf_eq]

end SearchServer

theorem chainTokens_length (i : Nat) (h : i ≤ 200000) : (chainTokens i).length = 200000 := by
  simp [chainTokens]; omega

theorem chainTokens_count (i : Nat) : (chainTokens i).count ['a'] = i := by
  simp [chainTokens, List.count_append, List.count_replicate]

theorem chainTokens_mem_a (i : Nat) : ['a'] ∈ chainTokens i ↔ 0 < i := by
  rw [← List.count_pos_iff, chainTokens_count]

theorem chainTokens_ne_nil (i : Nat) (h : i ≤ 200000) : chainTokens i ≠ [] := by
  intro h0
  have := chainTokens_length i h
  rw [h0] at this
  simp at this

theorem chainTokens_mem (i : Nat) (w : Str) (h : w ∈ chainTokens i) : w = ['a'] ∨ w = ['b'] := by
  simp only [chainTokens, List.mem_append, List.mem_replicate] at h
  rcases h with h | h
  · exact Or.inl h.2
  · exact Or.inr h.2

theorem chainTokens_no_space (i : Nat) : ∀ w ∈ chainTokens i, ' ' ∉ w := by
  intro w hw
  rcases chainTokens_mem i w hw with rfl | rfl <;> decide

theorem chainTokens_valid (i : Nat) : ∀ w ∈ chainTokens i, ∀ c ∈ w, ¬ c.toNat < 0x20 := by
  intro w hw
  rcases chainTokens_mem i w hw with rfl | rfl <;> decide

namespace SearchServer

theorem noStopWords_reachable (R : Type) [DivisionRing R] : (noStopWords R).Reachable :=
  Reachable.create [] (noStopWords R) rfl

theorem noStopWords_describes (R : Type) [DivisionRing R] :
    (noStopWords R).Describes [] (fun _ => none) (fun _ _ => none) :=
  ⟨(noStopWords_reachable R).inv, rfl, rfl, fun _ => rfl, fun _ _ => rfl⟩

theorem Reachable.added {R : Type} [DivisionRing R] {s : SearchServer R} (h : s.Reachable)
    (document_id : Int) (document : Str) (status : DocumentStatus) (ratings : List Int) :
    (s.added document_id document status ratings).Reachable :=
  Reachable.add _ _ _ _ _ h

theorem chainServer_reachable (R : Type) [DivisionRing R] : (chainServer R).Reachable :=
  (((((((noStopWords_reachable R).added 1 (chainText 1) .ACTUAL [3]).added
    2 (chainText 2) .ACTUAL [2]).added 3 (chainText 3) .ACTUAL [1]).added
    4 (chainText 4) .ACTUAL [0]).added 5 (chainText 5) .ACTUAL [0]).added
    6 (chainText 6) .ACTUAL [0]).added 7 (chainText 0) .ACTUAL [0]

theorem Describes.add_chain {R : Type} [Field R] {s : SearchServer R} {ids : List Int}
    {info : Int → Option (Int × DocumentStatus)} {tf : Int → Str → Option R}
    (hd : s.Describes ids info tf) (document_id : Int) (i : Nat) (rating : Int)
    (hid : 0 ≤ document_id) (hnew : info document_id = none) (hi : i ≤ 200000)
    (hr : ComputeAverageRating [rating] = rating) :
    (s.added document_id (chainText i) .ACTUAL [rating]).Describes
      (StdSet.insert ids document_id)
      (fun x => if x = document_id then some (rating, DocumentStatus.ACTUAL) else info x)
      (fun x w => if x = document_id then
          (if w ∈ chainTokens i then
            some (((chainTokens i).count w : R) / ((chainTokens i).length : R)) else none)
        else tf x w) := by
  have := hd.add_document document_id (chainTokens i) .ACTUAL [rating] hid hnew
    (chainTokens_ne_nil i hi) (chainTokens_no_space i) (chainTokens_valid i)
  rw [hr] at this
  exact this

theorem chainServer_describes (R : Type) [Field R] :
    ∃ (info : Int → Option (Int × DocumentStatus)) (tf : Int → Str → Option R),
      (chainServer R).Describes [1, 2, 3, 4, 5, 6, 7] info tf ∧
      (∀ x, info x = if x = 1 ∨ x = 2 ∨ x = 3 ∨ x = 4 ∨ x = 5 ∨ x = 6 ∨ x = 7 then
        some (chainRating x, DocumentStatus.ACTUAL) else none) ∧
      (∀ x, tf x ['a'] = if x = 1 ∨ x = 2 ∨ x = 3 ∨ x = 4 ∨ x = 5 ∨ x = 6 then
        some ((x : R) / 200000) else none) := by
  have h0 := noStopWords_describes R
  have h1 := h0.add_chain 1 1 3 (by decide) rfl (by decide) (by decide)
  have h2 := h1.add_chain 2 2 2 (by decide) (by simp) (by decide) (by decide)
  have h3 := h2.add_chain 3 3 1 (by decide) (by simp) (by decide) (by decide)
  have h4 := h3.add_chain 4 4 0 (by decide) (by simp) (by decide) (by decide)
  have h5 := h4.add_chain 5 5 0 (by decide) (by simp) (by decide) (by decide)
  have h6 := h5.add_chain 6 6 0 (by decide) (by simp) (by decide) (by decide)
  have h7 := h6.add_chain 7 0 0 (by decide) (by simp) (by decide) (by decide)
  refine ⟨_, _, h7, ?_, ?_⟩
  · intro x
    simp only [chainRating]
    by_cases e1 : x = 1
    · subst e1; simp
    by_cases e2 : x = 2
    · subst e2; simp
    by_cases e3 : x = 3
    · subst e3; simp
    by_cases e4 : x = 4
    · subst e4; simp
    by_cases e5 : x = 5
    · subst e5; simp
    by_cases e6 : x = 6
    · subst e6; simp
    by_cases e7 : x = 7
    · subst e7; simp
    simp [e1, e2, e3, e4, e5, e6, e7]
  · intro x
    simp only [chainTokens_mem_a, chainTokens_count]
    have hl : ∀ i : Nat, i ≤ 200000 → (((chainTokens i).length : ℕ) : R) = 200000 := by
      intro i hi
      rw [chainTokens_length i hi]
      norm_num
    by_cases e1 : x = 1
    · subst e1; simp [hl]
    by_cases e2 : x = 2
    · subst e2; simp [hl]
    by_cases e3 : x = 3
    · subst e3; simp [hl]
    by_cases e4 : x = 4
    · subst e4; simp [hl]
    by_cases e5 : x = 5
    · subst e5; simp [hl]
    by_cases e6 : x = 6
    · subst e6; simp [hl]
    by_cases e7 : x = 7
    · subst e7; simp
    simp [e1, e2, e3, e4, e5, e6, e7]

end SearchServer

namespace SearchServer
variable {R : Type}

theorem ParseQuery_stop_words (s : SearchServer R) (raw_query : Str) :
    s.ParseQuery raw_query =
      (⟨s.stop_words_, [], [], [], []⟩ : SearchServer R).ParseQuery raw_query := rfl

theorem Describes.parse_a {s : SearchServer R} {ids : List Int}
    {info : Int → Option (Int × DocumentStatus)} {tf : Int → Str → Option R}
    (hd : s.Describes ids info tf) : s.ParseQuery ['a'] = .ok ⟨[['a']], []⟩ := by
  rw [ParseQuery_stop_words, hd.stop]
  rfl

theorem Describes.containsWord_iff {s : SearchServer R} {ids : List Int}
    {info : Int → Option (Int × DocumentStatus)} {tf : Int → Str → Option R}
    (hd : s.Describes ids info tf) (x : Int) (w : Str) :
    containsWord s x w = (tf x w).isSome := by
  rw [← hd.tf_eq]
  unfold containsWord
  rw [Bool.eq_iff_iff, decide_eq_true_iff, StdMap.find?_isSome_iff]

theorem Describes.termFrequency_eq [Zero R] {s : SearchServer R} {ids : List Int}
    {info : Int → Option (Int × DocumentStatus)} {tf : Int → Str → Option R}
    (hd : s.Describes ids info tf) (x : Int) (w : Str) :
    termFrequency s w x = (tf x w).getD 0 := by
  rw [← hd.tf_eq, termFrequency]

theorem Describes.count_eq {s : SearchServer R} {ids : List Int}
    {info : Int → Option (Int × DocumentStatus)} {tf : Int → Str → Option R}
    (hd : s.Describes ids info tf) : s.GetDocumentCount = (ids.length : Int) := by
  unfold GetDocumentCount
  rw [← hd.ids_eq, hd.inv.ids_eq]
  simp [StdMap.keys]

end SearchServer

theorem log_seven_sixths_bounds : (1 : ℝ) / 7 ≤ Real.log (7 / 6) ∧ Real.log (7 / 6) ≤ 1 / 6 := by
  constructor
  · have := Real.one_sub_inv_le_log_of_pos (x := 7 / 6) (by norm_num)
    norm_num at this ⊢
    exact this
  · have := Real.log_le_sub_one_of_pos (x := 7 / 6) (by norm_num)
    norm_num at this ⊢
    exact this

theorem chainDocument_tie (i j : Int) (hij : j = i + 1) (hr : chainRating i > chainRating j) :
    documentLess (chainDocument Real.log i) (chainDocument Real.log j) = true := by
  obtain ⟨h1, h2⟩ := log_seven_sixths_bounds
  unfold documentLess chainDocument
  simp only
  have habs : |(i : ℝ) / 200000 * Real.log (7 / 6) - (j : ℝ) / 200000 * Real.log (7 / 6)|
      < 1 / 1000000 := by
    rw [hij, abs_lt]
    push_cast
    constructor <;> nlinarith
  rw [if_pos habs]
  simpa using hr

theorem chainDocument_far (i j : Int) (hij : j + 2 ≤ i) :
    documentLess (chainDocument Real.log i) (chainDocument Real.log j) = true := by
  obtain ⟨h1, h2⟩ := log_seven_sixths_bounds
  have hij' : (j : ℝ) + 2 ≤ (i : ℝ) := by exact_mod_cast hij
  unfold documentLess chainDocument
  simp only
  have habs : ¬ |(i : ℝ) / 200000 * Real.log (7 / 6) - (j : ℝ) / 200000 * Real.log (7 / 6)|
      < 1 / 1000000 := by
    rw [not_lt]
    apply le_trans _ (le_abs_self _)
    nlinarith
  rw [if_neg habs]
  simp only [gt_iff_lt, decide_eq_true_eq]
  nlinarith

/-- Every record of the chain is ranked strictly before another one. -/
theorem chainDocument_beats (i : Int) (hi : i ∈ [1, 2, 3, 4, 5, 6]) :
    ∃ j ∈ [1, 2, 3, 4, 5, 6], j ≠ i ∧
      documentLess (chainDocument Real.log i) (chainDocument Real.log j) = true := by
  simp only [List.mem_cons, List.mem_singleton, List.not_mem_nil, or_false] at hi
  rcases hi with rfl | rfl | rfl | rfl | rfl | rfl
  · exact ⟨2, by decide, by decide, chainDocument_tie 1 2 rfl (by decide)⟩
  · exact ⟨3, by decide, by decide, chainDocument_tie 2 3 rfl (by decide)⟩
  · exact ⟨1, by decide, by decide, chainDocument_far 3 1 (by decide)⟩
  · exact ⟨1, by decide, by decide, chainDocument_far 4 1 (by decide)⟩
  · exact ⟨1, by decide, by decide, chainDocument_far 5 1 (by decide)⟩
  · exact ⟨1, by decide, by decide, chainDocument_far 6 1 (by decide)⟩

/-- Whatever the order in which six pairwise distinct records are listed, if each of them is
ranked strictly before another one, then the record in the sixth place is ranked strictly
before one of the first five. -/
theorem top_five_misses {α : Type} (comp : α → α → Bool) (sorted : List α)
    (hnodup : sorted.Nodup) (hlen : sorted.length = 6)
    (hbeats : ∀ x ∈ sorted, ∃ y ∈ sorted, y ≠ x ∧ comp x y = true) :
    ∃ kept ∈ sorted.take 5, ∃ dropped ∈ sorted, dropped ∉ sorted.take 5 ∧
      comp dropped kept = true := by
  have hsplit := List.take_append_drop 5 sorted
  have hdl : (sorted.drop 5).length = 1 := by rw [List.length_drop, hlen]
  obtain ⟨x, hx⟩ := List.length_eq_one.1 hdl
  have hxmem : x ∈ sorted := by
    rw [← hsplit, hx]; simp
  have hxnot : x ∉ sorted.take 5 := by
    intro hin
    rw [← hsplit, hx] at hnodup
    exact (List.nodup_append.1 hnodup).2.2 hin (List.mem_singleton_self x)
  obtain ⟨y, hy, hne, hc⟩ := hbeats x hxmem
  have hytake : y ∈ sorted.take 5 := by
    rw [← hsplit, hx, List.mem_append, List.mem_singleton] at hy
    rcases hy with hy | hy
    · exact hy
    · exact absurd hy hne
  exact ⟨y, hytake, x, hxmem, hxnot, hc⟩

namespace SearchServer

theorem chain_relevance {s : SearchServer ℝ} {info : Int → Option (Int × DocumentStatus)}
    {tf : Int → Str → Option ℝ}
    (hD : s.Describes [1, 2, 3, 4, 5, 6, 7] info tf)
    (htf : ∀ x, tf x ['a'] = if x = 1 ∨ x = 2 ∨ x = 3 ∨ x = 4 ∨ x = 5 ∨ x = 6 then
        some ((x : ℝ) / 200000) else none)
    (x : Int) (hx : x = 1 ∨ x = 2 ∨ x = 3 ∨ x = 4 ∨ x = 5 ∨ x = 6) :
    tfidfRelevance Real.log s [['a']] x = (x : ℝ) / 200000 * Real.log (7 / 6) := by
  have hdf : documentFrequency s ['a'] = 6 := by
    unfold documentFrequency ids
    rw [hD.ids_eq]
    simp [hD.containsWord_iff, htf]
  have hcw : containsWord s x ['a'] = true := by
    rw [hD.containsWord_iff, htf, if_pos hx]; rfl
  have htfx : termFrequency s ['a'] x = (x : ℝ) / 200000 := by
    rw [hD.termFrequency_eq, htf, if_pos hx]; rfl
  unfold tfidfRelevance
  simp only [List.filter_cons, hcw, if_true, List.filter_nil, List.map_cons, List.map_nil,
    List.sum_cons, List.sum_nil, add_zero, htfx, hdf, hD.count_eq]
  norm_num

end SearchServer


/-! ## Lemmas on the tokenizer -/

theorem spaceFreeRuns_ne_nil (text : Str) : spaceFreeRuns text ≠ [] := by
  cases text with
  | nil => simp [spaceFreeRuns]
  | cons c t =>
    simp only [spaceFreeRuns]
    split_ifs
    · simp
    · split <;> simp

theorem spaceFreeRuns_no_space (text : Str) : ∀ w ∈ spaceFreeRuns text, ' ' ∉ w := by
  induction text with
  | nil => simp [spaceFreeRuns]
  | cons c t ih =>
    simp only [spaceFreeRuns]
    split_ifs with hc
    · intro w hw
      rcases List.mem_cons.1 hw with rfl | hw
      · simp
      · exact ih w hw
    · cases hr : spaceFreeRuns t with
      | nil => exact absurd hr (spaceFreeRuns_ne_nil t)
      | cons w ws =>
        rw [hr] at ih
        intro x hx
        rcases List.mem_cons.1 hx with rfl | hx
        · have := ih w (List.mem_cons_self _ _)
          simp only [List.mem_cons, not_or]
          exact ⟨fun h => hc h.symm, this⟩
        · exact ih x (List.mem_cons_of_mem _ hx)

theorem intercalate_cons_cons (w w' : Str) (rest : List Str) :
    List.intercalate [' '] (w :: w' :: rest) = w ++ ' ' :: List.intercalate [' '] (w' :: rest) := by
  simp [List.intercalate, List.intersperse]

theorem intercalate_cons_head (c : Char) (w : Str) (ws : List Str) :
    List.intercalate [' '] ((c :: w) :: ws) = c :: List.intercalate [' '] (w :: ws) := by
  cases ws with
  | nil => simp [List.intercalate]
  | cons w' rest => rw [intercalate_cons_cons, intercalate_cons_cons]; rfl

theorem intercalate_spaceFreeRuns (text : Str) :
    List.intercalate [' '] (spaceFreeRuns text) = text := by
  induction text with
  | nil => simp [spaceFreeRuns, List.intercalate]
  | cons c t ih =>
    simp only [spaceFreeRuns]
    split_ifs with hc
    · cases hr : spaceFreeRuns t with
      | nil => exact absurd hr (spaceFreeRuns_ne_nil t)
      | cons w ws =>
        rw [hr] at ih
        rw [intercalate_cons_cons, ih, hc]; rfl
    · cases hr : spaceFreeRuns t with
      | nil => exact absurd hr (spaceFreeRuns_ne_nil t)
      | cons w ws =>
        rw [hr] at ih
        simp only []
        rw [intercalate_cons_head, ih]

theorem length_spaceFreeRuns (text : Str) :
    (spaceFreeRuns text).length = text.count ' ' + 1 := by
  induction text with
  | nil => simp [spaceFreeRuns]
  | cons c t ih =>
    simp only [spaceFreeRuns]
    split_ifs with hc
    · simp [ih, hc]
    · cases hr : spaceFreeRuns t with
      | nil => exact absurd hr (spaceFreeRuns_ne_nil t)
      | cons w ws =>
        rw [hr] at ih
        simp only [List.length_cons] at ih ⊢
        rw [ih, List.count_cons_of_ne (Ne.symm hc)]

theorem SplitIntoWordsLoop_eq_runs (text : Str) (fuel : Nat) (h : text.length + 1 ≤ fuel) :
    SplitIntoWordsLoop fuel text = spaceFreeRuns text := by
  have h1 := SplitIntoWordsLoop_intercalate (spaceFreeRuns text) (spaceFreeRuns_ne_nil text)
    (spaceFreeRuns_no_space text) fuel
  rw [intercalate_spaceFreeRuns] at h1
  apply h1
  have h2 := length_le_intercalate (spaceFreeRuns text) (spaceFreeRuns_ne_nil text)
  rw [intercalate_spaceFreeRuns] at h2
  omega

theorem SplitIntoWords_eq_runs (text : Str) : SplitIntoWords text = spaceFreeRuns text :=
  SplitIntoWordsLoop_eq_runs text _ (le_refl _)

theorem spaceFreeRuns_append (u v : Str) :
    spaceFreeRuns (u ++ ' ' :: v) = spaceFreeRuns u ++ spaceFreeRuns v := by
  induction u with
  | nil => simp [spaceFreeRuns]
  | cons c t ih =>
    simp only [List.cons_append, spaceFreeRuns]
    split_ifs with hc
    · simp [ih]
    · have ih2 : spaceFreeRuns (t.append (' ' :: v)) = spaceFreeRuns t ++ spaceFreeRuns v := ih
      rw [ih2]
      cases hr : spaceFreeRuns t with
      | nil => exact absurd hr (spaceFreeRuns_ne_nil t)
      | cons w ws => simp

theorem spaceFreeRuns_of_no_space (w : Str) (h : ' ' ∉ w) : spaceFreeRuns w = [w] := by
  have := SplitIntoWords_intercalate [w] (by simp) (by simpa using h)
  rw [SplitIntoWords_eq_runs] at this
  simpa [List.intercalate] using this


/-! ## Lemmas on the query parser -/

namespace SearchServer

variable {R : Type}

theorem IsStopWord_iff (s : SearchServer R) (word : Str) :
    s.IsStopWord word = true ↔ word ∈ s.stop_words_ := by
  simp [IsStopWord, StdSet.set_count_pos_iff]

theorem IsValidWord_iff (word : Str) : IsValidWord word = true ↔ ∀ c ∈ word, ¬ c.toNat < 0x20 := by
  simp [IsValidWord]

theorem ParseQueryWord_of_malformed (s : SearchServer R) (token : Str)
    (h : malformedToken token) : s.ParseQueryWord token = .error .invalid_argument := by
  cases token with
  | nil => simp [ParseQueryWord]
  | cons c rest =>
    by_cases hc : c = '-'
    · subst hc
      have hbad : (rest.isEmpty || decide (rest.head? = some '-') || !IsValidWord rest) = true := by
        rcases h with h | h | ⟨r, h⟩ | ⟨x, hx, hlt⟩
        · simp at h
        · simp only [List.cons.injEq, true_and] at h
          simp [h]
        · simp only [List.cons.injEq, true_and] at h
          simp [h]
        · rcases List.mem_cons.1 hx with rfl | hx
          · exact absurd hlt (by decide)
          · have : IsValidWord rest = false := by
              rw [← Bool.not_eq_true, IsValidWord_iff]
              push_neg
              exact ⟨x, hx, hlt⟩
            simp [this]
      simp only [ParseQueryWord, List.isEmpty_cons, Bool.false_eq_true, ↓reduceIte,
        List.head?_cons, decide_True, List.drop_succ_cons, List.drop_zero, hbad]
    · have hbad : IsValidWord (c :: rest) = false := by
        rcases h with h | h | ⟨r, h⟩ | ⟨x, hx, hlt⟩
        · simp at h
        · simp only [List.cons.injEq] at h
          exact absurd h.1 hc
        · simp only [List.cons.injEq] at h
          exact absurd h.1 hc
        · rw [← Bool.not_eq_true, IsValidWord_iff]
          push_neg
          exact ⟨x, hx, hlt⟩
      have hne : ¬ (some c = some '-') := by simpa using hc
      simp [ParseQueryWord, hne, hbad]

/-- The word of a query token: the token without its leading `-`, if it has one. -/
theorem ParseQueryWord_of_wellformed (s : SearchServer R) (token : Str)
    (h : ¬ malformedToken token) :
    s.ParseQueryWord token = .ok
      ⟨if token.head? = some '-' then token.drop 1 else token, decide (token.head? = some '-'),
        s.IsStopWord (if token.head? = some '-' then token.drop 1 else token)⟩ := by
  simp only [malformedToken, not_or, not_exists] at h
  obtain ⟨h1, h2, h3, h4⟩ := h
  cases token with
  | nil => exact absurd rfl h1
  | cons c rest =>
    by_cases hc : c = '-'
    · subst hc
      have hv : IsValidWord rest = true := by
        rw [IsValidWord_iff]
        intro x hx hlt
        exact h4 x ⟨List.mem_cons_of_mem _ hx, hlt⟩
      have hne : rest ≠ [] := fun hr => h2 (by rw [hr])
      have hhd : ¬ rest.head? = some '-' := by
        intro hh
        cases rest with
        | nil => simp at hh
        | cons d r =>
          simp only [List.head?_cons, Option.some.injEq] at hh
          exact h3 r (by rw [hh])
      cases rest with
      | nil => exact absurd rfl hne
      | cons d r =>
        simp only [List.head?_cons, Option.some.injEq] at hhd
        simp [ParseQueryWord, hv, hhd]
    · have hv : IsValidWord (c :: rest) = true := by
        rw [IsValidWord_iff]
        intro x hx hlt
        exact h4 x ⟨hx, hlt⟩
      simp [ParseQueryWord, hc, hv]

end SearchServer


theorem except_ok_bind {ε α β : Type} (a : α) (f : α → Except ε β) :
    (Except.ok a >>= f) = f a := rfl

namespace SearchServer

variable {R : Type}

theorem ParseQuery_fold_error (s : SearchServer R) (ws : List Str) (q : Query)
    (h : ∃ token ∈ ws, malformedToken token) :
    ws.foldlM (fun result word => do
      let query_word ← s.ParseQueryWord word
      if !query_word.is_stop then
        if query_word.is_minus then
          pure { result with minus_words := StdSet.insert result.minus_words query_word.data }
        else
          pure { result with plus_words := StdSet.insert result.plus_words query_word.data }
      else pure result) q = (.error .invalid_argument : Except Error Query) := by
  induction ws generalizing q with
  | nil => simp at h
  | cons w rest ih =>
    rw [List.foldlM_cons]
    by_cases hw : malformedToken w
    · rw [ParseQueryWord_of_malformed s w hw]; rfl
    · have hrest : ∃ token ∈ rest, malformedToken token := by
        obtain ⟨t, ht, hm⟩ := h
        rcases List.mem_cons.1 ht with rfl | ht
        · exact absurd hm hw
        · exact ⟨t, ht, hm⟩
      rw [ParseQueryWord_of_wellformed s w hw]
      rw [except_ok_bind]
      split_ifs <;> exact ih _ hrest

theorem ParseQuery_fold_ok (s : SearchServer R) (ws : List Str) (q : Query)
    (h : ∀ token ∈ ws, ¬ malformedToken token) :
    ∃ q', ws.foldlM (fun result word => do
      let query_word ← s.ParseQueryWord word
      if !query_word.is_stop then
        if query_word.is_minus then
          pure { result with minus_words := StdSet.insert result.minus_words query_word.data }
        else
          pure { result with plus_words := StdSet.insert result.plus_words query_word.data }
      else pure result) q = (.ok q' : Except Error Query) ∧
      (∀ w, w ∈ q'.plus_words ↔ w ∈ q.plus_words ∨
        (w ∈ ws ∧ w.head? ≠ some '-' ∧ s.IsStopWord w = false)) ∧
      (∀ w, w ∈ q'.minus_words ↔ w ∈ q.minus_words ∨
        (('-' :: w) ∈ ws ∧ s.IsStopWord w = false)) ∧
      (q.plus_words.Sorted (· < ·) → q'.plus_words.Sorted (· < ·)) ∧
      (q.minus_words.Sorted (· < ·) → q'.minus_words.Sorted (· < ·)) := by
  induction ws generalizing q with
  | nil => exact ⟨q, rfl, by simp, by simp, id, id⟩
  | cons t rest ih =>
    have ht := h t (List.mem_cons_self _ _)
    have hrest : ∀ token ∈ rest, ¬ malformedToken token :=
      fun x hx => h x (List.mem_cons_of_mem _ hx)
    rw [List.foldlM_cons, ParseQueryWord_of_wellformed s t ht]
    rw [except_ok_bind]
    by_cases hm : t.head? = some '-'
    · obtain ⟨c, r, rfl⟩ : ∃ c r, t = c :: r := by
        cases t with
        | nil => simp at hm
        | cons c r => exact ⟨c, r, rfl⟩
      simp only [List.head?_cons, Option.some.injEq] at hm
      subst hm
      simp only [List.head?_cons, ↓reduceIte, List.drop_succ_cons, List.drop_zero, decide_True]
      cases hstop : s.IsStopWord r with
      | true =>
        obtain ⟨q', hq', hp, hmn, hsp, hsm⟩ := ih q hrest
        refine ⟨q', by simpa using hq', fun w => ?_, fun w => ?_, hsp, hsm⟩
        · rw [hp w]
          constructor
          · rintro (h1 | ⟨h1, h2, h3⟩)
            · exact Or.inl h1
            · exact Or.inr ⟨List.mem_cons_of_mem _ h1, h2, h3⟩
          · rintro (h1 | ⟨h1, h2, h3⟩)
            · exact Or.inl h1
            · rcases List.mem_cons.1 h1 with rfl | h1
              · simp at h2
              · exact Or.inr ⟨h1, h2, h3⟩
        · rw [hmn w]
          constructor
          · rintro (h1 | ⟨h1, h2⟩)
            · exact Or.inl h1
            · exact Or.inr ⟨List.mem_cons_of_mem _ h1, h2⟩
          · rintro (h1 | ⟨h1, h2⟩)
            · exact Or.inl h1
            · rcases List.mem_cons.1 h1 with heq | h1
              · simp only [List.cons.injEq, true_and] at heq
                rw [heq, hstop] at h2
                exact absurd h2 (by simp)
              · exact Or.inr ⟨h1, h2⟩
      | false =>
        obtain ⟨q', hq', hp, hmn, hsp, hsm⟩ :=
          ih { q with minus_words := StdSet.insert q.minus_words r } hrest
        refine ⟨q', by simpa using hq', fun w => ?_, fun w => ?_, hsp,
          fun hs => hsm (StdSet.sorted_insert hs r)⟩
        · rw [hp w]
          constructor
          · rintro (h1 | ⟨h1, h2, h3⟩)
            · exact Or.inl h1
            · exact Or.inr ⟨List.mem_cons_of_mem _ h1, h2, h3⟩
          · rintro (h1 | ⟨h1, h2, h3⟩)
            · exact Or.inl h1
            · rcases List.mem_cons.1 h1 with rfl | h1
              · simp at h2
              · exact Or.inr ⟨h1, h2, h3⟩
        · rw [hmn w]
          simp only [StdSet.mem_insert]
          constructor
          · rintro ((h1 | h1) | ⟨h1, h2⟩)
            · exact Or.inr ⟨by rw [h1]; exact List.mem_cons_self _ _, by rw [h1]; exact hstop⟩
            · exact Or.inl h1
            · exact Or.inr ⟨List.mem_cons_of_mem _ h1, h2⟩
          · rintro (h1 | ⟨h1, h2⟩)
            · exact Or.inl (Or.inr h1)
            · rcases List.mem_cons.1 h1 with heq | h1
              · simp only [List.cons.injEq, true_and] at heq
                exact Or.inl (Or.inl heq)
              · exact Or.inr ⟨h1, h2⟩
    · simp only [hm, ↓reduceIte, decide_False]
      cases hstop : s.IsStopWord t with
      | true =>
        obtain ⟨q', hq', hp, hmn, hsp, hsm⟩ := ih q hrest
        refine ⟨q', by simpa using hq', fun w => ?_, fun w => ?_, hsp, hsm⟩
        · rw [hp w]
          constructor
          · rintro (h1 | ⟨h1, h2, h3⟩)
            · exact Or.inl h1
            · exact Or.inr ⟨List.mem_cons_of_mem _ h1, h2, h3⟩
          · rintro (h1 | ⟨h1, h2, h3⟩)
            · exact Or.inl h1
            · rcases List.mem_cons.1 h1 with rfl | h1
              · rw [hstop] at h3
                exact absurd h3 (by simp)
              · exact Or.inr ⟨h1, h2, h3⟩
        · rw [hmn w]
          constructor
          · rintro (h1 | ⟨h1, h2⟩)
            · exact Or.inl h1
            · exact Or.inr ⟨List.mem_cons_of_mem _ h1, h2⟩
          · rintro (h1 | ⟨h1, h2⟩)
            · exact Or.inl h1
            · rcases List.mem_cons.1 h1 with heq | h1
              · rw [← heq] at hm
                simp at hm
              · exact Or.inr ⟨h1, h2⟩
      | false =>
        obtain ⟨q', hq', hp, hmn, hsp, hsm⟩ :=
          ih { q with plus_words := StdSet.insert q.plus_words t } hrest
        refine ⟨q', by simpa using hq', fun w => ?_, fun w => ?_,
          fun hs => hsp (StdSet.sorted_insert hs t), hsm⟩
        · rw [hp w]
          simp only [StdSet.mem_insert]
          constructor
          · rintro ((h1 | h1) | ⟨h1, h2, h3⟩)
            · exact Or.inr ⟨by rw [h1]; exact List.mem_cons_self _ _, by rw [h1]; exact hm,
                by rw [h1]; exact hstop⟩
            · exact Or.inl h1
            · exact Or.inr ⟨List.mem_cons_of_mem _ h1, h2, h3⟩
          · rintro (h1 | ⟨h1, h2, h3⟩)
            · exact Or.inl (Or.inr h1)
            · rcases List.mem_cons.1 h1 with heq | h1
              · exact Or.inl (Or.inl heq)
              · exact Or.inr ⟨h1, h2, h3⟩
        · rw [hmn w]
          constructor
          · rintro (h1 | ⟨h1, h2⟩)
            · exact Or.inl h1
            · exact Or.inr ⟨List.mem_cons_of_mem _ h1, h2⟩
          · rintro (h1 | ⟨h1, h2⟩)
            · exact Or.inl h1
            · rcases List.mem_cons.1 h1 with heq | h1
              · rw [← heq] at hm
                simp at hm
              · exact Or.inr ⟨h1, h2⟩

end SearchServer

namespace SearchServer

variable {R : Type}

theorem ParseQuery_of_malformed (s : SearchServer R) (raw_query : Str)
    (h : ∃ token ∈ SplitIntoWords raw_query, malformedToken token) :
    s.ParseQuery raw_query = .error .invalid_argument :=
  ParseQuery_fold_error s _ _ h

theorem ParseQuery_of_wellformed (s : SearchServer R) (raw_query : Str)
    (h : ∀ token ∈ SplitIntoWords raw_query, ¬ malformedToken token) :
    ∃ query, s.ParseQuery raw_query = .ok query ∧
      (∀ w, w ∈ query.plus_words ↔
        w ∈ SplitIntoWords raw_query ∧ w.head? ≠ some '-' ∧ s.IsStopWord w = false) ∧
      (∀ w, w ∈ query.minus_words ↔
        ('-' :: w) ∈ SplitIntoWords raw_query ∧ s.IsStopWord w = false) ∧
      query.plus_words.Sorted (· < ·) ∧ query.minus_words.Sorted (· < ·) := by
  obtain ⟨q', hq', hp, hm, hsp, hsm⟩ := ParseQuery_fold_ok s _ ⟨[], []⟩ h
  refine ⟨q', hq', fun w => ?_, fun w => ?_, hsp List.sorted_nil, hsm List.sorted_nil⟩
  · rw [hp w]; simp
  · rw [hm w]; simp

theorem ParseQuery_ok_spec (s : SearchServer R) (raw_query : Str) (query : Query)
    (h : s.ParseQuery raw_query = .ok query) :
    (∀ token ∈ SplitIntoWords raw_query, ¬ malformedToken token) ∧
      (∀ w, w ∈ query.plus_words ↔
        w ∈ SplitIntoWords raw_query ∧ w.head? ≠ some '-' ∧ s.IsStopWord w = false) ∧
      (∀ w, w ∈ query.minus_words ↔
        ('-' :: w) ∈ SplitIntoWords raw_query ∧ s.IsStopWord w = false) ∧
      query.plus_words.Sorted (· < ·) ∧ query.minus_words.Sorted (· < ·) := by
  by_cases hw : ∀ token ∈ SplitIntoWords raw_query, ¬ malformedToken token
  · obtain ⟨q, hq, rest⟩ := ParseQuery_of_wellformed s raw_query hw
    rw [h] at hq
    cases hq
    exact ⟨hw, rest⟩
  · push_neg at hw
    rw [ParseQuery_of_malformed s raw_query hw] at h
    cases h

theorem mem_SplitIntoWords_nil (raw_query : Str)
    (h : raw_query = [] ∨ (∃ t, raw_query = ' ' :: t) ∨ (∃ t, raw_query = t ++ [' ']) ∨
      ∃ t u, raw_query = t ++ ' ' :: ' ' :: u) :
    [] ∈ SplitIntoWords raw_query := by
  rw [SplitIntoWords_eq_runs]
  rcases h with rfl | ⟨t, rfl⟩ | ⟨t, rfl⟩ | ⟨t, u, rfl⟩
  · simp [spaceFreeRuns]
  · simp [spaceFreeRuns]
  · rw [spaceFreeRuns_append]; simp [spaceFreeRuns]
  · rw [spaceFreeRuns_append]
    have : spaceFreeRuns (' ' :: u) = [] :: spaceFreeRuns u := by simp [spaceFreeRuns]
    rw [this]; simp

end SearchServer


/-! ## Lemmas on the two indices and on removal -/

namespace StdMap

variable {K V : Type}

theorem length_erase_of_mem [LinearOrder K] (m : StdMap K V) (k : K)
    (hs : (keys m).Sorted (· < ·)) (hk : k ∈ keys m) :
    (erase m k).length + 1 = m.length := by
  induction m with
  | nil => simp [keys] at hk
  | cons p m ih =>
    rw [sorted_keys_cons] at hs
    by_cases hp : p.1 = k
    · have hnot : ¬ count m k > 0 := by
        rw [count_pos_iff]
        intro hmem
        exact absurd (hs.1 k hmem) (by rw [hp]; exact lt_irrefl _)
      have := erase_of_count_eq_zero m k hnot
      simp only [erase] at this ⊢
      simp [List.filter_cons, hp, this]
    · have hk2 : k ∈ keys m := by
        simp only [keys, List.map_cons, List.mem_cons] at hk
        rcases hk with hk | hk
        · exact absurd hk.symm hp
        · exact hk
      have := ih hs.2 hk2
      simp only [erase] at this ⊢
      simp [List.filter_cons, hp, this]

end StdMap

namespace SearchServer

variable {R : Type}

theorem RemoveDocument_of_stored (s : SearchServer R) (document_id : Int)
    (h : document_id ∈ s.document_ids_) :
    s.RemoveDocument document_id =
      { s with
        document_ids_ := StdSet.erase s.document_ids_ document_id
        documents_ := StdMap.erase s.documents_ document_id
        document_to_word_freqs_ := StdMap.erase s.document_to_word_freqs_ document_id
        word_to_document_freqs_ := s.word_to_document_freqs_.map (fun word_freqs =>
          if StdMap.count word_freqs.2 document_id > 0 then
            (word_freqs.1, StdMap.erase word_freqs.2 document_id)
          else word_freqs) } := by
  unfold RemoveDocument
  rw [if_pos ((StdSet.set_count_pos_iff _ _).2 h)]

theorem RemoveDocument_of_not_stored (s : SearchServer R) (document_id : Int)
    (h : document_id ∉ s.document_ids_) : s.RemoveDocument document_id = s := by
  unfold RemoveDocument
  rw [if_neg (fun hc => h ((StdSet.set_count_pos_iff _ _).1 hc))]

theorem RemoveDocument_inverted (s : SearchServer R) (document_id : Int) (w : Str)
    (m : StdMap Int R)
    (h : (w, m) ∈ (s.RemoveDocument document_id).word_to_document_freqs_)
    (hid : document_id ∈ s.document_ids_) : document_id ∉ StdMap.keys m := by
  rw [RemoveDocument_of_stored s document_id hid] at h
  simp only [List.mem_map] at h
  obtain ⟨⟨w0, m0⟩, _, heq⟩ := h
  by_cases hc : StdMap.count m0 document_id > 0
  · simp only [if_pos hc, Prod.mk.injEq] at heq
    rw [← heq.2, StdMap.keys_erase, StdSet.mem_erase]
    exact fun hx => hx.1 rfl
  · simp only [if_neg hc, Prod.mk.injEq] at heq
    rw [← heq.2, ← StdMap.count_pos_iff]
    exact hc

end SearchServer


/-! ## Lemmas on `MatchDocument` -/

theorem std_sort_of_sorted {α : Type} [LinearOrder α] (l : List α) (h : l.Sorted (· < ·)) :
    std_sort (fun a b => decide (a < b)) l = l := by
  induction l with
  | nil => rfl
  | cons a l ih =>
    rw [List.sorted_cons] at h
    simp only [std_sort]
    rw [ih h.2]
    cases l with
    | nil => rfl
    | cons b l =>
      have hab : a < b := h.1 b (List.mem_cons_self _ _)
      simp [sortedInsert, not_lt_of_lt hab]

theorem dedupAdjacent_of_nodup {α : Type} [DecidableEq α] (l : List α) (h : l.Nodup) :
    dedupAdjacent l = l := by
  induction l with
  | nil => rfl
  | cons a l ih =>
    rw [List.nodup_cons] at h
    cases l with
    | nil => rfl
    | cons b l =>
      have hab : a ≠ b := fun hab => h.1 (by rw [hab]; exact List.mem_cons_self _ _)
      simp only [dedupAdjacent, if_neg hab]
      rw [ih h.2]

theorem std_unique_of_nodup {α : Type} [DecidableEq α] (l : List α) (h : l.Nodup) :
    std_unique l = l := by
  simp [std_unique, dedupAdjacent_of_nodup l h]

namespace SearchServer

variable {R : Type}

theorem Inv.wordInDocument_eq {s : SearchServer R} (hs : s.Inv) (document_id : Int)
    (word : Str) : s.wordInDocument document_id word = containsWord s document_id word := by
  rw [Bool.eq_iff_iff, ← hs.isSome_find2?_iff]
  unfold wordInDocument StdMap.find2? StdMap.count
  cases hf : StdMap.find? s.word_to_document_freqs_ word with
  | none => simp [StdMap.find?]
  | some m =>
    cases hm : StdMap.find? m document_id <;> simp [hm]

theorem MatchDocument_of_parse_error (s : SearchServer R) (policy : ExecutionPolicy)
    (raw_query : Str) (document_id : Int) (e : Error) (h : s.ParseQuery raw_query = .error e) :
    s.MatchDocument policy raw_query document_id = .error e := by
  unfold MatchDocument
  rw [h]
  rfl

theorem MatchDocument_of_stored (s : SearchServer R) (hs : s.Inv) (policy : ExecutionPolicy)
    (raw_query : Str) (document_id : Int) (query : Query) (data : DocumentData)
    (h : s.ParseQuery raw_query = .ok query)
    (hid : StdMap.find? s.documents_ document_id = some data) :
    s.MatchDocument policy raw_query document_id =
      .ok (if query.minus_words.any (containsWord s document_id) then []
        else query.plus_words.filter (containsWord s document_id), data.status) := by
  have hw : s.wordInDocument document_id = containsWord s document_id :=
    funext (hs.wordInDocument_eq document_id)
  have hsorted : (query.plus_words.filter (containsWord s document_id)).Sorted (· < ·) :=
    (ParseQuery_ok_spec s raw_query query h).2.2.2.1.filter _
  unfold MatchDocument
  rw [h, except_ok_bind, hw]
  simp only [StdMap.atKey, hid]
  split_ifs
  · rfl
  · rw [std_sort_of_sorted _ hsorted, std_unique_of_nodup _ hsorted.nodup]
    rfl

end SearchServer


namespace SearchServer

variable {R : Type}

theorem AddDocument_stop_words [DivisionRing R] (s : SearchServer R) (document_id : Int)
    (document : Str) (status : DocumentStatus) (ratings : List Int) :
    (s.AddDocument document_id document status ratings).2.stop_words_ = s.stop_words_ := by
  by_cases hc : document_id < 0 ∨ document_id ∈ StdMap.keys s.documents_ ∨
        ∃ word ∈ SplitIntoWords document, ∃ c ∈ word, c.toNat < 0x20
  · rw [AddDocument_of_bad s _ _ _ _ hc]
  · rw [AddDocument_of_good s _ _ _ _ hc _ rfl _ rfl]
    exact (AddDocumentStep_fold_fixed _ _ _ _).2.2

theorem RemoveDocument_stop_words (s : SearchServer R) (document_id : Int) :
    (s.RemoveDocument document_id).stop_words_ = s.stop_words_ := by
  unfold RemoveDocument
  split <;> rfl

theorem RemoveDocument_GetWordFrequencies (s : SearchServer R) (document_id x : Int)
    (w : Str) (h : w ∈ StdMap.keys ((s.RemoveDocument document_id).GetWordFrequencies x)) :
    w ∈ StdMap.keys (s.GetWordFrequencies x) := by
  by_cases hid : document_id ∈ s.document_ids_
  · rw [← StdMap.find?_isSome_iff, find?_GetWordFrequencies] at h ⊢
    rw [RemoveDocument_of_stored s document_id hid] at h
    simp only [StdMap.find2?, StdMap.find?_erase] at h ⊢
    by_cases hx : x = document_id
    · simp [hx] at h
    · simpa [hx] using h
  · rw [RemoveDocument_of_not_stored s document_id hid] at h
    exact h

/-- The words of the index are tokens of documents: in a reachable state a key of
`GetWordFrequencies` has no space, no character below 0x20, and is not a stop word. -/
theorem Reachable.indexed_word [Field R] {s : SearchServer R} (hs : s.Reachable) (x : Int)
    (w : Str) (h : w ∈ StdMap.keys (s.GetWordFrequencies x)) :
    ' ' ∉ w ∧ (∀ c ∈ w, ¬ c.toNat < 0x20) ∧ w ∉ s.stop_words_ := by
  induction hs generalizing x w with
  | create stop_words s hc =>
    simp only [SearchServer.create] at hc
    split at hc
    · cases hc
    · cases hc
      simp [GetWordFrequencies, StdMap.count, StdMap.find?, StdMap.keys] at h
  | add s document_id document status ratings hr ih =>
    rw [AddDocument_stop_words]
    by_cases hc : document_id < 0 ∨ document_id ∈ StdMap.keys s.documents_ ∨
        ∃ word ∈ SplitIntoWords document, ∃ c ∈ word, c.toNat < 0x20
    · rw [AddDocument_of_bad s _ _ _ _ hc] at h
      exact ih x w h
    · have hok := AddDocument_ok_of_good s document_id document status ratings hc
      rw [← StdMap.find?_isSome_iff,
        AddDocument_GetWordFrequencies hr.inv document_id document status ratings hok] at h
      by_cases hx : x = document_id
      · rw [if_pos hx] at h
        by_cases hw : w ∈ nonStopTokens s document
        · simp only [nonStopTokens, List.mem_filter, decide_eq_true_eq] at hw
          refine ⟨?_, ?_, hw.2⟩
          · rw [SplitIntoWords_eq_runs] at hw
            exact spaceFreeRuns_no_space document w hw.1
          · intro c hcw hlt
            exact hc (Or.inr (Or.inr ⟨w, hw.1, c, hcw, hlt⟩))
        · rw [if_neg hw] at h
          simp at h
      · rw [if_neg hx, StdMap.find?_isSome_iff] at h
        exact ih x w h
  | remove s document_id hr ih =>
    rw [RemoveDocument_stop_words]
    exact ih x w (RemoveDocument_GetWordFrequencies s document_id x w h)

theorem dashServer_reachable (R : Type) [DivisionRing R] : (dashServer R).Reachable :=
  Reachable.add _ _ _ _ _ (noStopWords_reachable R)

end SearchServer


/-! ## Lemmas on the rating -/

theorem wrapInt32_of_fits (x : Int) (h1 : -2 ^ 31 ≤ x) (h2 : x < 2 ^ 31) : wrapInt32 x = x := by
  unfold wrapInt32
  omega

theorem wrapInt32_add_wrapInt32 (a b : Int) : wrapInt32 (wrapInt32 a + b) = wrapInt32 (a + b) := by
  unfold wrapInt32
  omega

namespace SearchServer

variable {R : Type}

theorem rating_sum_fold (ratings : List Int) (acc : Int) :
    wrapInt32 (ratings.foldl (fun sum rating => wrapInt32 (sum + rating)) acc) =
      wrapInt32 (acc + ratings.sum) := by
  induction ratings generalizing acc with
  | nil => simp
  | cons r rest ih =>
    rw [List.foldl_cons, ih, wrapInt32_add_wrapInt32, List.sum_cons, add_assoc]

theorem rating_sum_fold_fits (ratings : List Int) :
    ratings.foldl (fun sum rating => wrapInt32 (sum + rating)) 0 = wrapInt32 ratings.sum := by
  have h := rating_sum_fold ratings 0
  rw [zero_add] at h
  rw [← h]
  cases ratings using List.reverseRecOn with
  | nil => rfl
  | append_singleton l a =>
    rw [List.foldl_append]
    simp only [List.foldl_cons, List.foldl_nil]
    unfold wrapInt32
    omega

theorem ComputeAverageRating_eq (ratings : List Int) :
    ComputeAverageRating ratings =
      if ratings = [] then 0
      else Int.tdiv (wrapInt32 ratings.sum) (wrapInt32 ratings.length) := by
  unfold ComputeAverageRating
  rw [rating_sum_fold_fits]
  cases ratings <;> simp

end SearchServer

namespace SearchServer

variable {R : Type}

theorem FindAllDocuments_rating [DivisionRing R] (ln : R → R) (s : SearchServer R) (hs : s.Inv)
    (policy : ExecutionPolicy) (query : Query) (document_predicate : DocumentPredicate)
    (all : List (Document R))
    (h : s.FindAllDocuments ln policy query document_predicate = .ok all) :
    ∀ d ∈ all, d.rating = s.storedRating d.id := by
  have hseq : ∀ pred docs, s.FindAllDocumentsSeq ln query pred = .ok docs →
      ∀ d ∈ docs, d.rating = s.storedRating d.id := by
    intro pred docs hdocs d hd
    obtain ⟨docs', hdocs', _, hmem⟩ := FindAllDocumentsSeq_spec ln s hs query pred
    rw [hdocs] at hdocs'
    cases hdocs'
    obtain ⟨data, hdata, _, _, _, hr, _⟩ := (hmem d).1 hd
    simp [storedRating, hdata, hr]
  cases policy with
  | seq => exact hseq _ all h
  | par =>
    simp only [FindAllDocuments] at h
    rw [FindAllDocumentsPar_eq ln s hs] at h
    split_ifs at h
    exact hseq _ all h

theorem FindTopDocuments_rating [LinearOrderedField R] (MAX_RESULT_DOCUMENT_COUNT : Nat)
    (ln : R → R) (s : SearchServer R) (hs : s.Inv) (policy : ExecutionPolicy) (raw_query : Str)
    (document_predicate : DocumentPredicate) (docs : List (Document R))
    (h : s.FindTopDocuments MAX_RESULT_DOCUMENT_COUNT ln policy raw_query document_predicate =
      .ok docs) :
    ∀ d ∈ docs, d.rating = s.storedRating d.id := by
  obtain ⟨query, all, _, hall, rfl⟩ := FindTopDocuments_ok_inv MAX_RESULT_DOCUMENT_COUNT ln s
    policy raw_query document_predicate docs h
  intro d hd
  exact FindAllDocuments_rating ln s hs policy query document_predicate all hall d
    (mem_of_mem_top _ _ _ _ hd)

theorem AddDocument_storedRating [DivisionRing R] {s : SearchServer R} (hs : s.Inv)
    (document_id : Int) (document : Str) (status : DocumentStatus) (ratings : List Int)
    (h : (s.AddDocument document_id document status ratings).1 = .ok ()) :
    (s.AddDocument document_id document status ratings).2.storedRating document_id =
      ComputeAverageRating ratings := by
  have h3 := (AddDocument_documents hs document_id document status ratings h).2.2 document_id
  rw [if_pos rfl] at h3
  unfold storedRating
  cases hf : StdMap.find? (s.AddDocument document_id document status ratings).2.documents_
      document_id with
  | none => rw [hf] at h3; simp at h3
  | some data =>
    rw [hf] at h3
    simp only [Option.map_some', Option.some.injEq, Prod.mk.injEq] at h3
    simp [h3.1]

end SearchServer


namespace SearchServer

theorem manyRatings_sum : manyRatings.sum = -2 ^ 31 := by
  rw [manyRatings, List.sum_append, List.sum_replicate]
  norm_num

theorem manyRatings_length : manyRatings.length = 2 ^ 31 + 1 := by
  rw [manyRatings, List.length_append, List.length_replicate]
  rfl

theorem manyRatings_partial_sums (k : Nat) :
    -2 ^ 31 ≤ (manyRatings.take k).sum ∧ (manyRatings.take k).sum < 2 ^ 31 := by
  have h0 : ∀ j, (List.take j [(0 : Int)]).sum = 0 := by
    intro j
    cases j <;> simp
  rw [manyRatings, List.take_append_eq_append_take, List.take_replicate, List.sum_append,
    List.sum_replicate, h0]
  have hle : min k (2 ^ 31) ≤ 2 ^ 31 := min_le_right _ _
  generalize min k (2 ^ 31) = m at hle ⊢
  simp only [nsmul_eq_mul, mul_neg, mul_one, add_zero]
  constructor <;> omega

end SearchServer


/-! ## Lemmas on the forward index -/

theorem StdMap.update_ne_nil {K V : Type} [LinearOrder K] (m : StdMap K V) (k : K) (d : V)
    (f : V → V) : StdMap.update m k d f ≠ [] := by
  cases m with
  | nil => simp [StdMap.update]
  | cons p m =>
    obtain ⟨k', v⟩ := p
    unfold StdMap.update
    split_ifs <;> simp

namespace SearchServer

variable {R : Type}

theorem AddDocumentStep_fold_nonempty [Zero R] [Add R] (document_id : Int) (delta : R)
    (words : List Str) (acc : StdSet Str × SearchServer R)
    (hi : IndexInv acc.2.word_to_document_freqs_ acc.2.document_to_word_freqs_)
    (h : ∀ d f, StdMap.find? acc.2.document_to_word_freqs_ d = some f → f ≠ []) :
    ∀ d f, StdMap.find?
        (words.foldl (AddDocumentStep document_id delta) acc).2.document_to_word_freqs_ d =
      some f → f ≠ [] := by
  induction words generalizing acc with
  | nil => exact h
  | cons w ws ih =>
    simp only [List.foldl_cons]
    apply ih _ (hi.step w document_id delta)
    intro d f hf
    simp only [AddDocumentStep] at hf
    rw [StdMap.find?_update hi.fwd_sorted] at hf
    by_cases hd : d = document_id
    · rw [if_pos hd] at hf
      rw [← Option.some.inj hf]
      exact StdMap.update_ne_nil _ _ _ _
    · rw [if_neg hd] at hf
      exact h d f hf

/-- The entries of the forward index are never empty maps. -/
theorem Reachable.forward_nonempty [DivisionRing R] {s : SearchServer R} (hs : s.Reachable) :
    ∀ d f, StdMap.find? s.document_to_word_freqs_ d = some f → f ≠ [] := by
  induction hs with
  | create stop_words s hc =>
    simp only [SearchServer.create] at hc
    split at hc
    · cases hc
    · cases hc
      intro d f hf
      simp [StdMap.find?] at hf
  | add s document_id document status ratings hr ih =>
    by_cases hc : document_id < 0 ∨ document_id ∈ StdMap.keys s.documents_ ∨
        ∃ word ∈ SplitIntoWords document, ∃ c ∈ word, c.toNat < 0x20
    · rw [AddDocument_of_bad s _ _ _ _ hc]
      exact ih
    · rw [AddDocument_of_good s _ _ _ _ hc _ rfl _ rfl]
      exact AddDocumentStep_fold_nonempty _ _ _ _ hr.inv.index ih
  | remove s document_id hr ih =>
    by_cases hid : document_id ∈ s.document_ids_
    · rw [RemoveDocument_of_stored s document_id hid]
      intro d f hf
      simp only [StdMap.find?_erase] at hf
      by_cases hd : d = document_id
      · simp [hd] at hf
      · rw [if_neg hd] at hf
        exact ih d f hf
    · rw [RemoveDocument_of_not_stored s document_id hid]
      exact ih

theorem queueEmpty_reachable (R : Type) [DivisionRing R] : (queueEmpty R).Reachable :=
  Reachable.create (SplitIntoWords "and in at".toList) (queueEmpty R) rfl

theorem queueServer_reachable (R : Type) [DivisionRing R] : (queueServer R).Reachable :=
  Reachable.add _ _ _ _ _ (Reachable.add _ _ _ _ _ (Reachable.add _ _ _ _ _
    (Reachable.add _ _ _ _ _ (Reachable.add _ _ _ _ _ (queueEmpty_reachable R)))))

theorem stopOnlyServer_reachable (R : Type) [DivisionRing R] : (stopOnlyServer R).Reachable :=
  Reachable.add _ _ _ _ _ (demoEmpty_reachable R)

end SearchServer


/-! ## Lemmas on the sharded accumulator -/

namespace StdMap

variable {K V : Type}

/-- Two ordered maps with the same lookups are the same list of entries. -/
theorem ext_of_find? [LinearOrder K] {m₁ m₂ : StdMap K V} (h₁ : (keys m₁).Sorted (· < ·))
    (h₂ : (keys m₂).Sorted (· < ·)) (h : ∀ k, find? m₁ k = find? m₂ k) : m₁ = m₂ := by
  haveI : IsAntisymm (K × V) (fun p q => p.1 < q.1) :=
    ⟨fun a b hab hba => absurd hab (lt_asymm hba)⟩
  have hp₁ : m₁.Pairwise (fun p q => p.1 < q.1) := by
    simpa [keys, List.Sorted, List.pairwise_map] using h₁
  have hp₂ : m₂.Pairwise (fun p q => p.1 < q.1) := by
    simpa [keys, List.Sorted, List.pairwise_map] using h₂
  have hn₁ : m₁.Nodup := hp₁.imp (fun hab heq => by rw [heq] at hab; exact lt_irrefl _ hab)
  have hn₂ : m₂.Nodup := hp₂.imp (fun hab heq => by rw [heq] at hab; exact lt_irrefl _ hab)
  apply List.eq_of_perm_of_sorted _ hp₁ hp₂
  rw [List.perm_ext_iff_of_nodup hn₁ hn₂]
  rintro ⟨k, v⟩
  rw [← find?_iff_mem h₁, ← find?_iff_mem h₂, h k]

end StdMap

namespace ConcurrentMap

variable {V : Type}

theorem accumulate_fold_spec [Zero V] [Add V] (ops : List (Int × V)) (cm : ConcurrentMap V)
    (h : cm.bucket_.length ≠ 0) (hwf : cm.WF) :
    ∃ cm', ops.foldlM (fun cm op => cm.accumulate op.1 op.2) cm = .ok cm' ∧
      cm'.bucket_.length = cm.bucket_.length ∧ cm'.WF ∧
      ∀ x, cm'.get x =
        if x ∈ ops.map Prod.fst then
          some ((ops.filter (fun op => decide (op.1 = x))).foldl (fun sum op => sum + op.2)
            ((cm.get x).getD 0))
        else cm.get x := by
  induction ops generalizing cm with
  | nil => exact ⟨cm, rfl, rfl, hwf, fun x => by simp⟩
  | cons op rest ih =>
    obtain ⟨cm1, h1, hlen1, hwf1, hget1⟩ := accumulate_spec cm op.1 op.2 h hwf
    obtain ⟨cm2, h2, hlen2, hwf2, hget2⟩ := ih cm1 (by rw [hlen1]; exact h) hwf1
    refine ⟨cm2, ?_, by rw [hlen2, hlen1], hwf2, fun x => ?_⟩
    · rw [List.foldlM_cons, h1, except_ok_bind, h2]
    · rw [hget2 x, hget1 x]
      by_cases hx : x = op.1
      · subst hx
        simp only [List.map_cons, List.mem_cons, true_or, if_true, List.filter_cons,
          decide_True, List.foldl_cons, Option.getD_some]
        split_ifs with hmem
        · rfl
        · have hnil : rest.filter (fun o => decide (o.1 = op.1)) = [] := by
            rw [List.filter_eq_nil_iff]
            intro o ho hdec
            exact hmem (List.mem_map.2 ⟨o, ho, of_decide_eq_true hdec⟩)
          rw [hnil]
          rfl
      · have hx' : ¬ op.1 = x := fun h => hx h.symm
        simp only [List.map_cons, List.filter_cons, hx', decide_False, Bool.false_eq_true,
          if_false, hx]
        have hiff : x ∈ op.1 :: List.map Prod.fst rest ↔ x ∈ List.map Prod.fst rest := by
          rw [List.mem_cons]
          exact ⟨fun h => h.resolve_left hx, Or.inr⟩
        by_cases hm : x ∈ List.map Prod.fst rest
        · rw [if_pos hm, if_pos (hiff.2 hm)]
        · rw [if_neg hm, if_neg (fun h => hm (hiff.1 h))]

end ConcurrentMap

theorem accumulateAll_spec {V : Type} [Zero V] [Add V] (bucket_count : Nat)
    (hB : 1 ≤ bucket_count) (ops : List (Int × V)) :
    ∃ cm, accumulateAll bucket_count ops = .ok cm ∧ cm.bucket_.length = bucket_count ∧ cm.WF ∧
      ∀ x, cm.get x = if x ∈ ops.map Prod.fst then some (deltaSum ops x) else none := by
  obtain ⟨cm, h1, h2, h3, h4⟩ := ConcurrentMap.accumulate_fold_spec ops
    (ConcurrentMap.create bucket_count : ConcurrentMap V)
    (by simp [ConcurrentMap.create]; omega) (ConcurrentMap.WF_create bucket_count)
  refine ⟨cm, h1, by simpa [ConcurrentMap.create] using h2, h3, fun x => ?_⟩
  rw [h4 x, ConcurrentMap.get_create]
  rfl

theorem bucketIndex_of_nonneg (bucket_count : Nat) (key : Int) (h0 : 0 ≤ key)
    (h1 : key < 2 ^ 64) : (bucketIndex bucket_count key : Int) = key % bucket_count := by
  unfold bucketIndex toUInt64
  rw [Int.emod_eq_of_lt h0 h1]
  obtain ⟨n, rfl⟩ := Int.eq_ofNat_of_zero_le h0
  simp


/-! ## Lemmas on the comparator -/

theorem documentLess_of_separated {R : Type} [LinearOrderedField R] (a b : Document R)
    (h : a.relevance = b.relevance ∨ 1 / 1000000 ≤ |a.relevance - b.relevance|) :
    documentLess a b = true ↔
      b.relevance < a.relevance ∨ (a.relevance = b.relevance ∧ b.rating < a.rating) := by
  unfold documentLess
  by_cases hc : |a.relevance - b.relevance| < 1 / 1000000
  · have heq : a.relevance = b.relevance := by
      rcases h with h | h
      · exact h
      · exact absurd hc (not_lt.2 h)
    rw [if_pos hc]
    simp only [gt_iff_lt, decide_eq_true_eq]
    constructor
    · exact fun hr => Or.inr ⟨heq, hr⟩
    · rintro (hlt | ⟨_, hr⟩)
      · rw [heq] at hlt
        exact absurd hlt (lt_irrefl _)
      · exact hr
  · rw [if_neg hc]
    simp only [gt_iff_lt, decide_eq_true_eq]
    constructor
    · exact fun hr => Or.inl hr
    · rintro (hlt | ⟨heq, _⟩)
      · exact hlt
      · exfalso
        apply hc
        rw [heq, sub_self, abs_zero]
        norm_num

theorem documentLess_irrefl {R : Type} [LinearOrderedField R] (a : Document R) :
    documentLess a a = false := by
  cases h : documentLess a a with
  | false => rfl
  | true => exact absurd (documentLess_asymm a a h) (by rw [h]; simp)

theorem documentLess_false_of_separated {R : Type} [LinearOrderedField R] (a b : Document R)
    (h : a.relevance = b.relevance ∨ 1 / 1000000 ≤ |a.relevance - b.relevance|) :
    documentLess a b = false ↔
      a.relevance < b.relevance ∨ (a.relevance = b.relevance ∧ a.rating ≤ b.rating) := by
  rw [← Bool.not_eq_true, documentLess_of_separated a b h]
  constructor
  · intro hn
    rcases lt_trichotomy a.relevance b.relevance with h1 | h1 | h1
    · exact Or.inl h1
    · exact Or.inr ⟨h1, not_lt.1 (fun hr => hn (Or.inr ⟨h1, hr⟩))⟩
    · exact absurd (Or.inl h1) hn
  · rintro (h1 | ⟨h1, h2⟩) (h3 | ⟨h3, h4⟩)
    · exact lt_asymm h1 h3
    · rw [h3] at h1; exact lt_irrefl _ h1
    · rw [h1] at h3; exact lt_irrefl _ h3
    · exact absurd h4 (not_lt.2 h2)


/-! ## Lemmas on the request queue -/

namespace RequestQueue

variable {R : Type}

theorem popWhileLong_eq (l : List QueryResult) : popWhileLong l = l.drop (l.length - 1440) := by
  induction l with
  | nil => rfl
  | cons r rest ih =>
    unfold popWhileLong
    by_cases h : ((r :: rest).length : Int) > sec_in_day_
    · rw [if_pos h, ih]
      simp only [sec_in_day_, List.length_cons, Nat.cast_add, Nat.cast_one] at h
      have hk : rest.length + 1 - 1440 = (rest.length - 1440) + 1 := by omega
      rw [List.length_cons, hk, List.drop_succ_cons]
    · rw [if_neg h]
      simp only [sec_in_day_, List.length_cons, Nat.cast_add, Nat.cast_one] at h
      have hk : rest.length + 1 - 1440 = 0 := by omega
      rw [List.length_cons, hk, List.drop_zero]

theorem AddQuery_flags (q : RequestQueue) (documents : List (Document R)) (log : List Bool)
    (h : q.requests_.map (fun req => req.empty_query) = log.drop (log.length - 1440)) :
    (q.AddQuery documents).requests_.map (fun req => req.empty_query) =
      (log ++ [documents.isEmpty]).drop ((log ++ [documents.isEmpty]).length - 1440) := by
  have hlen : q.requests_.length = min log.length 1440 := by
    have := congrArg List.length h
    simp only [List.length_map, List.length_drop] at this
    omega
  simp only [AddQuery, popWhileLong_eq, List.map_drop, List.map_append, List.map_cons,
    List.map_nil, h, List.length_append, List.length_cons, List.length_nil, hlen]
  by_cases hn : log.length < 1440
  · have h1 : min log.length 1440 + (0 + 1) - 1440 = 0 := by omega
    have h2 : log.length - 1440 = 0 := by omega
    have h3 : log.length + (0 + 1) - 1440 = 0 := by omega
    rw [h1, h2, h3]
    rfl
  · have h1 : min log.length 1440 + (0 + 1) - 1440 = 1 := by omega
    have h3 : log.length + (0 + 1) - 1440 = (log.length - 1440) + 1 := by omega
    rw [h1, h3, List.drop_append_of_le_length (by simp; omega),
      List.drop_append_of_le_length (by omega), List.drop_drop]

theorem AddFindRequest_ok [LinearOrderedField R] (MAX_RESULT_DOCUMENT_COUNT : Nat)
    (ln : R → R) (q q' : RequestQueue) (s : SearchServer R) (raw_query : Str)
    (document_predicate : DocumentPredicate) (doc : List (Document R))
    (h : q.AddFindRequest MAX_RESULT_DOCUMENT_COUNT ln s raw_query document_predicate =
      .ok (doc, q')) :
    s.FindTopDocuments MAX_RESULT_DOCUMENT_COUNT ln .seq raw_query document_predicate = .ok doc ∧
    q' = q.AddQuery doc := by
  unfold AddFindRequest at h
  cases hf : s.FindTopDocuments MAX_RESULT_DOCUMENT_COUNT ln .seq raw_query
      document_predicate with
  | error e => rw [hf] at h; cases h
  | ok d =>
    rw [hf, except_ok_bind] at h
    cases h
    exact ⟨rfl, rfl⟩

theorem Served.flags [LinearOrderedField R] {MAX_RESULT_DOCUMENT_COUNT : Nat} {ln : R → R}
    {log : List Bool} {q : RequestQueue} (h : Served MAX_RESULT_DOCUMENT_COUNT ln log q) :
    q.requests_.map (fun req => req.empty_query) = log.drop (log.length - 1440) := by
  induction h with
  | create => rfl
  | predicate log q q' s raw_query document_predicate doc _ hcall ih =>
    rw [(AddFindRequest_ok _ _ _ _ _ _ _ _ hcall).2]
    exact AddQuery_flags q doc log ih
  | status log q q' s raw_query document_status doc _ hcall ih =>
    rw [(AddFindRequest_ok _ _ _ _ _ _ _ _ hcall).2]
    exact AddQuery_flags q doc log ih
  | actual log q q' s raw_query doc _ hcall ih =>
    rw [(AddFindRequest_ok _ _ _ _ _ _ _ _ hcall).2]
    exact AddQuery_flags q doc log ih

end RequestQueue


namespace RequestQueue

set_option maxRecDepth 100000 in
theorem queueServer_empty_request :
    (queueServer ℝ).FindTopDocumentsActual 5 Real.log .seq "empty request".toList = .ok [] :=
  rfl

set_option maxRecDepth 100000 in
theorem queueServer_curly_dog : ∃ r1 r2 r4 r5 : ℝ,
    (queueServer ℝ).FindAllDocuments Real.log .seq ⟨["curly".toList, "dog".toList], []⟩
      (fun _ document_status _ => decide (document_status = DocumentStatus.ACTUAL)) =
      .ok [⟨1, r1, 5⟩, ⟨2, r2, 2⟩, ⟨4, r4, 2⟩, ⟨5, r5, 1⟩] :=
  ⟨_, _, _, _, rfl⟩

set_option maxRecDepth 100000 in
theorem queueServer_big_collar : ∃ r2 r3 r4 r5 : ℝ,
    (queueServer ℝ).FindAllDocuments Real.log .seq ⟨["big".toList, "collar".toList], []⟩
      (fun _ document_status _ => decide (document_status = DocumentStatus.ACTUAL)) =
      .ok [⟨2, r2, 2⟩, ⟨3, r3, 3⟩, ⟨4, r4, 2⟩, ⟨5, r5, 1⟩] :=
  ⟨_, _, _, _, rfl⟩

set_option maxRecDepth 100000 in
theorem queueServer_sparrow : ∃ r4 r5 : ℝ,
    (queueServer ℝ).FindAllDocuments Real.log .seq ⟨["sparrow".toList], []⟩
      (fun _ document_status _ => decide (document_status = DocumentStatus.ACTUAL)) =
      .ok [⟨4, r4, 2⟩, ⟨5, r5, 1⟩] :=
  ⟨_, _, rfl⟩

/-- A search with a non-empty list of matches returns a non-empty list. -/
theorem AddFindRequestActual_of_matches (q : RequestQueue) (s : SearchServer ℝ)
    (raw_query : Str) (query : Query) (all : List (Document ℝ))
    (hq : s.ParseQuery raw_query = .ok query)
    (hall : s.FindAllDocuments Real.log .seq query
      (fun _ document_status _ => decide (document_status = DocumentStatus.ACTUAL)) = .ok all)
    (hne : all ≠ []) :
    ∃ doc, q.AddFindRequestActual 5 Real.log s raw_query = .ok (doc, q.AddQuery doc) ∧
      doc.isEmpty = false := by
  have h := SearchServer.FindTopDocuments_of_ok 5 Real.log s .seq raw_query _ query hq all hall
  refine ⟨(std_sort documentLess all).take 5, ?_, ?_⟩
  · unfold AddFindRequestActual SearchServer.FindTopDocumentsActual
      SearchServer.FindTopDocumentsByStatus
    rw [h]
    rfl
  · rw [List.isEmpty_eq_false]
    intro hnil
    have hlen := congrArg List.length hnil
    rw [List.length_take, (std_sort_perm documentLess all).length_eq] at hlen
    have : all.length ≠ 0 := fun h0 => hne (List.length_eq_zero.1 h0)
    simp only [List.length_nil] at hlen
    omega

theorem served_empty_requests (k : Nat) :
    ∃ q, Served 5 Real.log (List.replicate k true) q := by
  induction k with
  | zero => exact ⟨_, Served.create⟩
  | succ k ih =>
    obtain ⟨q, hq⟩ := ih
    rw [List.replicate_succ']
    refine ⟨q.AddQuery ([] : List (Document ℝ)), ?_⟩
    exact Served.actual _ q _ (queueServer ℝ) "empty request".toList [] hq (by
      unfold AddFindRequestActual
      rw [queueServer_empty_request]
      rfl)

/-- The calls of the request queue demo in `main`: 1439 requests without result, then three
requests with results. -/
theorem served_demo :
    ∃ q, Served 5 Real.log (List.replicate 1439 true ++ [false, false, false]) q := by
  obtain ⟨q0, h0⟩ := served_empty_requests 1439
  obtain ⟨r1, r2, r4, r5, hA⟩ := queueServer_curly_dog
  obtain ⟨d1, hc1, he1⟩ := AddFindRequestActual_of_matches q0 (queueServer ℝ)
    "curly dog".toList _ _ rfl hA (by simp)
  have h1 := Served.actual _ q0 _ _ _ d1 h0 hc1
  obtain ⟨s2, s3, s4, s5, hB⟩ := queueServer_big_collar
  obtain ⟨d2, hc2, he2⟩ := AddFindRequestActual_of_matches (q0.AddQuery d1) (queueServer ℝ)
    "big collar".toList _ _ rfl hB (by simp)
  have h2 := Served.actual _ _ _ _ _ d2 h1 hc2
  obtain ⟨t4, t5, hC⟩ := queueServer_sparrow
  obtain ⟨d3, hc3, he3⟩ := AddFindRequestActual_of_matches ((q0.AddQuery d1).AddQuery d2)
    (queueServer ℝ) "sparrow".toList _ _ rfl hC (by simp)
  have h3 := Served.actual _ _ _ _ _ d3 h2 hc3
  rw [he1, he2, he3, List.append_assoc, List.append_assoc] at h3
  exact ⟨_, h3⟩

end RequestQueue

set_option maxRecDepth 100000 in
theorem demo_log_length :
    (List.replicate 1439 true ++ [false, false, false]).length = 1442 := by
  rw [List.length_append, List.length_replicate]
  rfl

set_option maxRecDepth 100000 in
theorem demo_log_count :
    ((List.replicate 1439 true ++ [false, false, false]).drop (1442 - min 1442 1440)).count true
      = 1437 := by
  have h1 : (1442 - min 1442 1440 : Nat) = 2 := by decide
  have h2 : List.replicate 1439 true = List.replicate 2 true ++ List.replicate 1437 true := by
    rw [← List.replicate_add]
  rw [h1, h2, List.append_assoc, List.drop_append_of_le_length (by simp),
    List.drop_of_length_le (by simp), List.nil_append, List.count_append, List.count_replicate_self]
  rfl


/-! ## Lemmas on `RemoveDuplicates` -/

namespace StdSet

variable {K : Type}

theorem insert_fold_keys {V : Type} [LinearOrder K] (l : List (K × V)) (acc : StdSet K)
    (h : acc.Sorted (· < ·)) :
    (l.foldl (fun temp entry => insert temp entry.1) acc).Sorted (· < ·) ∧
    ∀ x, x ∈ l.foldl (fun temp entry => insert temp entry.1) acc ↔
      x ∈ acc ∨ x ∈ StdMap.keys l := by
  induction l generalizing acc with
  | nil => exact ⟨h, fun x => by simp [StdMap.keys]⟩
  | cons e rest ih =>
    obtain ⟨h1, h2⟩ := ih (insert acc e.1) (sorted_insert h e.1)
    refine ⟨h1, fun x => ?_⟩
    rw [List.foldl_cons, h2 x, mem_insert]
    simp only [StdMap.keys, List.map_cons, List.mem_cons]
    tauto

end StdSet

namespace SearchServer

variable {R : Type}

/-- The set `temp` that `RemoveDuplicates` builds for a document is the key list of its
word frequencies. -/
theorem Inv.temp_eq {s : SearchServer R} (hs : s.Inv) (document_id : Int) :
    (s.GetWordFrequencies document_id).foldl (fun temp entry => StdSet.insert temp entry.1) []
      = StdMap.keys (s.GetWordFrequencies document_id) := by
  obtain ⟨h1, h2⟩ := StdSet.insert_fold_keys (s.GetWordFrequencies document_id) []
    List.sorted_nil
  apply sorted_ext h1 (GetWordFrequencies_sorted hs document_id)
  intro x
  rw [h2 x]
  simp

theorem RemoveDuplicatesStep_eq {s : SearchServer R} (hs : s.Inv)
    (acc : StdSet Int × StdMap (StdSet Str) (StdSet Int)) (document_id : Int) :
    s.RemoveDuplicatesStep acc document_id =
      if StdMap.keys (s.GetWordFrequencies document_id) ∈ StdMap.keys acc.2 then
        (StdSet.insert acc.1 document_id, acc.2)
      else (acc.1, StdMap.update acc.2 (StdMap.keys (s.GetWordFrequencies document_id)) []
        (fun ids => StdSet.insert ids document_id)) := by
  unfold RemoveDuplicatesStep
  simp only [hs.temp_eq, StdMap.count_pos_iff]

theorem RemoveDuplicates_fold {s : SearchServer R} (hs : s.Inv) (l : List Int)
    (hl : l.Sorted (· < ·)) (acc : StdSet Int × StdMap (StdSet Str) (StdSet Int)) :
    ∀ x, x ∈ (l.foldl (s.RemoveDuplicatesStep) acc).1 ↔
      x ∈ acc.1 ∨ (x ∈ l ∧ (StdMap.keys (s.GetWordFrequencies x) ∈ StdMap.keys acc.2 ∨
        ∃ y ∈ l, y < x ∧
          StdMap.keys (s.GetWordFrequencies y) = StdMap.keys (s.GetWordFrequencies x))) := by
  induction l generalizing acc with
  | nil => intro x; simp
  | cons a rest ih =>
    rw [List.sorted_cons] at hl
    intro x
    rw [List.foldl_cons, ih hl.2, RemoveDuplicatesStep_eq hs]
    by_cases hc : StdMap.keys (s.GetWordFrequencies a) ∈ StdMap.keys acc.2
    · rw [if_pos hc]
      simp only [StdSet.mem_insert, List.mem_cons]
      constructor
      · rintro ((h | h) | ⟨h1, h2 | ⟨y, hy, hyx, hyw⟩⟩)
        · exact Or.inr ⟨Or.inl h, Or.inl (by rw [h]; exact hc)⟩
        · exact Or.inl h
        · exact Or.inr ⟨Or.inr h1, Or.inl h2⟩
        · exact Or.inr ⟨Or.inr h1, Or.inr ⟨y, Or.inr hy, hyx, hyw⟩⟩
      · rintro (h | ⟨h1 | h1, h2⟩)
        · exact Or.inl (Or.inr h)
        · exact Or.inl (Or.inl h1)
        · rcases h2 with h2 | ⟨y, hy | hy, hyx, hyw⟩
          · exact Or.inr ⟨h1, Or.inl h2⟩
          · exact Or.inr ⟨h1, Or.inl (by rw [← hyw, hy]; exact hc)⟩
          · exact Or.inr ⟨h1, Or.inr ⟨y, hy, hyx, hyw⟩⟩
    · rw [if_neg hc]
      simp only [StdMap.keys_update_mem, List.mem_cons]
      constructor
      · rintro (h | ⟨h1, (h2 | h2) | ⟨y, hy, hyx, hyw⟩⟩)
        · exact Or.inl h
        · exact Or.inr ⟨Or.inr h1, Or.inr ⟨a, Or.inl rfl, hl.1 x h1, h2.symm⟩⟩
        · exact Or.inr ⟨Or.inr h1, Or.inl h2⟩
        · exact Or.inr ⟨Or.inr h1, Or.inr ⟨y, Or.inr hy, hyx, hyw⟩⟩
      · rintro (h | ⟨h1 | h1, h2⟩)
        · exact Or.inl h
        · exfalso
          rcases h2 with h2 | ⟨y, hy | hy, hyx, hyw⟩
          · exact hc (by rw [← h1]; exact h2)
          · rw [h1, hy] at hyx; exact lt_irrefl _ hyx
          · rw [h1] at hyx; exact lt_asymm hyx (hl.1 y hy)
        · rcases h2 with h2 | ⟨y, hy | hy, hyx, hyw⟩
          · exact Or.inr ⟨h1, Or.inl (Or.inr h2)⟩
          · exact Or.inr ⟨h1, Or.inl (Or.inl (by rw [← hyw, hy]))⟩
          · exact Or.inr ⟨h1, Or.inr ⟨y, hy, hyx, hyw⟩⟩

end SearchServer

namespace SearchServer

variable {R : Type}

theorem RemoveDocument_ids (s : SearchServer R) (document_id x : Int) :
    x ∈ (s.RemoveDocument document_id).ids ↔ x ∈ s.ids ∧ x ≠ document_id := by
  by_cases hid : document_id ∈ s.document_ids_
  · rw [RemoveDocument_of_stored s document_id hid]
    simp only [ids, StdSet.mem_erase]
    tauto
  · rw [RemoveDocument_of_not_stored s document_id hid]
    constructor
    · intro hx
      exact ⟨hx, fun h => hid (by rw [← h]; exact hx)⟩
    · exact fun h => h.1

theorem RemoveDocument_other (s : SearchServer R) (document_id x : Int)
    (hx : x ≠ document_id) :
    (s.RemoveDocument document_id).GetWordFrequencies x = s.GetWordFrequencies x ∧
    StdMap.find? (s.RemoveDocument document_id).documents_ x = StdMap.find? s.documents_ x := by
  by_cases hid : document_id ∈ s.document_ids_
  · rw [RemoveDocument_of_stored s document_id hid]
    constructor
    · rw [GetWordFrequencies_eq, GetWordFrequencies_eq]
      simp only [StdMap.find?_erase, if_neg hx]
    · simp only [StdMap.find?_erase, if_neg hx]
  · rw [RemoveDocument_of_not_stored s document_id hid]
    exact ⟨rfl, rfl⟩

theorem RemoveDocument_fold [DivisionRing R] (l : List Int) (s : SearchServer R)
    (hs : s.Reachable) :
    (l.foldl RemoveDocument s).Reachable ∧
    (∀ x, x ∈ (l.foldl RemoveDocument s).ids ↔ x ∈ s.ids ∧ x ∉ l) ∧
    (∀ x, x ∉ l →
      (l.foldl RemoveDocument s).GetWordFrequencies x = s.GetWordFrequencies x ∧
      StdMap.find? (l.foldl RemoveDocument s).documents_ x = StdMap.find? s.documents_ x) := by
  induction l generalizing s with
  | nil => exact ⟨hs, fun x => by simp, fun x _ => ⟨rfl, rfl⟩⟩
  | cons a rest ih =>
    obtain ⟨h1, h2, h3⟩ := ih (s.RemoveDocument a) (Reachable.remove s a hs)
    refine ⟨h1, fun x => ?_, fun x hx => ?_⟩
    · rw [List.foldl_cons, h2 x, RemoveDocument_ids]
      simp only [List.mem_cons, not_or]
      tauto
    · simp only [List.mem_cons, not_or] at hx
      obtain ⟨e1, e2⟩ := h3 x hx.2
      obtain ⟨e3, e4⟩ := RemoveDocument_other s a x hx.1
      rw [List.foldl_cons]
      exact ⟨e1.trans e3, e2.trans e4⟩

theorem duplicatesServer_reachable (R : Type) [DivisionRing R] :
    (duplicatesServer R).Reachable :=
  Reachable.add _ _ _ _ _ (Reachable.add _ _ _ _ _ (Reachable.add _ _ _ _ _
    (Reachable.add _ _ _ _ _ (Reachable.add _ _ _ _ _ (Reachable.add _ _ _ _ _
      (Reachable.add _ _ _ _ _ (Reachable.add _ _ _ _ _ (Reachable.add _ _ _ _ _
        (demoEmpty_reachable R)))))))))

set_option maxRecDepth 100000 in
theorem duplicatesServer_removed :
    (duplicatesServer ℝ).RemoveDuplicates.1 = [3, 4, 5, 7] ∧
    (duplicatesServer ℝ).RemoveDuplicates.2.ids = [1, 2, 6, 8, 9] :=
  ⟨by decide, by decide⟩

end SearchServer


/-! ## Lemmas on removal after ingestion -/

namespace StdMap

variable {K V : Type}

end StdMap

namespace StdSet

variable {K : Type}

end StdSet

/-- Two lists of records with strictly ascending ids and the same members are equal. -/
theorem documents_ext {R : Type} {l₁ l₂ : List (Document R)}
    (h₁ : (l₁.map Document.id).Sorted (· < ·)) (h₂ : (l₂.map Document.id).Sorted (· < ·))
    (h : ∀ d, d ∈ l₁ ↔ d ∈ l₂) : l₁ = l₂ := by
  haveI : IsAntisymm (Document R) (fun p q => p.id < q.id) :=
    ⟨fun a b hab hba => absurd hab (lt_asymm hba)⟩
  have hp₁ : l₁.Pairwise (fun p q => p.id < q.id) := by
    simpa [List.Sorted, List.pairwise_map] using h₁
  have hp₂ : l₂.Pairwise (fun p q => p.id < q.id) := by
    simpa [List.Sorted, List.pairwise_map] using h₂
  have hn₁ : l₁.Nodup := hp₁.imp (fun hab heq => by rw [heq] at hab; exact lt_irrefl _ hab)
  have hn₂ : l₂.Nodup := hp₂.imp (fun hab heq => by rw [heq] at hab; exact lt_irrefl _ hab)
  apply List.eq_of_perm_of_sorted _ hp₁ hp₂
  rw [List.perm_ext_iff_of_nodup hn₁ hn₂]
  exact h

namespace SearchServer

variable {R : Type}

end SearchServer

namespace SearchServer

variable {R : Type}

end SearchServer


/-! ## Lemmas on the lifetime of the keys -/

namespace TrackedServer

variable {R : Type}

theorem keysLive_emplace_fold (words : List Str) (document_id : Int)
    (owner : StdMap Str (Option Int)) (h : owner.all (fun entry => entry.2.isSome) = true) :
    (words.foldl (fun owner word => StdMap.emplace owner word (some document_id)) owner).all
      (fun entry => entry.2.isSome) = true := by
  induction words generalizing owner with
  | nil => exact h
  | cons w ws ih =>
    rw [List.foldl_cons]
    apply ih
    clear ih
    induction owner with
    | nil => simp [StdMap.emplace, StdMap.update]
    | cons p rest ihr =>
      obtain ⟨k, v⟩ := p
      simp only [List.all_cons, Bool.and_eq_true] at h
      simp only [StdMap.emplace] at ihr ⊢
      unfold StdMap.update
      split_ifs
      · simp [h.1, h.2]
      · simp [h.1, h.2]
      · simp only [List.all_cons, Bool.and_eq_true]
        exact ⟨h.1, ihr h.2⟩

/-- On a state without dangling keys `AddDocument` does what it does on the containers, and
leaves no dangling key. -/
theorem AddDocument_of_live [DivisionRing R] (t : TrackedServer R) (hlive : t.keysLive = true)
    (document_id : Int) (document : Str) (status : DocumentStatus) (ratings : List Int) :
    (t.AddDocument document_id document status ratings).1 =
      (t.server.AddDocument document_id document status ratings).1 ∧
    (t.AddDocument document_id document status ratings).2.server =
      (t.server.AddDocument document_id document status ratings).2 ∧
    (t.AddDocument document_id document status ratings).2.keysLive = true := by
  have hsplit := SearchServer.SplitIntoWordsNoStop_eq t.server document
  by_cases hc : document_id < 0 ∨ document_id ∈ StdMap.keys t.server.documents_ ∨
        ∃ word ∈ SplitIntoWords document, ∃ c ∈ word, c.toNat < 0x20
  · have hbad := SearchServer.AddDocument_of_bad t.server document_id document status ratings hc
    simp only [AddDocument, hbad]
    exact ⟨trivial, trivial, hlive⟩
  · have hgood := SearchServer.AddDocument_of_good t.server document_id document status ratings
      hc _ rfl _ rfl
    have hv : (SplitIntoWords document).all SearchServer.IsValidWord = true := by
      rw [SearchServer.all_IsValidWord_iff]
      exact fun h => hc (Or.inr (Or.inr h))
    rw [if_pos hv] at hsplit
    simp only [AddDocument, hgood, hsplit, lookupsDefined, hlive, Bool.or_true, if_true]
    exact ⟨trivial, trivial, keysLive_emplace_fold _ _ _ hlive⟩

theorem AddDocument_server [DivisionRing R] (t : TrackedServer R)
    (document_id : Int) (document : Str) (status : DocumentStatus) (ratings : List Int) :
    (t.AddDocument document_id document status ratings).2.server = t.server ∨
    (t.AddDocument document_id document status ratings).2.server =
      (t.server.AddDocument document_id document status ratings).2 := by
  have hsplit := SearchServer.SplitIntoWordsNoStop_eq t.server document
  by_cases hc : document_id < 0 ∨ document_id ∈ StdMap.keys t.server.documents_ ∨
        ∃ word ∈ SplitIntoWords document, ∃ c ∈ word, c.toNat < 0x20
  · have hbad := SearchServer.AddDocument_of_bad t.server document_id document status ratings hc
    simp only [AddDocument, hbad]
    exact Or.inl trivial
  · have hgood := SearchServer.AddDocument_of_good t.server document_id document status ratings
      hc _ rfl _ rfl
    have hv : (SplitIntoWords document).all SearchServer.IsValidWord = true := by
      rw [SearchServer.all_IsValidWord_iff]
      exact fun h => hc (Or.inr (Or.inr h))
    rw [if_pos hv] at hsplit
    simp only [AddDocument, hgood, hsplit]
    split_ifs
    · exact Or.inr rfl
    · exact Or.inl rfl

/-- The containers of a reachable state with lifetimes form a reachable state. -/
theorem Reachable.server [DivisionRing R] {t : TrackedServer R} (h : t.Reachable) :
    t.server.Reachable := by
  induction h with
  | create stop_words t hc =>
    simp only [TrackedServer.create] at hc
    cases hs : (SearchServer.create stop_words : Except Error (SearchServer R)) with
    | error e => rw [hs] at hc; cases hc
    | ok s =>
      rw [hs] at hc
      cases hc
      exact SearchServer.Reachable.create stop_words s hs
  | add t document_id document status ratings _ ih =>
    rcases AddDocument_server t document_id document status ratings with h | h
    · rw [h]; exact ih
    · rw [h]; exact SearchServer.Reachable.add _ _ _ _ _ ih
  | remove t document_id _ ih => exact SearchServer.Reachable.remove _ _ ih

end TrackedServer


namespace TrackedServer

end TrackedServer

namespace TrackedServer

variable {R : Type}

theorem FindAllDocuments_of_live [DivisionRing R] (ln : R → R) (t : TrackedServer R)
    (hlive : t.keysLive = true) (policy : ExecutionPolicy) (query : Query)
    (document_predicate : DocumentPredicate) :
    t.FindAllDocuments ln policy query document_predicate =
      t.server.FindAllDocuments ln policy query document_predicate := by
  simp [FindAllDocuments, lookupsDefined, hlive]

theorem MatchDocument_of_live (t : TrackedServer R) (hlive : t.keysLive = true)
    (policy : ExecutionPolicy) (raw_query : Str) (document_id : Int) :
    t.MatchDocument policy raw_query document_id =
      t.server.MatchDocument policy raw_query document_id := by
  unfold MatchDocument
  cases hq : t.server.ParseQuery raw_query with
  | error e =>
    rw [SearchServer.MatchDocument_of_parse_error _ policy raw_query document_id e hq]
    rfl
  | ok query =>
    rw [except_ok_bind]
    simp [lookupsDefined, hlive]

end TrackedServer

/-! ## Lemmas on the contract of `std::sort` -/

theorem strictWeakOn_of_separated {R : Type} [LinearOrderedField R] (a b c : Document R)
    (hab : a.relevance = b.relevance ∨ 1 / 1000000 ≤ |a.relevance - b.relevance|)
    (hbc : b.relevance = c.relevance ∨ 1 / 1000000 ≤ |b.relevance - c.relevance|)
    (hac : a.relevance = c.relevance ∨ 1 / 1000000 ≤ |a.relevance - c.relevance|) :
    strictWeakOn documentLess a b c := by
  have hba : b.relevance = a.relevance ∨ 1 / 1000000 ≤ |b.relevance - a.relevance| := by
    rw [abs_sub_comm]; exact hab.imp Eq.symm id
  have hcb : c.relevance = b.relevance ∨ 1 / 1000000 ≤ |c.relevance - b.relevance| := by
    rw [abs_sub_comm]; exact hbc.imp Eq.symm id
  have hca : c.relevance = a.relevance ∨ 1 / 1000000 ≤ |c.relevance - a.relevance| := by
    rw [abs_sub_comm]; exact hac.imp Eq.symm id
  refine ⟨documentLess_irrefl a, documentLess_asymm a b, ?_, ?_⟩
  · rw [documentLess_of_separated a b hab, documentLess_of_separated b c hbc,
      documentLess_of_separated a c hac]
    rintro (h1 | ⟨h1, h2⟩) (h3 | ⟨h3, h4⟩)
    · exact Or.inl (lt_trans h3 h1)
    · exact Or.inl (by rw [← h3]; exact h1)
    · exact Or.inl (by rw [h1]; exact h3)
    · exact Or.inr ⟨h1.trans h3, lt_trans h4 h2⟩
  · rw [documentLess_false_of_separated a b hab, documentLess_false_of_separated b a hba,
      documentLess_false_of_separated b c hbc, documentLess_false_of_separated c b hcb,
      documentLess_false_of_separated a c hac, documentLess_false_of_separated c a hca]
    intro h1 h2 h3 h4
    have e1 : a.relevance = b.relevance ∧ a.rating = b.rating := by
      rcases h1 with h1 | ⟨h1, r1⟩ <;> rcases h2 with h2 | ⟨h2, r2⟩
      · exact absurd h1 (lt_asymm h2)
      · rw [h2] at h1; exact absurd h1 (lt_irrefl _)
      · rw [h1] at h2; exact absurd h2 (lt_irrefl _)
      · exact ⟨h1, le_antisymm r1 r2⟩
    have e2 : b.relevance = c.relevance ∧ b.rating = c.rating := by
      rcases h3 with h3 | ⟨h3, r3⟩ <;> rcases h4 with h4 | ⟨h4, r4⟩
      · exact absurd h3 (lt_asymm h4)
      · rw [h4] at h3; exact absurd h3 (lt_irrefl _)
      · rw [h3] at h4; exact absurd h4 (lt_irrefl _)
      · exact ⟨h3, le_antisymm r3 r4⟩
    exact ⟨Or.inr ⟨e1.1.trans e2.1, le_of_eq (e1.2.trans e2.2)⟩,
      Or.inr ⟨(e1.1.trans e2.1).symm, le_of_eq (e1.2.trans e2.2).symm⟩⟩

theorem strictWeakOrderOn_of_separated {R : Type} [LinearOrderedField R]
    (range : List (Document R))
    (h : ∀ a ∈ range, ∀ b ∈ range,
      a.relevance = b.relevance ∨ 1 / 1000000 ≤ |a.relevance - b.relevance|) :
    strictWeakOrderOn documentLess range :=
  fun a ha b hb c hc => strictWeakOn_of_separated a b c (h a ha b hb) (h b hb c hc) (h a ha c hc)

theorem strictWeakOrderOn.neg_trans {α : Type} {comp : α → α → Bool} {range : List α}
    (h : strictWeakOrderOn comp range) {x y z : α} (hx : x ∈ range) (hy : y ∈ range)
    (hz : z ∈ range) (hxy : comp x y = false) (hyz : comp y z = false) : comp x z = false := by
  cases hxz : comp x z with
  | false => rfl
  | true =>
    exfalso
    cases hyx : comp y x with
    | true =>
      have := (h y hy x hx z hz).2.2.1 hyx hxz
      rw [hyz] at this
      cases this
    | false =>
      cases hzy : comp z y with
      | true =>
        have := (h x hx z hz y hy).2.2.1 hxz hzy
        rw [hxy] at this
        cases this
      | false =>
        have := ((h x hx y hy z hz).2.2.2 hxy hyx hyz hzy).1
        rw [hxz] at this
        cases this

theorem strictWeakOrderOn.of_subset {α : Type} {comp : α → α → Bool} {range range2 : List α}
    (h : strictWeakOrderOn comp range) (hsub : ∀ a ∈ range2, a ∈ range) :
    strictWeakOrderOn comp range2 :=
  fun a ha b hb c hc => h a (hsub a ha) b (hsub b hb) c (hsub c hc)

theorem sortedInsert_pairwise {α : Type} (comp : α → α → Bool) (a : α) (l : List α)
    (hswo : strictWeakOrderOn comp (a :: l))
    (h : l.Pairwise (fun x y => comp y x = false)) :
    (sortedInsert comp a l).Pairwise (fun x y => comp y x = false) := by
  induction l with
  | nil => simp [sortedInsert]
  | cons b l ih =>
    rw [List.pairwise_cons] at h
    simp only [sortedInsert]
    split_ifs with hba
    · rw [List.pairwise_cons]
      refine ⟨?_, ih (hswo.of_subset ?_) h.2⟩
      · intro y hy
        rcases List.mem_cons.1 ((sortedInsert_perm comp a l).mem_iff.1 hy) with rfl | hy
        · exact (hswo b (by simp) y (by simp) y (by simp)).2.1 hba
        · exact h.1 y hy
      · intro x hx
        rcases List.mem_cons.1 hx with rfl | hx
        · simp
        · simp [hx]
    · rw [List.pairwise_cons]
      refine ⟨?_, List.pairwise_cons.2 h⟩
      intro y hy
      have hba2 : comp b a = false := by simpa using hba
      rcases List.mem_cons.1 hy with rfl | hy
      · exact hba2
      · exact hswo.neg_trans (by simp [hy]) (by simp) (by simp) (h.1 y hy) hba2

/-- For a comparator that is a strict weak ordering on the range, the insertion sort leaves a
rearrangement that the contract of `std::sort` allows. -/
theorem std_sort_post {α : Type} (comp : α → α → Bool) (l : List α)
    (hswo : strictWeakOrderOn comp l) : StdSortPost comp l (std_sort comp l) := by
  refine ⟨std_sort_perm comp l, ?_⟩
  induction l with
  | nil => simp [std_sort]
  | cons a l ih =>
    simp only [std_sort]
    apply sortedInsert_pairwise
    · apply hswo.of_subset
      intro x hx
      rcases List.mem_cons.1 hx with rfl | hx
      · simp
      · exact List.mem_cons_of_mem _ ((std_sort_perm comp l).mem_iff.1 hx)
    · exact ih (hswo.of_subset (fun x hx => List.mem_cons_of_mem _ hx))

theorem StdSortPost.length_eq {α : Type} {comp : α → α → Bool} {before after : List α}
    (h : StdSortPost comp before after) : after.length = before.length := h.1.length_eq

/-- In a rearrangement that the contract allows, no element behind the first `n` is put
before one of the first `n` by the comparator. -/
theorem StdSortPost.drop_not_before_take {α : Type} {comp : α → α → Bool}
    {before after : List α} (h : StdSortPost comp before after) (n : Nat) :
    ∀ kept ∈ after.take n, ∀ dropped ∈ after.drop n, comp dropped kept = false := by
  have hp := h.2
  rw [← List.take_append_drop n after, List.pairwise_append] at hp
  exact hp.2.2

theorem SearchServer.afterAdd_eq {R : Type} [DivisionRing R] (s : SearchServer R)
    (document_id : Int) (document : String) (status : DocumentStatus) (ratings : List Int) :
    s.afterAdd document_id document status ratings =
      s.added document_id document.toList status ratings := rfl

namespace TrackedServer

variable {R : Type}

theorem added_live [DivisionRing R] {t : TrackedServer R} {s : SearchServer R}
    (h : t.Reachable ∧ t.keysLive = true ∧ t.server = s)
    (document_id : Int) (document : Str) (status : DocumentStatus) (ratings : List Int) :
    (t.added document_id document status ratings).Reachable ∧
    (t.added document_id document status ratings).keysLive = true ∧
    (t.added document_id document status ratings).server =
      s.added document_id document status ratings := by
  obtain ⟨ht, hlive, hs⟩ := h
  have h2 := AddDocument_of_live t hlive document_id document status ratings
  exact ⟨Reachable.add t document_id document status ratings ht, h2.2.2, by
    rw [← hs]; exact h2.2.1⟩

theorem tracked_afterAdd_eq [DivisionRing R] (t : TrackedServer R) (document_id : Int)
    (document : String) (status : DocumentStatus) (ratings : List Int) :
    t.afterAdd document_id document status ratings =
      t.added document_id document.toList status ratings := rfl

theorem noStopWords_live (R : Type) [DivisionRing R] :
    (⟨noStopWords R, []⟩ : TrackedServer R).Reachable ∧
    (⟨noStopWords R, []⟩ : TrackedServer R).keysLive = true ∧
    (⟨noStopWords R, []⟩ : TrackedServer R).server = noStopWords R :=
  ⟨Reachable.create [] _ rfl, rfl, rfl⟩

theorem trackedChainServer_live (R : Type) [DivisionRing R] :
    (trackedChainServer R).Reachable ∧ (trackedChainServer R).keysLive = true ∧
    (trackedChainServer R).server = chainServer R :=
  added_live (added_live (added_live (added_live (added_live (added_live (added_live
    (noStopWords_live R) 1 (chainText 1) .ACTUAL [3]) 2 (chainText 2) .ACTUAL [2])
    3 (chainText 3) .ACTUAL [1]) 4 (chainText 4) .ACTUAL [0]) 5 (chainText 5) .ACTUAL [0])
    6 (chainText 6) .ACTUAL [0]) 7 (chainText 0) .ACTUAL [0]

theorem demoEmpty_live (R : Type) [DivisionRing R] :
    (⟨demoEmpty R, []⟩ : TrackedServer R).Reachable ∧
    (⟨demoEmpty R, []⟩ : TrackedServer R).keysLive = true ∧
    (⟨demoEmpty R, []⟩ : TrackedServer R).server = demoEmpty R :=
  ⟨Reachable.create ["and".toList, "with".toList] _ rfl, rfl, rfl⟩

theorem trackedTieServer_live (R : Type) [DivisionRing R] :
    (trackedTieServer R).Reachable ∧ (trackedTieServer R).keysLive = true ∧
    (trackedTieServer R).server = tieServer R := by
  unfold trackedTieServer tieServer
  simp only [tracked_afterAdd_eq, SearchServer.afterAdd_eq]
  exact added_live (added_live (demoEmpty_live R) 1 "cat".toList .ACTUAL [1]) 2 "cat".toList
    .ACTUAL [5]

theorem trackedDemo_live (R : Type) [DivisionRing R] :
    (trackedDemo R).Reachable ∧ (trackedDemo R).keysLive = true ∧
    (trackedDemo R).server = demoServer R :=
  by
  unfold trackedDemo demoServer
  simp only [tracked_afterAdd_eq, SearchServer.afterAdd_eq]
  exact added_live (added_live (added_live (added_live (demoEmpty_live R)
    1 "white cat and yellow hat".toList .ACTUAL [1, 2])
    2 "curly cat curly tail".toList .ACTUAL [1, 2])
    3 "nasty dog with big eyes".toList .ACTUAL [1, 2])
    4 "nasty pigeon john".toList .ACTUAL [1, 2]

theorem danglingServer_reachable (R : Type) [DivisionRing R] :
    (danglingServer R).Reachable := by
  unfold danglingServer
  simp only [tracked_afterAdd_eq]
  exact Reachable.remove _ 1 (added_live (added_live (noStopWords_live R) 1 "big".toList .ACTUAL [1])
    3 "big dog".toList .ACTUAL [2]).1

theorem trackedDemoAfterZebra_reachable (R : Type) [DivisionRing R] :
    (trackedDemoAfterZebra R).Reachable := by
  unfold trackedDemoAfterZebra
  exact Reachable.remove _ 5 (Reachable.add _ 5 "zebra".toList .ACTUAL [1] (trackedDemo_live R).1)

end TrackedServer


namespace SearchServer

/-- The list that the search for `a` collects on a server described like `chainServer`: the
records of the documents 1 to 6 that satisfy the predicate, in the order of the ids. -/
theorem chain_matched {s : SearchServer ℝ} {info : Int → Option (Int × DocumentStatus)}
    {tf : Int → Str → Option ℝ}
    (hD : s.Describes [1, 2, 3, 4, 5, 6, 7] info tf)
    (hinfo : ∀ x, info x = if x = 1 ∨ x = 2 ∨ x = 3 ∨ x = 4 ∨ x = 5 ∨ x = 6 ∨ x = 7 then
        some (chainRating x, DocumentStatus.ACTUAL) else none)
    (htf : ∀ x, tf x ['a'] = if x = 1 ∨ x = 2 ∨ x = 3 ∨ x = 4 ∨ x = 5 ∨ x = 6 then
        some ((x : ℝ) / 200000) else none)
    (document_predicate : DocumentPredicate) :
    s.FindAllDocuments Real.log .seq ⟨[['a']], []⟩ document_predicate =
      .ok (([1, 2, 3, 4, 5, 6].filter
        (fun i => document_predicate i .ACTUAL (chainRating i))).map
          (chainDocument Real.log)) := by
  obtain ⟨all, hall, hsorted, hmem⟩ := FindAllDocumentsSeq_spec Real.log s
    hD.inv ⟨[['a']], []⟩ document_predicate
  have hall2 : s.FindAllDocuments Real.log .seq ⟨[['a']], []⟩ document_predicate = .ok all :=
    hall
  rw [hall2]
  congr 1
  apply documents_ext hsorted
  · rw [List.map_map]
    have hid : (Document.id ∘ chainDocument Real.log) = id := by
      funext i; rfl
    rw [hid, List.map_id]
    exact List.Pairwise.sublist (List.filter_sublist _)
      (by decide : ([1, 2, 3, 4, 5, 6] : List Int).Pairwise (· < ·))
  intro d
  rw [hmem, List.mem_map]
  constructor
  · rintro ⟨data, hfind, ⟨w, hw, hcw⟩, _, hpred, hrat, hrel⟩
    simp only [List.mem_singleton] at hw
    subst hw
    have hx : d.id = 1 ∨ d.id = 2 ∨ d.id = 3 ∨ d.id = 4 ∨ d.id = 5 ∨ d.id = 6 := by
      rw [hD.containsWord_iff, htf] at hcw
      by_contra hc
      rw [if_neg hc] at hcw
      cases hcw
    have hi := hD.info_eq d.id
    rw [hfind, hinfo] at hi
    have hx7 : d.id = 1 ∨ d.id = 2 ∨ d.id = 3 ∨ d.id = 4 ∨ d.id = 5 ∨ d.id = 6 ∨ d.id = 7 := by
      tauto
    rw [if_pos hx7] at hi
    simp only [Option.map_some', Option.some.injEq, Prod.mk.injEq] at hi
    refine ⟨d.id, ?_, ?_⟩
    · rw [List.mem_filter]
      refine ⟨by simpa using hx, ?_⟩
      rw [← hi.1, ← hi.2]
      exact hpred
    · simp only [] at hrel
      rw [chain_relevance hD htf d.id hx] at hrel
      cases d
      simp only [chainDocument] at hrat hrel ⊢
      rw [hrat, hrel, hi.1]
  · rintro ⟨i, hi, rfl⟩
    rw [List.mem_filter] at hi
    obtain ⟨hi, hpred⟩ := hi
    have hid : (chainDocument Real.log i).id = i := rfl
    simp only [hid]
    have hx : i = 1 ∨ i = 2 ∨ i = 3 ∨ i = 4 ∨ i = 5 ∨ i = 6 := by simpa using hi
    have hx7 : i = 1 ∨ i = 2 ∨ i = 3 ∨ i = 4 ∨ i = 5 ∨ i = 6 ∨ i = 7 := by tauto
    have hinf := hD.info_eq i
    rw [hinfo, if_pos hx7] at hinf
    cases hfind : StdMap.find? s.documents_ i with
    | none => rw [hfind] at hinf; cases hinf
    | some data =>
      rw [hfind] at hinf
      simp only [Option.map_some', Option.some.injEq, Prod.mk.injEq] at hinf
      refine ⟨data, rfl, ⟨['a'], List.mem_singleton_self _, ?_⟩, by simp, ?_, ?_, ?_⟩
      · rw [hD.containsWord_iff, htf, if_pos hx]; rfl
      · rw [hinf.1, hinf.2]; exact hpred
      · simp only [chainDocument]; exact hinf.1.symm
      · simp only [chainDocument]
        rw [chain_relevance hD htf i hx]

end SearchServer

namespace TrackedServer

/-- The documents that the search for `a` collects on `trackedChainServer`. -/
theorem trackedChainServer_matched (policy_predicate : DocumentPredicate) :
    (trackedChainServer ℝ).server.ParseQuery ['a'] = .ok ⟨[['a']], []⟩ ∧
    (trackedChainServer ℝ).FindAllDocuments Real.log .seq ⟨[['a']], []⟩ policy_predicate =
      .ok (([1, 2, 3, 4, 5, 6].filter
        (fun i => policy_predicate i .ACTUAL (chainRating i))).map
          (chainDocument Real.log)) := by
  obtain ⟨_, hlive, hs⟩ := trackedChainServer_live ℝ
  obtain ⟨info, tf, hD, hinfo, htf⟩ := SearchServer.chainServer_describes ℝ
  rw [FindAllDocuments_of_live _ _ hlive, hs]
  exact ⟨hD.parse_a, SearchServer.chain_matched hD hinfo htf policy_predicate⟩

variable {R : Type}

theorem take_of_resize {α : Type} (sorted : List α) (n : Nat) :
    (if sorted.length > n then sorted.take n else sorted) = sorted.take n := by
  split_ifs with h
  · rfl
  · rw [List.take_of_length_le (not_lt.1 h)]

theorem FindTopDocumentsReturns.intro [LinearOrderedField R] {MAX_RESULT_DOCUMENT_COUNT : Nat}
    {ln : R → R} {t : TrackedServer R} {policy : ExecutionPolicy} {raw_query : Str}
    {document_predicate : DocumentPredicate} {query : Query}
    {matched_documents sorted : List (Document R)}
    (hq : t.server.ParseQuery raw_query = .ok query)
    (hall : t.FindAllDocuments ln policy query document_predicate = .ok matched_documents)
    (hswo : strictWeakOrderOn documentLess matched_documents)
    (hpost : StdSortPost documentLess matched_documents sorted) :
    t.FindTopDocumentsReturns MAX_RESULT_DOCUMENT_COUNT ln policy raw_query document_predicate
      (sorted.take MAX_RESULT_DOCUMENT_COUNT) :=
  ⟨query, matched_documents, sorted, hq, hall, hswo, hpost, (take_of_resize _ _).symm⟩

theorem FindTopDocumentsReturns.elim [LinearOrderedField R] {MAX_RESULT_DOCUMENT_COUNT : Nat}
    {ln : R → R} {t : TrackedServer R} {policy : ExecutionPolicy} {raw_query : Str}
    {document_predicate : DocumentPredicate} {query : Query}
    {matched_documents docs : List (Document R)}
    (h : t.FindTopDocumentsReturns MAX_RESULT_DOCUMENT_COUNT ln policy raw_query
      document_predicate docs)
    (hq : t.server.ParseQuery raw_query = .ok query)
    (hall : t.FindAllDocuments ln policy query document_predicate = .ok matched_documents) :
    strictWeakOrderOn documentLess matched_documents ∧
    ∃ sorted, StdSortPost documentLess matched_documents sorted ∧
      docs = sorted.take MAX_RESULT_DOCUMENT_COUNT := by
  obtain ⟨query2, matched2, sorted, hq2, hall2, hswo, hpost, hdocs⟩ := h
  rw [hq] at hq2
  cases hq2
  rw [hall] at hall2
  cases hall2
  exact ⟨hswo, sorted, hpost, by rw [hdocs, take_of_resize]⟩

end TrackedServer

namespace SearchServer

variable {R : Type}

/-- In a reachable state a key of `GetWordFrequencies(id)` that is not empty and does not
start with `-` is matched, on the containers, by the query made of the word alone. -/
theorem MatchDocument_of_indexed_word [Field R] (s : SearchServer R) (hs : s.Reachable)
    (document_id : Int) (w : Str) (hw : w ∈ StdMap.keys (s.GetWordFrequencies document_id))
    (hne : w ≠ []) (hdash : w.head? ≠ some '-') (policy : ExecutionPolicy) :
    ∃ data, StdMap.find? s.documents_ document_id = some data ∧
      s.MatchDocument policy w document_id = .ok ([w], data.status) := by
  obtain ⟨hsp, hvalid, hstop⟩ := hs.indexed_word document_id w hw
  have hi := hs.inv
  have htok : SplitIntoWords w = [w] := by
    rw [SplitIntoWords_eq_runs, spaceFreeRuns_of_no_space w hsp]
  have hwf : ∀ token ∈ SplitIntoWords w, ¬ malformedToken token := by
    intro token ht
    rw [htok, List.mem_singleton] at ht
    subst ht
    rintro (h | h | ⟨r, h⟩ | ⟨c, hc, hlt⟩)
    · exact hne h
    · exact hdash (by rw [h]; rfl)
    · exact hdash (by rw [h]; rfl)
    · exact hvalid c hc hlt
  obtain ⟨query, hq, hp, hm, hsp2, _⟩ := ParseQuery_of_wellformed s w hwf
  have hstop2 : s.IsStopWord w = false := by
    rw [← Bool.not_eq_true, IsStopWord_iff]; exact hstop
  have hplus : query.plus_words = [w] := by
    apply sorted_ext hsp2 (List.sorted_singleton w)
    intro x
    rw [hp x, htok, List.mem_singleton]
    constructor
    · exact fun h => h.1
    · intro h
      rw [h]
      exact ⟨rfl, hdash, hstop2⟩
  have hminus : query.minus_words = [] := by
    rw [List.eq_nil_iff_forall_not_mem]
    intro x hx
    rw [hm x, htok, List.mem_singleton] at hx
    exact hdash (by rw [← hx.1]; rfl)
  have hkey : document_id ∈ StdMap.keys s.documents_ := by
    apply hi.fwd_keys
    rw [← StdMap.find?_isSome_iff]
    rw [GetWordFrequencies_eq] at hw
    cases hf : StdMap.find? s.document_to_word_freqs_ document_id with
    | none => rw [hf] at hw; simp [StdMap.keys] at hw
    | some f => rfl
  rw [← StdMap.find?_isSome_iff, Option.isSome_iff_exists] at hkey
  obtain ⟨data, hdata⟩ := hkey
  refine ⟨data, hdata, ?_⟩
  rw [MatchDocument_of_stored s hi policy w document_id query data hq hdata, hplus, hminus]
  have hc : containsWord s document_id w = true := by
    simpa [containsWord] using hw
  simp [hc]

end SearchServer

/-! ## Main results -/

namespace SearchServer
variable {R : Type}

/-- C9: a call of `AddDocument` that raises an error leaves the server as it was: the
metadata (hence `GetDocumentCount`), the id set, the forward index and the inverted index
are those of the state before the call. -/
theorem AddDocument_error_state [DivisionRing R] (s : SearchServer R) (document_id : Int)
    (document : Str) (status : DocumentStatus) (ratings : List Int) (e : Error)
    (h : (s.AddDocument document_id document status ratings).1 = .error e) :
    (s.AddDocument document_id document status ratings).2 = s := by
  by_cases hc : document_id < 0 ∨ document_id ∈ StdMap.keys s.documents_ ∨
        ∃ word ∈ SplitIntoWords document, ∃ c ∈ word, c.toNat < 0x20
  · rw [AddDocument_of_bad s _ _ _ _ hc]
  · rw [AddDocument_of_good s _ _ _ _ hc _ rfl _ rfl] at h
    cases h

theorem AddDocument_error_state_witness :
    ((demoServer ℝ).AddDocument 5 ("big".toList ++ [Char.ofNat 9] ++ "cat dog".toList)
      DocumentStatus.ACTUAL [1, 2]).1 = .error .invalid_argument ∧
    ((demoServer ℝ).AddDocument 5 ("big".toList ++ [Char.ofNat 9] ++ "cat dog".toList)
      DocumentStatus.ACTUAL [1, 2]).2 = demoServer ℝ :=
  ⟨rfl, AddDocument_error_state (demoServer ℝ) 5 _ DocumentStatus.ACTUAL [1, 2]
    Error.invalid_argument rfl⟩

/-- C10: after a successful `AddDocument(id, text, ...)` on a reachable server, the keys of
`GetWordFrequencies(id)` are exactly the tokens of the text that are not stop words, each
once; a key `w` is mapped to the number of occurrences of `w` among the non-stop tokens
divided by the number of non-stop tokens; and the values sum to 1 when there is at least
one non-stop token. -/
theorem AddDocument_term_frequencies [LinearOrderedField R] (s : SearchServer R)
    (hs : s.Reachable) (document_id : Int) (document : Str) (status : DocumentStatus)
    (ratings : List Int)
    (h : (s.AddDocument document_id document status ratings).1 = .ok ()) :
    (∀ w, w ∈ StdMap.keys
        ((s.AddDocument document_id document status ratings).2.GetWordFrequencies document_id) ↔
      w ∈ SplitIntoWords document ∧ w ∉ s.stop_words_) ∧
    (StdMap.keys
      ((s.AddDocument document_id document status ratings).2.GetWordFrequencies
        document_id)).Nodup ∧
    (∀ w, w ∈ SplitIntoWords document → w ∉ s.stop_words_ →
      StdMap.find?
        ((s.AddDocument document_id document status ratings).2.GetWordFrequencies document_id) w =
        some (((nonStopTokens s document).count w : R) / ((nonStopTokens s document).length : R))) ∧
    (nonStopTokens s document ≠ [] →
      (((s.AddDocument document_id document status ratings).2.GetWordFrequencies
        document_id).map Prod.snd).sum = 1) := by
  have hfind := AddDocument_find2? hs.inv document_id document status ratings h
  have hmem : ∀ w, w ∈ nonStopTokens s document ↔ w ∈ SplitIntoWords document ∧ w ∉ s.stop_words_ := by
    intro w
    simp [nonStopTokens, List.mem_filter]
  refine ⟨?_, ?_, ?_, ?_⟩
  · intro w
    rw [← StdMap.find?_isSome_iff, hfind, ← hmem]
    by_cases hw : w ∈ nonStopTokens s document <;> simp [hw]
  · exact (GetWordFrequencies_sorted (hs.inv.add _ _ _ _) _).nodup
  · intro w hw1 hw2
    rw [hfind, if_pos ((hmem w).2 ⟨hw1, hw2⟩)]
  · intro hne
    obtain ⟨⟨_, h2⟩, h3⟩ := AddDocument_ok_state s document_id document status ratings h
    have hnone : StdMap.find? s.document_to_word_freqs_ document_id = none := by
      rw [StdMap.find?_eq_none_iff]
      exact fun hk => h2 (hs.inv.fwd_keys _ hk)
    rw [GetWordFrequencies_eq, h3, AddDocumentStep_fold_sum _ _ _ _ hs.inv.index, hnone]
    have hlen : ((nonStopTokens s document).length : R) ≠ 0 := by
      rw [Nat.cast_ne_zero]
      exact fun h0 => hne (List.length_eq_zero.1 h0)
    simp [hlen]

theorem AddDocument_term_frequencies_witness :
    (demoEmpty ℝ).Reachable ∧
    ((demoEmpty ℝ).AddDocument 2 "curly cat and curly tail".toList DocumentStatus.ACTUAL
      [1, 2]).1 = .ok () ∧
    StdMap.find?
      (((demoEmpty ℝ).AddDocument 2 "curly cat and curly tail".toList DocumentStatus.ACTUAL
        [1, 2]).2.GetWordFrequencies 2) "curly".toList =
      some (((nonStopTokens (demoEmpty ℝ) "curly cat and curly tail".toList).count
          "curly".toList : ℝ) /
        ((nonStopTokens (demoEmpty ℝ) "curly cat and curly tail".toList).length : ℝ)) :=
  ⟨demoEmpty_reachable ℝ, rfl,
   (AddDocument_term_frequencies (demoEmpty ℝ) (demoEmpty_reachable ℝ) 2
      "curly cat and curly tail".toList DocumentStatus.ACTUAL [1, 2] rfl).2.2.1
      "curly".toList (by decide) (by decide)⟩

/-- C3, evaluated at the call `FindTopDocuments(execution::par, "curly nasty cat", even id)`
of `main`: the parallel call returns the four documents 1, 2, 3, 4, two of which have an odd
id, while the sequential call returns the documents 2 and 4. -/
theorem FindTopDocuments_par_ignores_predicate :
    (∃ docs, (demoServer ℝ).FindTopDocuments 5 Real.log .par "curly nasty cat".toList evenId =
        .ok docs ∧ (docs.map Document.id).Perm [1, 2, 3, 4] ∧
        ∃ d ∈ docs, evenId d.id DocumentStatus.ACTUAL d.rating = false) ∧
    (∃ docs, (demoServer ℝ).FindTopDocuments 5 Real.log .seq "curly nasty cat".toList evenId =
        .ok docs ∧ (docs.map Document.id).Perm [2, 4]) := by
  constructor
  · obtain ⟨r1, r2, r3, r4, h⟩ := demo_par_all
    refine ⟨_, FindTopDocuments_of_ok 5 Real.log (demoServer ℝ) .par "curly nasty cat".toList evenId
      ⟨["cat".toList, "curly".toList, "nasty".toList], []⟩ rfl _ h, ?_, ?_⟩
    · exact (top_perm _ 5 _ (by simp)).map Document.id
    · refine ⟨⟨1, r1, 1⟩, ?_, rfl⟩
      exact (top_perm _ 5 _ (by simp)).mem_iff.2 (by simp)
  · obtain ⟨r2, r4, h⟩ := demo_seq_all
    exact ⟨_, FindTopDocuments_of_ok 5 Real.log (demoServer ℝ) .seq "curly nasty cat".toList evenId
      ⟨["cat".toList, "curly".toList, "nasty".toList], []⟩ rfl _ h,
      (top_perm _ 5 _ (by simp)).map Document.id⟩

/-- C4, evaluated at the query `curly nasty cat` with the predicate `even id` on the server
of `main`: both calls succeed, and the id sequence of the parallel call (a permutation of
1, 2, 3, 4) differs from that of the sequential call (a permutation of 2, 4). -/
theorem FindTopDocuments_par_differs_from_seq :
    ∃ docs_seq docs_par,
      (demoServer ℝ).FindTopDocuments 5 Real.log .seq "curly nasty cat".toList evenId =
        .ok docs_seq ∧
      (demoServer ℝ).FindTopDocuments 5 Real.log .par "curly nasty cat".toList evenId =
        .ok docs_par ∧
      docs_seq.map Document.id ≠ docs_par.map Document.id := by
  obtain ⟨r1, r2, r3, r4, hpar⟩ := demo_par_all
  obtain ⟨q2, q4, hseq⟩ := demo_seq_all
  refine ⟨_, _,
    FindTopDocuments_of_ok 5 Real.log (demoServer ℝ) .seq "curly nasty cat".toList evenId
      ⟨["cat".toList, "curly".toList, "nasty".toList], []⟩ rfl _ hseq,
    FindTopDocuments_of_ok 5 Real.log (demoServer ℝ) .par "curly nasty cat".toList evenId
      ⟨["cat".toList, "curly".toList, "nasty".toList], []⟩ rfl _ hpar, ?_⟩
  intro h
  have hlen := congrArg List.length h
  rw [List.length_map, List.length_map, (top_perm _ 5 _ (by simp)).length_eq,
    (top_perm _ 5 _ (by simp)).length_eq] at hlen
  simp at hlen

/-- C5, evaluated at the well-formed query `cat elephant` on the server of `main`, where no
document contains `elephant`: `ParseQuery` succeeds and the sequential call returns a list,
but the parallel call raises `std::out_of_range`. -/
theorem FindTopDocuments_par_fails_on_unindexed_word :
    (demoServer ℝ).ParseQuery "cat elephant".toList =
      .ok ⟨["cat".toList, "elephant".toList], []⟩ ∧
    (∃ docs, (demoServer ℝ).FindTopDocuments 5 Real.log .seq "cat elephant".toList
      (fun _ _ _ => true) = .ok docs) ∧
    (demoServer ℝ).FindTopDocuments 5 Real.log .par "cat elephant".toList
      (fun _ _ _ => true) = .error .out_of_range := by
  refine ⟨rfl, ?_, ?_⟩
  · obtain ⟨all, h1, _⟩ := FindAllDocumentsSeq_spec Real.log (demoServer ℝ)
      (demoServer_reachable ℝ).inv ⟨["cat".toList, "elephant".toList], []⟩ (fun _ _ _ => true)
    exact ⟨_, FindTopDocuments_of_ok 5 Real.log (demoServer ℝ) .seq "cat elephant".toList _
      ⟨["cat".toList, "elephant".toList], []⟩ rfl all h1⟩
  · rw [FindTopDocuments_eq]
    have hq : (demoServer ℝ).ParseQuery "cat elephant".toList =
      .ok ⟨["cat".toList, "elephant".toList], []⟩ := rfl
    rw [hq]
    simp only [demo_par_elephant]

end SearchServer


/-- C18: for every text the loop of `SplitIntoWords` ends within `text.length + 1` iterations
(more fuel does not change the result), and the result is a non-empty sequence of exactly
(number of spaces) + 1 tokens, none of which contains a space, whose join with single spaces
is the text; the rest behind the last space is emitted as the last token (the empty token when
the text ends with a space), and a text without a space, the empty text included, is the only
token. -/
theorem SplitIntoWords_round_trip (text : Str) :
    (∀ fuel, text.length + 1 ≤ fuel → SplitIntoWordsLoop fuel text = SplitIntoWords text) ∧
    SplitIntoWords text ≠ [] ∧
    (SplitIntoWords text).length = text.count ' ' + 1 ∧
    (∀ token ∈ SplitIntoWords text, ' ' ∉ token) ∧
    List.intercalate [' '] (SplitIntoWords text) = text ∧
    (∀ u v, text = u ++ ' ' :: v → ' ' ∉ v → (SplitIntoWords text).getLast? = some v) ∧
    (' ' ∉ text → SplitIntoWords text = [text]) ∧
    (text = [] ∨ text.getLast? = some ' ' → (SplitIntoWords text).getLast? = some []) := by
  have hlast : ∀ u v, text = u ++ ' ' :: v → ' ' ∉ v →
      (SplitIntoWords text).getLast? = some v := by
    intro u v huv hv
    rw [SplitIntoWords_eq_runs, huv, spaceFreeRuns_append, spaceFreeRuns_of_no_space v hv]
    simp
  have hone : ' ' ∉ text → SplitIntoWords text = [text] := fun h => by
    rw [SplitIntoWords_eq_runs, spaceFreeRuns_of_no_space text h]
  refine ⟨fun fuel h => ?_, ?_, ?_, ?_, ?_, hlast, hone, ?_⟩
  · rw [SplitIntoWords_eq_runs, SplitIntoWordsLoop_eq_runs text fuel h]
  · rw [SplitIntoWords_eq_runs]; exact spaceFreeRuns_ne_nil text
  · rw [SplitIntoWords_eq_runs]; exact length_spaceFreeRuns text
  · rw [SplitIntoWords_eq_runs]; exact spaceFreeRuns_no_space text
  · rw [SplitIntoWords_eq_runs]; exact intercalate_spaceFreeRuns text
  · rintro (rfl | h)
    · rfl
    · obtain ⟨u, hu⟩ : ∃ u, text = u ++ [' '] := by
        have hne : text ≠ [] := by rintro rfl; simp at h
        refine ⟨text.dropLast, ?_⟩
        have := List.dropLast_append_getLast hne
        rw [List.getLast?_eq_getLast _ hne] at h
        rw [← Option.some.inj h]
        exact this.symm
      exact hlast u [] hu (by simp)


namespace SearchServer

variable {R : Type}

/-- C15: `ParseQuery` raises an error exactly when some token of `SplitIntoWords` is empty,
is the lone `-`, begins with `--`, or holds a character with a code below 0x20; so the empty
query and every query with a leading, a trailing or a doubled space is rejected. -/
theorem ParseQuery_error_iff_malformed (s : SearchServer R) (raw_query : Str) :
    ((∃ e, s.ParseQuery raw_query = .error e) ↔
      ∃ token ∈ SplitIntoWords raw_query,
        token = [] ∨ token = ['-'] ∨ (∃ rest, token = '-' :: '-' :: rest) ∨
          ∃ c ∈ token, c.toNat < 0x20) ∧
    (raw_query = [] ∨ (∃ t, raw_query = ' ' :: t) ∨ (∃ t, raw_query = t ++ [' ']) ∨
        (∃ t u, raw_query = t ++ ' ' :: ' ' :: u) →
      s.ParseQuery raw_query = .error .invalid_argument) := by
  constructor
  · constructor
    · rintro ⟨e, he⟩
      by_contra hno
      have hw : ∀ token ∈ SplitIntoWords raw_query, ¬ malformedToken token :=
        fun token ht hm => hno ⟨token, ht, hm⟩
      obtain ⟨q, hq, _⟩ := ParseQuery_of_wellformed s raw_query hw
      rw [hq] at he
      cases he
    · intro h
      exact ⟨_, ParseQuery_of_malformed s raw_query h⟩
  · intro h
    exact ParseQuery_of_malformed s raw_query
      ⟨[], mem_SplitIntoWords_nil raw_query h, Or.inl rfl⟩

/-- C16: when `ParseQuery(raw)` succeeds, `plus_words` holds exactly the tokens of the query
that do not start with `-` and are not stop words, `minus_words` holds exactly the words `w`
that are not stop words and occur in the query as the token `-w`; both sets are strictly
ascending, so a repeated token is one entry, and no stop word is in either set. -/
theorem ParseQuery_result (s : SearchServer R) (raw_query : Str) (query : Query)
    (h : s.ParseQuery raw_query = .ok query) :
    (∀ w, w ∈ query.plus_words ↔
      w ∈ SplitIntoWords raw_query ∧ w.head? ≠ some '-' ∧ w ∉ s.stop_words_) ∧
    (∀ w, w ∈ query.minus_words ↔ ('-' :: w) ∈ SplitIntoWords raw_query ∧ w ∉ s.stop_words_) ∧
    query.plus_words.Sorted (· < ·) ∧ query.minus_words.Sorted (· < ·) ∧
    query.plus_words.Nodup ∧ query.minus_words.Nodup ∧
    (∀ w ∈ s.stop_words_, w ∉ query.plus_words ∧ w ∉ query.minus_words) := by
  obtain ⟨_, hp, hm, hsp, hsm⟩ := ParseQuery_ok_spec s raw_query query h
  have hstop : ∀ w, s.IsStopWord w = false ↔ w ∉ s.stop_words_ := fun w => by
    rw [← IsStopWord_iff, Bool.not_eq_true]
  refine ⟨fun w => ?_, fun w => ?_, hsp, hsm, hsp.nodup, hsm.nodup, fun w hw => ⟨?_, ?_⟩⟩
  · rw [hp w, hstop]
  · rw [hm w, hstop]
  · rw [hp w, hstop]
    exact fun h => h.2.2 hw
  · rw [hm w, hstop]
    exact fun h => h.2 hw

theorem ParseQuery_result_witness :
    (demoEmpty ℝ).ParseQuery "curly and funny -not curly".toList =
      .ok ⟨["curly".toList, "funny".toList], ["not".toList]⟩ ∧
    (∀ w, w ∈ ["curly".toList, "funny".toList] ↔
      w ∈ SplitIntoWords "curly and funny -not curly".toList ∧ w.head? ≠ some '-' ∧
        w ∉ (demoEmpty ℝ).stop_words_) ∧
    (∀ w, w ∈ ["not".toList] ↔
      ('-' :: w) ∈ SplitIntoWords "curly and funny -not curly".toList ∧
        w ∉ (demoEmpty ℝ).stop_words_) :=
  ⟨rfl,
   (ParseQuery_result (demoEmpty ℝ) "curly and funny -not curly".toList
      ⟨["curly".toList, "funny".toList], ["not".toList]⟩ rfl).1,
   (ParseQuery_result (demoEmpty ℝ) "curly and funny -not curly".toList
      ⟨["curly".toList, "funny".toList], ["not".toList]⟩ rfl).2.1⟩

/-- C17, counterexample: the query `cat -cat` is parsed without an error, and the word `cat` is
a member of both `plus_words` and `minus_words`. -/
theorem ParseQuery_word_in_both_sets :
    ∃ query, (demoEmpty ℝ).ParseQuery "cat -cat".toList = .ok query ∧
      "cat".toList ∈ query.plus_words ∧ "cat".toList ∈ query.minus_words :=
  ⟨⟨["cat".toList], ["cat".toList]⟩, rfl, by simp, by simp⟩

/-- C17, amended: when `ParseQuery` succeeds, a word is a member of both `plus_words` and
`minus_words` exactly when it is not a stop word and the query has it as a token both bare
and with a `-` in front; so the two sets are disjoint when the query has no such pair of
tokens. -/
theorem ParseQuery_common_words (s : SearchServer R) (raw_query : Str) (query : Query)
    (h : s.ParseQuery raw_query = .ok query) :
    (∀ w, (w ∈ query.plus_words ∧ w ∈ query.minus_words) ↔
      (w ∈ SplitIntoWords raw_query ∧ ('-' :: w) ∈ SplitIntoWords raw_query ∧
        w ∉ s.stop_words_)) ∧
    ((∀ w ∈ SplitIntoWords raw_query, ('-' :: w) ∉ SplitIntoWords raw_query) →
      ∀ w, ¬ (w ∈ query.plus_words ∧ w ∈ query.minus_words)) := by
  obtain ⟨hwf, hp, hm, _, _⟩ := ParseQuery_ok_spec s raw_query query h
  have hstop : ∀ w, s.IsStopWord w = false ↔ w ∉ s.stop_words_ := fun w => by
    rw [← IsStopWord_iff, Bool.not_eq_true]
  have key : ∀ w, (w ∈ query.plus_words ∧ w ∈ query.minus_words) ↔
      (w ∈ SplitIntoWords raw_query ∧ ('-' :: w) ∈ SplitIntoWords raw_query ∧
        w ∉ s.stop_words_) := by
    intro w
    rw [hp w, hm w, hstop]
    constructor
    · rintro ⟨⟨h1, _, h3⟩, h4, _⟩
      exact ⟨h1, h4, h3⟩
    · rintro ⟨h1, h2, h3⟩
      refine ⟨⟨h1, ?_, h3⟩, h2, h3⟩
      intro hhead
      cases w with
      | nil => simp at hhead
      | cons c r =>
        simp only [List.head?_cons, Option.some.injEq] at hhead
        exact hwf _ h2 (Or.inr (Or.inr (Or.inl ⟨r, by rw [hhead]⟩)))
  exact ⟨key, fun hno w hw => hno w ((key w).1 hw).1 ((key w).1 hw).2.1⟩

theorem ParseQuery_common_words_witness :
    (demoEmpty ℝ).ParseQuery "white cat -dog".toList =
      .ok ⟨["cat".toList, "white".toList], ["dog".toList]⟩ ∧
    ∀ w, (w ∈ ["cat".toList, "white".toList] ∧ w ∈ ["dog".toList]) ↔
      (w ∈ SplitIntoWords "white cat -dog".toList ∧
        ('-' :: w) ∈ SplitIntoWords "white cat -dog".toList ∧ w ∉ (demoEmpty ℝ).stop_words_) :=
  ⟨rfl,
   (ParseQuery_common_words (demoEmpty ℝ) "white cat -dog".toList
      ⟨["cat".toList, "white".toList], ["dog".toList]⟩ rfl).1⟩

end SearchServer


namespace SearchServer

variable {R : Type}

/-- C12: in a reachable state, `RemoveDocument(id)` of a stored document, under either policy,
leaves `GetWordFrequencies(id)` empty, takes the id out of the id set and of the metadata,
lowers `GetDocumentCount` by one, and leaves no per-word map of the inverted index with the
id as a key. -/
theorem RemoveDocument_purges [DivisionRing R] (s : SearchServer R) (hs : s.Reachable)
    (document_id : Int) (hid : document_id ∈ s.ids) :
    (s.RemoveDocument document_id).GetWordFrequencies document_id = [] ∧
    document_id ∉ (s.RemoveDocument document_id).ids ∧
    document_id ∉ StdMap.keys (s.RemoveDocument document_id).documents_ ∧
    (s.RemoveDocument document_id).GetDocumentCount = s.GetDocumentCount - 1 ∧
    ∀ w word_freqs, (w, word_freqs) ∈ (s.RemoveDocument document_id).word_to_document_freqs_ →
      document_id ∉ StdMap.keys word_freqs := by
  have hi := hs.inv
  have hid1 : document_id ∈ s.document_ids_ := hid
  have hform := RemoveDocument_of_stored s document_id hid1
  refine ⟨?_, ?_, ?_, ?_, fun w m hm => RemoveDocument_inverted s document_id w m hm hid1⟩
  · rw [GetWordFrequencies_eq, hform]
    simp [StdMap.find?_erase]
  · rw [hform]
    simp only [ids, StdSet.mem_erase]
    exact fun hx => hx.1 rfl
  · rw [hform]
    simp only [StdMap.keys_erase, StdSet.mem_erase]
    exact fun hx => hx.1 rfl
  · rw [hform]
    simp only [GetDocumentCount]
    have := StdMap.length_erase_of_mem s.documents_ document_id hi.docs_sorted
      (by rw [← hi.ids_eq]; exact hid1)
    omega

theorem RemoveDocument_purges_witness :
    (demoServer ℝ).Reachable ∧ (2 : Int) ∈ (demoServer ℝ).ids ∧
    ((demoServer ℝ).RemoveDocument 2).GetWordFrequencies 2 = [] ∧
    (2 : Int) ∉ ((demoServer ℝ).RemoveDocument 2).ids ∧
    ((demoServer ℝ).RemoveDocument 2).GetDocumentCount = (demoServer ℝ).GetDocumentCount - 1 :=
  ⟨demoServer_reachable ℝ, by decide,
   (RemoveDocument_purges (demoServer ℝ) (demoServer_reachable ℝ) 2 (by decide)).1,
   (RemoveDocument_purges (demoServer ℝ) (demoServer_reachable ℝ) 2 (by decide)).2.1,
   (RemoveDocument_purges (demoServer ℝ) (demoServer_reachable ℝ) 2 (by decide)).2.2.2.1⟩

end SearchServer


namespace SearchServer

variable {R : Type}

end SearchServer


namespace SearchServer

variable {R : Type}

/-- C20, counterexample: on the reachable server with the one document `-cat  dog`, the words
`-cat` and the empty word are keys of `GetWordFrequencies(1)`, yet `MatchDocument("-cat", 1)`
returns the empty word list, because the query word is read as the minus-word `cat`, and
`MatchDocument("", 1)` fails. -/
theorem MatchDocument_misses_indexed_word :
    (dashServer ℝ).Reachable ∧ (1 : Int) ∈ (dashServer ℝ).ids ∧
    "-cat".toList ∈ StdMap.keys ((dashServer ℝ).GetWordFrequencies 1) ∧
    (dashServer ℝ).MatchDocument .seq "-cat".toList 1 = .ok ([], DocumentStatus.ACTUAL) ∧
    (dashServer ℝ).MatchDocument .par "-cat".toList 1 = .ok ([], DocumentStatus.ACTUAL) ∧
    [] ∈ StdMap.keys ((dashServer ℝ).GetWordFrequencies 1) ∧
    (dashServer ℝ).MatchDocument .seq [] 1 = .error .invalid_argument :=
  ⟨dashServer_reachable ℝ, by decide, by decide, rfl, rfl, by decide, rfl⟩

end SearchServer


namespace SearchServer

variable {R : Type}

/-- C19, counterexample: for the list `manyRatings` of 2^31 + 1 ratings, whose sum `-2^31` and
whose partial sums all fit in a 32-bit `int`, `ComputeAverageRating` returns 1, while the sum
divided by the count and rounded toward zero is 0: the count is converted to `int` and becomes
`-2^31 + 1`. -/
theorem ComputeAverageRating_count_wraps :
    (∀ k, -2 ^ 31 ≤ (manyRatings.take k).sum ∧ (manyRatings.take k).sum < 2 ^ 31) ∧
    (-2 ^ 31 ≤ manyRatings.sum ∧ manyRatings.sum < 2 ^ 31) ∧
    ComputeAverageRating manyRatings = 1 ∧
    Int.tdiv manyRatings.sum manyRatings.length = 0 := by
  have hne : manyRatings ≠ [] := by
    intro h
    have := manyRatings_length
    rw [h] at this
    simp at this
  refine ⟨manyRatings_partial_sums, ?_, ?_, ?_⟩
  · rw [manyRatings_sum]
    constructor <;> norm_num
  · rw [ComputeAverageRating_eq, if_neg hne, manyRatings_sum, manyRatings_length]
    decide
  · rw [manyRatings_sum, manyRatings_length]
    decide

/-- C19, amended: for every list of ratings whose sum fits in a 32-bit `int` and whose length
is below 2^31, `ComputeAverageRating` returns 0 for the empty list and otherwise the sum
divided by the count, rounded toward zero; a successful `AddDocument` on a reachable server
stores this value as the rating of the document, and every record that `FindTopDocuments`
then returns for the document, under either policy, carries it. -/
theorem ComputeAverageRating_truncating_mean (ratings : List Int)
    (hsum : -2 ^ 31 ≤ ratings.sum ∧ ratings.sum < 2 ^ 31) (hlen : ratings.length < 2 ^ 31) :
    ComputeAverageRating ratings =
      (if ratings = [] then 0 else Int.tdiv ratings.sum ratings.length) ∧
    ∀ (F : Type) [LinearOrderedField F] (s : SearchServer F), s.Reachable →
      ∀ (document_id : Int) (document : Str) (status : DocumentStatus),
        (s.AddDocument document_id document status ratings).1 = .ok () →
        (s.AddDocument document_id document status ratings).2.storedRating document_id =
          ComputeAverageRating ratings ∧
        ∀ (MAX_RESULT_DOCUMENT_COUNT : Nat) (ln : F → F) (policy : ExecutionPolicy)
          (raw_query : Str) (document_predicate : DocumentPredicate) (docs : List (Document F)),
          (s.AddDocument document_id document status ratings).2.FindTopDocuments
              MAX_RESULT_DOCUMENT_COUNT ln policy raw_query document_predicate = .ok docs →
            ∀ d ∈ docs, d.id = document_id → d.rating = ComputeAverageRating ratings := by
  constructor
  · rw [ComputeAverageRating_eq, wrapInt32_of_fits _ hsum.1 hsum.2,
      wrapInt32_of_fits _ (by omega) (by omega)]
  · intro F _ s hs document_id document status hok
    have hstored := AddDocument_storedRating hs.inv document_id document status ratings hok
    refine ⟨hstored, ?_⟩
    intro MAX_RESULT_DOCUMENT_COUNT ln policy raw_query document_predicate docs hdocs d hd hid
    have hinv := (Reachable.add s document_id document status ratings hs).inv
    rw [FindTopDocuments_rating MAX_RESULT_DOCUMENT_COUNT ln _ hinv policy raw_query
      document_predicate docs hdocs d hd, hid, hstored]

theorem ComputeAverageRating_truncating_mean_witness :
    (-2 ^ 31 ≤ ([-1, -2] : List Int).sum ∧ ([-1, -2] : List Int).sum < 2 ^ 31) ∧
    ([-1, -2] : List Int).length < 2 ^ 31 ∧
    ComputeAverageRating [-1, -2] =
      (if ([-1, -2] : List Int) = [] then 0
        else Int.tdiv ([-1, -2] : List Int).sum ([-1, -2] : List Int).length) ∧
    ComputeAverageRating [-1, -2] = -1 :=
  ⟨by decide, by decide,
   (ComputeAverageRating_truncating_mean [-1, -2] (by decide) (by decide)).1, by decide⟩

end SearchServer


namespace SearchServer

variable {R : Type}

/-- C21, refuted: on the reachable server of the request queue demo, document 3 has the
accepted text `big cat fancy collar ` with a space at the end, and the empty word is a key of
its forward-index entry, a key of the inverted index and a member of its owned word set; an
`AddDocument` with the empty text is accepted as well and indexes the empty word. -/
theorem AddDocument_indexes_empty_word :
    (queueServer ℝ).Reachable ∧ (3 : Int) ∈ (queueServer ℝ).ids ∧
    [] ∈ StdMap.keys ((queueServer ℝ).GetWordFrequencies 3) ∧
    [] ∈ StdMap.keys (queueServer ℝ).word_to_document_freqs_ ∧
    (∃ data, StdMap.find? (queueServer ℝ).documents_ 3 = some data ∧ [] ∈ data.words) ∧
    ((queueServer ℝ).AddDocument 6 [] .ACTUAL [1]).1 = .ok () ∧
    [] ∈ StdMap.keys (((queueServer ℝ).AddDocument 6 [] .ACTUAL [1]).2.GetWordFrequencies 6) :=
  ⟨queueServer_reachable ℝ, by decide, by decide, by decide,
   ⟨⟨3, .ACTUAL, [[], "big".toList, "cat".toList, "collar".toList, "fancy".toList]⟩, rfl,
    by decide⟩, rfl, by decide⟩

/-- C22, counterexample: on the reachable server whose one document has the text `and with`,
both stop words, the id 1 is enumerated and has metadata, but the forward index has no entry
for it. -/
theorem forward_index_misses_stored_id :
    (stopOnlyServer ℝ).Reachable ∧ (1 : Int) ∈ (stopOnlyServer ℝ).ids ∧
    (1 : Int) ∈ StdMap.keys (stopOnlyServer ℝ).documents_ ∧
    (1 : Int) ∉ StdMap.keys (stopOnlyServer ℝ).document_to_word_freqs_ :=
  ⟨stopOnlyServer_reachable ℝ, by decide, by decide, by decide⟩

/-- C22, amended: in every reachable state the enumerated ids are the keys of the metadata
store, every id with an entry in the forward index is among them, and an id has an entry in
the forward index exactly when `GetWordFrequencies` of it is not empty, that is, when the
document has a token that is not a stop word. -/
theorem ids_and_forward_index [DivisionRing R] (s : SearchServer R) (hs : s.Reachable) :
    s.ids = StdMap.keys s.documents_ ∧
    (∀ d, d ∈ StdMap.keys s.document_to_word_freqs_ → d ∈ s.ids) ∧
    (∀ d, d ∈ StdMap.keys s.document_to_word_freqs_ ↔ s.GetWordFrequencies d ≠ []) := by
  have hi := hs.inv
  refine ⟨hi.ids_eq, fun d hd => ?_, fun d => ?_⟩
  · show d ∈ s.document_ids_
    rw [hi.ids_eq]
    exact hi.fwd_keys d hd
  · rw [GetWordFrequencies_eq, ← StdMap.find?_isSome_iff]
    cases hf : StdMap.find? s.document_to_word_freqs_ d with
    | none => simp
    | some f => simpa using hs.forward_nonempty d f hf

theorem ids_and_forward_index_witness :
    (demoServer ℝ).Reachable ∧
    (demoServer ℝ).ids = StdMap.keys (demoServer ℝ).documents_ ∧
    ((2 : Int) ∈ StdMap.keys (demoServer ℝ).document_to_word_freqs_ ↔
      (demoServer ℝ).GetWordFrequencies 2 ≠ []) :=
  ⟨demoServer_reachable ℝ, (ids_and_forward_index (demoServer ℝ) (demoServer_reachable ℝ)).1,
   (ids_and_forward_index (demoServer ℝ) (demoServer_reachable ℝ)).2.2 2⟩

end SearchServer


/-- C23, counterexample: with three shards, the key `-1` is stored in shard 0, the remainder
of `static_cast<uint64_t>(-1) = 2^64 - 1`, and not in shard 2, which is `-1 mod 3`. -/
theorem accumulate_negative_key_shard :
    ∃ cm, accumulateAll 3 [((-1 : Int), (1 : Int))] = .ok cm ∧
      (-1 : Int) ∈ StdMap.keys (cm.bucket_.getD 0 []) ∧
      (-1 : Int) ∉ StdMap.keys (cm.bucket_.getD 2 []) ∧
      (-1 : Int) % 3 = 2 ∧ bucketIndex 3 (-1) = 0 :=
  ⟨⟨[[(-1, 0 + 1)], [], []]⟩, rfl, by decide, by decide, by decide, by decide⟩

/-- C23, amended: for every shard count `B >= 1` and every list of accumulate operations on a
new `ConcurrentMap`, all operations succeed and `BuildOrdinaryMap` returns the ordered map
whose keys are exactly the accumulated keys and whose value at a key is the sum of the deltas
accumulated for it, starting from 0; the result is the same for every other shard count; a
key is stored in exactly one shard, the one with the index `static_cast<uint64_t>(key) mod B`,
which is `key mod B` for a key that is not negative. -/
theorem accumulateAll_refines_map {V : Type} [Zero V] [Add V] (B : Nat) (hB : 1 ≤ B)
    (ops : List (Int × V)) :
    ∃ cm, accumulateAll B ops = .ok cm ∧
      (StdMap.keys cm.BuildOrdinaryMap).Sorted (· < ·) ∧
      (∀ key, key ∈ StdMap.keys cm.BuildOrdinaryMap ↔ key ∈ ops.map Prod.fst) ∧
      (∀ key ∈ ops.map Prod.fst,
        StdMap.find? cm.BuildOrdinaryMap key = some (deltaSum ops key)) ∧
      (∀ B' cm', 1 ≤ B' → accumulateAll B' ops = .ok cm' →
        cm'.BuildOrdinaryMap = cm.BuildOrdinaryMap) ∧
      cm.bucket_.length = B ∧
      (∀ i key, i < B →
        (key ∈ StdMap.keys (cm.bucket_.getD i []) ↔
          key ∈ ops.map Prod.fst ∧ i = bucketIndex B key)) ∧
      (∀ key : Int, 0 ≤ key → key < 2 ^ 64 → (bucketIndex B key : Int) = key % B) := by
  obtain ⟨cm, hcm, hlen, hwf, hget⟩ := accumulateAll_spec B hB ops
  obtain ⟨hsorted, hfind⟩ := cm.BuildOrdinaryMap_spec hwf
  have hfind2 : ∀ x, StdMap.find? cm.BuildOrdinaryMap x =
      if x ∈ ops.map Prod.fst then some (deltaSum ops x) else none := fun x => by
    rw [hfind x, hget x]
  refine ⟨cm, hcm, hsorted, fun key => ?_, fun key hkey => ?_, ?_, hlen, ?_,
    fun key h0 h1 => bucketIndex_of_nonneg B key h0 h1⟩
  · rw [← StdMap.find?_isSome_iff, hfind2 key]
    split_ifs with h <;> simp [h]
  · rw [hfind2 key, if_pos hkey]
  · intro B' cm' hB' hcm'
    obtain ⟨cm2, hcm2, _, hwf2, hget2⟩ := accumulateAll_spec B' hB' ops
    rw [hcm'] at hcm2
    cases hcm2
    obtain ⟨hsorted2, hfind'⟩ := cm'.BuildOrdinaryMap_spec hwf2
    apply StdMap.ext_of_find? hsorted2 hsorted
    intro x
    rw [hfind' x, hget2 x, hfind2 x]
  · intro i key hi
    have hgetkey := hget key
    simp only [ConcurrentMap.get, hlen] at hgetkey
    constructor
    · intro hmem
      have hidx : bucketIndex B key = i := by
        have := (hwf i (by rw [hlen]; exact hi)).2 key hmem
        rwa [hlen] at this
      refine ⟨?_, hidx.symm⟩
      by_contra hno
      rw [if_neg hno, hidx, StdMap.find?_eq_none_iff] at hgetkey
      exact hgetkey hmem
    · rintro ⟨hmem, rfl⟩
      rw [if_pos hmem] at hgetkey
      rw [← StdMap.find?_isSome_iff, hgetkey]
      rfl

theorem accumulateAll_refines_map_witness :
    1 ≤ 2 ∧
    ∃ cm, accumulateAll 2 [((1 : Int), (1 : Int)), (2, 5), (1, 3)] = .ok cm ∧
      (∀ key, key ∈ StdMap.keys cm.BuildOrdinaryMap ↔
        key ∈ [((1 : Int), (1 : Int)), (2, 5), (1, 3)].map Prod.fst) ∧
      (∀ key ∈ [((1 : Int), (1 : Int)), (2, 5), (1, 3)].map Prod.fst,
        StdMap.find? cm.BuildOrdinaryMap key =
          some (deltaSum [((1 : Int), (1 : Int)), (2, 5), (1, 3)] key)) :=
  ⟨by decide,
   let ⟨cm, h1, _, h3, h4, _⟩ :=
     accumulateAll_refines_map 2 (by decide) [((1 : Int), (1 : Int)), (2, 5), (1, 3)]
   ⟨cm, h1, h3, h4⟩⟩


/-- C24, counterexample: the constructors with `bucket_count = 0` return accumulators without
shards, and `FindTopDocuments` works with them: for the query `-cat`, which has no plus-word,
the sequential search on the demo server builds its `ConcurrentMap` with 0 buckets, and for
the query `cat` on the server without documents it builds its `ConcurrentSet` with 0 buckets;
both calls return the empty list. -/
theorem zero_shards_constructed :
    (ConcurrentMap.create 0 : ConcurrentMap ℝ) = ⟨[]⟩ ∧ ConcurrentSet.create 0 = ⟨[]⟩ ∧
    (demoServer ℝ).ParseQuery "-cat".toList = .ok ⟨[], ["cat".toList]⟩ ∧
    (demoServer ℝ).FindAllDocumentsSeq Real.log ⟨[], ["cat".toList]⟩ (fun _ _ _ => true) =
      ((demoServer ℝ).markBadDocuments ⟨[], ["cat".toList]⟩
          (ConcurrentSet.create (demoServer ℝ).document_ids_.length) >>= fun _ =>
        (demoServer ℝ).collectDocuments (ConcurrentMap.create 0 : ConcurrentMap ℝ).BuildOrdinaryMap) ∧
    (demoServer ℝ).FindTopDocuments 5 Real.log .seq "-cat".toList (fun _ _ _ => true) = .ok [] ∧
    (demoEmpty ℝ).document_ids_.length = 0 ∧
    (demoEmpty ℝ).FindTopDocuments 5 Real.log .seq "cat".toList (fun _ _ _ => true) = .ok [] :=
  ⟨rfl, rfl, rfl, rfl, rfl, rfl, rfl⟩

/-- C24, amended: the constructors of `ConcurrentMap` and `ConcurrentSet` accept every bucket
count, 0 included, and return an accumulator with that many empty shards; on an accumulator
with 0 shards `BuildOrdinaryMap` returns the empty map, and `operator[]`, `Insert` and
`Contains` compute a remainder modulo 0, which is undefined behaviour. -/
theorem zero_shards_accepted {V : Type} [Zero V] [Add V] :
    (∀ n, (ConcurrentMap.create n : ConcurrentMap V).bucket_ = List.replicate n [] ∧
      (ConcurrentSet.create n).bucket_ = List.replicate n []) ∧
    (ConcurrentMap.create 0 : ConcurrentMap V).BuildOrdinaryMap = [] ∧
    (∀ key delta, (ConcurrentMap.create 0 : ConcurrentMap V).accumulate key delta =
      .error .undefined_behaviour) ∧
    (∀ value, (ConcurrentSet.create 0).Insert value = .error .undefined_behaviour) ∧
    (∀ value, (ConcurrentSet.create 0).Contains value = .error .undefined_behaviour) :=
  ⟨fun _ => ⟨rfl, rfl⟩, rfl, fun _ _ => rfl, fun _ => rfl, fun _ => rfl⟩


/-- C27, counterexample: with relevances 0, 0.6e-6 and 1.2e-6 and ratings 3, 2 and 1 the
comparator puts the first document before the second and the second before the third, but not
the first before the third; with equal ratings the first and the second are incomparable, the
second and the third are incomparable, and the third is put before the first. -/
theorem documentLess_not_transitive :
    documentLess (⟨1, 0, 3⟩ : Document ℝ) ⟨2, 6 / 10000000, 2⟩ = true ∧
    documentLess (⟨2, 6 / 10000000, 2⟩ : Document ℝ) ⟨3, 12 / 10000000, 1⟩ = true ∧
    documentLess (⟨1, 0, 3⟩ : Document ℝ) ⟨3, 12 / 10000000, 1⟩ = false ∧
    documentLess (⟨1, 0, 1⟩ : Document ℝ) ⟨2, 6 / 10000000, 1⟩ = false ∧
    documentLess (⟨2, 6 / 10000000, 1⟩ : Document ℝ) ⟨1, 0, 1⟩ = false ∧
    documentLess (⟨2, 6 / 10000000, 1⟩ : Document ℝ) ⟨3, 12 / 10000000, 1⟩ = false ∧
    documentLess (⟨3, 12 / 10000000, 1⟩ : Document ℝ) ⟨2, 6 / 10000000, 1⟩ = false ∧
    documentLess (⟨3, 12 / 10000000, 1⟩ : Document ℝ) ⟨1, 0, 1⟩ = true := by
  have h1 : |(0 : ℝ) - 6 / 10000000| < 1 / 1000000 := by rw [abs_lt]; constructor <;> norm_num
  have h2 : |(6 / 10000000 : ℝ) - 12 / 10000000| < 1 / 1000000 := by
    rw [abs_lt]; constructor <;> norm_num
  have h3 : ¬ |(0 : ℝ) - 12 / 10000000| < 1 / 1000000 := by
    rw [abs_lt]; intro h; norm_num at h
  have h4 : |(6 / 10000000 : ℝ) - 0| < 1 / 1000000 := by rw [abs_lt]; constructor <;> norm_num
  have h5 : |(12 / 10000000 : ℝ) - 6 / 10000000| < 1 / 1000000 := by
    rw [abs_lt]; constructor <;> norm_num
  have h6 : ¬ |(12 / 10000000 : ℝ) - 0| < 1 / 1000000 := by
    rw [abs_lt]; intro h; norm_num at h
  refine ⟨?_, ?_, ?_, ?_, ?_, ?_, ?_, ?_⟩
  · simp only [documentLess, if_pos h1]; decide
  · simp only [documentLess, if_pos h2]; decide
  · simp only [documentLess, if_neg h3]; norm_num
  · simp only [documentLess, if_pos h1]; decide
  · simp only [documentLess, if_pos h4]; decide
  · simp only [documentLess, if_pos h2]; decide
  · simp only [documentLess, if_pos h5]; decide
  · simp only [documentLess, if_neg h6]; norm_num

/-- C27, amended: the comparator is irreflexive and asymmetric for all documents with real
relevance and integer rating; on three documents whose relevances are pairwise equal or at
least 1e-6 apart it is a strict weak ordering: it is transitive, and so is the incomparability
it induces. -/
theorem documentLess_strict_weak_of_separated {R : Type} [LinearOrderedField R]
    (a b c : Document R)
    (hab : a.relevance = b.relevance ∨ 1 / 1000000 ≤ |a.relevance - b.relevance|)
    (hbc : b.relevance = c.relevance ∨ 1 / 1000000 ≤ |b.relevance - c.relevance|)
    (hac : a.relevance = c.relevance ∨ 1 / 1000000 ≤ |a.relevance - c.relevance|) :
    (∀ x y : Document R, documentLess x x = false ∧
      (documentLess x y = true → documentLess y x = false)) ∧
    strictWeakOn documentLess a b c := by
  have hba : b.relevance = a.relevance ∨ 1 / 1000000 ≤ |b.relevance - a.relevance| := by
    rw [abs_sub_comm]; exact hab.imp Eq.symm id
  have hcb : c.relevance = b.relevance ∨ 1 / 1000000 ≤ |c.relevance - b.relevance| := by
    rw [abs_sub_comm]; exact hbc.imp Eq.symm id
  have hca : c.relevance = a.relevance ∨ 1 / 1000000 ≤ |c.relevance - a.relevance| := by
    rw [abs_sub_comm]; exact hac.imp Eq.symm id
  refine ⟨fun x y => ⟨documentLess_irrefl x, documentLess_asymm x y⟩,
    documentLess_irrefl a, documentLess_asymm a b, ?_, ?_⟩
  · rw [documentLess_of_separated a b hab, documentLess_of_separated b c hbc,
      documentLess_of_separated a c hac]
    rintro (h1 | ⟨h1, h2⟩) (h3 | ⟨h3, h4⟩)
    · exact Or.inl (lt_trans h3 h1)
    · exact Or.inl (by rw [← h3]; exact h1)
    · exact Or.inl (by rw [h1]; exact h3)
    · exact Or.inr ⟨h1.trans h3, lt_trans h4 h2⟩
  · rw [documentLess_false_of_separated a b hab, documentLess_false_of_separated b a hba,
      documentLess_false_of_separated b c hbc, documentLess_false_of_separated c b hcb,
      documentLess_false_of_separated a c hac, documentLess_false_of_separated c a hca]
    intro h1 h2 h3 h4
    have e1 : a.relevance = b.relevance ∧ a.rating = b.rating := by
      rcases h1 with h1 | ⟨h1, r1⟩ <;> rcases h2 with h2 | ⟨h2, r2⟩
      · exact absurd h1 (lt_asymm h2)
      · rw [h2] at h1; exact absurd h1 (lt_irrefl _)
      · rw [h1] at h2; exact absurd h2 (lt_irrefl _)
      · exact ⟨h1, le_antisymm r1 r2⟩
    have e2 : b.relevance = c.relevance ∧ b.rating = c.rating := by
      rcases h3 with h3 | ⟨h3, r3⟩ <;> rcases h4 with h4 | ⟨h4, r4⟩
      · exact absurd h3 (lt_asymm h4)
      · rw [h4] at h3; exact absurd h3 (lt_irrefl _)
      · rw [h3] at h4; exact absurd h4 (lt_irrefl _)
      · exact ⟨h3, le_antisymm r3 r4⟩
    exact ⟨Or.inr ⟨e1.1.trans e2.1, le_of_eq (e1.2.trans e2.2)⟩,
      Or.inr ⟨(e1.1.trans e2.1).symm, le_of_eq (e1.2.trans e2.2).symm⟩⟩

theorem documentLess_strict_weak_of_separated_witness :
    ((3 / 10 : ℝ) = 3 / 10 ∨ 1 / 1000000 ≤ |(3 / 10 : ℝ) - 3 / 10|) ∧
    ((3 / 10 : ℝ) = 1 / 10 ∨ 1 / 1000000 ≤ |(3 / 10 : ℝ) - 1 / 10|) ∧
    strictWeakOn documentLess (⟨1, 3 / 10, 5⟩ : Document ℝ) ⟨2, 3 / 10, 4⟩ ⟨3, 1 / 10, 9⟩ :=
  ⟨Or.inl rfl, Or.inr (by norm_num [abs_of_pos]),
   (documentLess_strict_weak_of_separated (⟨1, 3 / 10, 5⟩ : Document ℝ) ⟨2, 3 / 10, 4⟩
      ⟨3, 1 / 10, 9⟩ (Or.inl rfl) (Or.inr (by norm_num [abs_of_pos]))
      (Or.inr (by norm_num [abs_of_pos]))).2⟩





namespace RequestQueue

variable {R : Type}

/-- C25: after calls of `AddFindRequest` on a new queue, of which `n` returned, the queue
holds `min(n, 1440)` records, one for each of the most recent `min(n, 1440)` calls that
returned, and `GetNoResultRequests` is the number of those whose result list was empty; a call
that throws adds no record. -/
theorem sliding_window [LinearOrderedField R] (MAX_RESULT_DOCUMENT_COUNT : Nat) (ln : R → R)
    (log : List Bool) (q : RequestQueue) (h : Served MAX_RESULT_DOCUMENT_COUNT ln log q) :
    q.requests_.length = min log.length 1440 ∧
    q.requests_.map (fun req => req.empty_query) =
      log.drop (log.length - min log.length 1440) ∧
    q.GetNoResultRequests = ((log.drop (log.length - min log.length 1440)).count true : Nat) := by
  have hflags := h.flags
  have hk : log.length - min log.length 1440 = log.length - 1440 := by omega
  have hlen : q.requests_.length = min log.length 1440 := by
    have := congrArg List.length hflags
    simp only [List.length_map, List.length_drop] at this
    omega
  refine ⟨hlen, by rw [hk]; exact hflags, ?_⟩
  rw [hk, ← hflags]
  unfold GetNoResultRequests
  congr 1
  generalize q.requests_ = l
  induction l with
  | nil => rfl
  | cons r rest ih =>
    cases hr : r.empty_query <;> simp [List.filter_cons, hr, ih]

theorem sliding_window_witness :
    ∃ q, Served 5 Real.log (List.replicate 1439 true ++ [false, false, false]) q ∧
      q.requests_.length = 1440 ∧ q.GetNoResultRequests = 1437 :=
  let ⟨q, hq⟩ := served_demo
  ⟨q, hq,
   by rw [(sliding_window 5 Real.log _ q hq).1, demo_log_length]; rfl,
   by rw [(sliding_window 5 Real.log _ q hq).2.2, demo_log_length, demo_log_count]; rfl⟩

end RequestQueue


namespace SearchServer

variable {R : Type}

/-- C26: on a reachable state `RemoveDuplicates` reports and removes exactly the stored ids
for which a stored document with a smaller id has the same key set of `GetWordFrequencies`;
afterwards the stored ids are the other ones, no two stored documents have the same key set,
and the word frequencies and the metadata of every kept document are as before; the state
is again a reachable one. -/
theorem RemoveDuplicates_spec [DivisionRing R] (s : SearchServer R) (hs : s.Reachable) :
    (∀ x, x ∈ s.RemoveDuplicates.1 ↔
      x ∈ s.ids ∧ ∃ y ∈ s.ids, y < x ∧
        StdMap.keys (s.GetWordFrequencies y) = StdMap.keys (s.GetWordFrequencies x)) ∧
    (∀ x, x ∈ s.RemoveDuplicates.2.ids ↔ x ∈ s.ids ∧ x ∉ s.RemoveDuplicates.1) ∧
    (∀ x ∈ s.RemoveDuplicates.2.ids, ∀ y ∈ s.RemoveDuplicates.2.ids,
      StdMap.keys (s.RemoveDuplicates.2.GetWordFrequencies x) =
        StdMap.keys (s.RemoveDuplicates.2.GetWordFrequencies y) → x = y) ∧
    (∀ x ∈ s.RemoveDuplicates.2.ids,
      s.RemoveDuplicates.2.GetWordFrequencies x = s.GetWordFrequencies x ∧
      StdMap.find? s.RemoveDuplicates.2.documents_ x = StdMap.find? s.documents_ x) ∧
    s.RemoveDuplicates.2.Reachable := by
  have hi := hs.inv
  have hsorted : s.ids.Sorted (· < ·) := by
    show s.document_ids_.Sorted (· < ·)
    rw [hi.ids_eq]; exact hi.docs_sorted
  have hrem : ∀ x, x ∈ s.RemoveDuplicates.1 ↔
      x ∈ s.ids ∧ ∃ y ∈ s.ids, y < x ∧
        StdMap.keys (s.GetWordFrequencies y) = StdMap.keys (s.GetWordFrequencies x) := by
    intro x
    have := RemoveDuplicates_fold hi s.ids hsorted ([], []) x
    simp only [RemoveDuplicates]
    rw [this]
    simp [StdMap.keys]
  obtain ⟨hreach, hids, hframe⟩ := RemoveDocument_fold s.RemoveDuplicates.1 s hs
  have hids2 : ∀ x, x ∈ s.RemoveDuplicates.2.ids ↔ x ∈ s.ids ∧ x ∉ s.RemoveDuplicates.1 := hids
  have hframe2 : ∀ x ∈ s.RemoveDuplicates.2.ids,
      s.RemoveDuplicates.2.GetWordFrequencies x = s.GetWordFrequencies x ∧
      StdMap.find? s.RemoveDuplicates.2.documents_ x = StdMap.find? s.documents_ x :=
    fun x hx => hframe x ((hids2 x).1 hx).2
  refine ⟨hrem, hids2, ?_, hframe2, hreach⟩
  intro x hx y hy hxy
  rw [(hframe2 x hx).1, (hframe2 y hy).1] at hxy
  obtain ⟨hxs, hxr⟩ := (hids2 x).1 hx
  obtain ⟨hys, hyr⟩ := (hids2 y).1 hy
  rcases lt_trichotomy x y with hlt | heq | hgt
  · exact absurd ((hrem y).2 ⟨hys, x, hxs, hlt, hxy⟩) hyr
  · exact heq
  · exact absurd ((hrem x).2 ⟨hxs, y, hys, hgt, hxy.symm⟩) hxr

theorem RemoveDuplicates_spec_witness :
    (duplicatesServer ℝ).Reachable ∧
    (duplicatesServer ℝ).RemoveDuplicates.1 = [3, 4, 5, 7] ∧
    (duplicatesServer ℝ).RemoveDuplicates.2.ids = [1, 2, 6, 8, 9] ∧
    (∀ x, x ∈ (duplicatesServer ℝ).RemoveDuplicates.1 ↔
      x ∈ (duplicatesServer ℝ).ids ∧ ∃ y ∈ (duplicatesServer ℝ).ids, y < x ∧
        StdMap.keys ((duplicatesServer ℝ).GetWordFrequencies y) =
          StdMap.keys ((duplicatesServer ℝ).GetWordFrequencies x)) :=
  ⟨duplicatesServer_reachable ℝ, duplicatesServer_removed.1, duplicatesServer_removed.2,
   (RemoveDuplicates_spec (duplicatesServer ℝ) (duplicatesServer_reachable ℝ)).1⟩

end SearchServer





namespace TrackedServer

/-- C1, failing input: the server without stop words after `AddDocument(1, "big")`,
`AddDocument(3, "big dog")` and `RemoveDocument(1)` is reachable; document 3 is stored and
contains the word `big`, so that the list described for the query `big` holds a record of
document 3. The key `big` of `word_to_document_freqs_` is a view into the word set of
document 1, which `RemoveDocument` destroyed, and the sequential `FindAllDocuments` compares
the plus-word with that key: the call reads destroyed characters and its behaviour is
undefined. -/
theorem FindAllDocumentsSeq_reads_destroyed_key :
    (danglingServer ℝ).Reachable ∧
    (danglingServer ℝ).server.ids = [3] ∧
    containsWord (danglingServer ℝ).server 3 "big".toList = true ∧
    (danglingServer ℝ).key_owner_ = [("big".toList, none), ("dog".toList, some 3)] ∧
    (danglingServer ℝ).readsDestroyedKey ["big".toList] = true ∧
    (danglingServer ℝ).FindAllDocuments Real.log .seq ⟨["big".toList], []⟩
      (fun _ _ _ => true) = .error .undefined_behaviour :=
  ⟨danglingServer_reachable ℝ, by decide, by decide, by decide, by decide, rfl⟩

/-- C2, failing input: on the reachable server without stop words after
`AddDocument(1, "big")`, `AddDocument(3, "big dog")` and `RemoveDocument(1)` the query
`dog -big` is well formed and document 3 contains its minus-word `big`. `FindAllDocuments`
looks the minus-word up in `word_to_document_freqs_`, where the key `big` points into the
destroyed word set of document 1: under either policy the behaviour of `FindTopDocuments` is
undefined, and the exclusion of document 3 is not guaranteed. -/
theorem FindTopDocuments_minus_word_after_removal :
    (danglingServer ℝ).Reachable ∧
    (danglingServer ℝ).server.ParseQuery "dog -big".toList =
      .ok ⟨["dog".toList], ["big".toList]⟩ ∧
    containsWord (danglingServer ℝ).server 3 "big".toList = true ∧
    containsWord (danglingServer ℝ).server 3 "dog".toList = true ∧
    (danglingServer ℝ).readsDestroyedKey ["big".toList] = true ∧
    (danglingServer ℝ).FindTopDocumentsUndefined Real.log .seq "dog -big".toList
      (fun _ _ _ => true) ∧
    (danglingServer ℝ).FindTopDocumentsUndefined Real.log .par "dog -big".toList
      (fun _ _ _ => true) :=
  ⟨danglingServer_reachable ℝ, rfl, by decide, by decide, by decide,
    ⟨_, rfl, Or.inl rfl⟩, ⟨_, rfl, Or.inl rfl⟩⟩

/-- C11, failing input: on the reachable server without stop words after
`AddDocument(1, "big")`, `AddDocument(3, "big dog")` and `RemoveDocument(1)` the forward index
entry of document 3 maps the word `big` to a value, which `GetWordFrequencies(3)` shows. The
inverted index holds the entry of document 3 under the key that document 1 created, a view
into the word set destroyed with document 1: whether the inverted index maps `big` to an
entry of document 3 cannot be read without undefined behaviour. -/
theorem inverted_key_outlives_word_set :
    (danglingServer ℝ).Reachable ∧
    "big".toList ∈ StdMap.keys ((danglingServer ℝ).server.GetWordFrequencies 3) ∧
    (3 : Int) ∈ StdMap.keys
      ((StdMap.find? (danglingServer ℝ).server.word_to_document_freqs_ "big".toList).getD []) ∧
    StdMap.find? (danglingServer ℝ).key_owner_ "big".toList = some none ∧
    (danglingServer ℝ).wordInDocument 3 "big".toList = .error .undefined_behaviour :=
  ⟨danglingServer_reachable ℝ, by decide, by decide, by decide, rfl⟩

/-- C13, failing input: on the reachable server without stop words after
`AddDocument(1, "big")`, `AddDocument(3, "big dog")` and `RemoveDocument(1)` document 3 is
stored, the query `big` is well formed and `big` is an indexed word of document 3, so that the
described result is the word list `big`. `MatchDocument` looks the plus-word up in
`word_to_document_freqs_`, where the key `big` points into the destroyed word set of
document 1: under either policy the behaviour of the call is undefined. -/
theorem MatchDocument_reads_destroyed_key :
    (danglingServer ℝ).Reachable ∧
    StdMap.find? (danglingServer ℝ).server.documents_ 3 =
      some ⟨2, .ACTUAL, ["big".toList, "dog".toList]⟩ ∧
    (danglingServer ℝ).server.ParseQuery "big".toList = .ok ⟨["big".toList], []⟩ ∧
    containsWord (danglingServer ℝ).server 3 "big".toList = true ∧
    (danglingServer ℝ).readsDestroyedKey ["big".toList] = true ∧
    (danglingServer ℝ).MatchDocument .seq "big".toList 3 = .error .undefined_behaviour ∧
    (danglingServer ℝ).MatchDocument .par "big".toList 3 = .error .undefined_behaviour :=
  ⟨danglingServer_reachable ℝ, rfl, rfl, by decide, by decide, rfl, rfl⟩

/-- C28, failing input: on the reachable server without stop words after
`AddDocument(1, "big")`, `AddDocument(3, "big dog")` and `RemoveDocument(1)`, for the parsed
query with the plus-words `big` and `dog`, the sequential `FindAllDocuments` evaluates
`word_to_document_freqs_.count(word)` and `word_to_document_freqs_.at(word)` for the word
`big`. The key that these lookups compare the word with is a view into the word set destroyed
with document 1, so the lookup does not find its key with defined behaviour: the call takes
the branch of undefined behaviour. -/
theorem FindAllDocumentsSeq_lookup_undefined :
    (danglingServer ℝ).Reachable ∧
    (danglingServer ℝ).server.ParseQuery "big dog".toList =
      .ok ⟨["big".toList, "dog".toList], []⟩ ∧
    "big".toList ∈ StdMap.keys (danglingServer ℝ).server.word_to_document_freqs_ ∧
    StdMap.find? (danglingServer ℝ).key_owner_ "big".toList = some none ∧
    (danglingServer ℝ).readsDestroyedKey ["big".toList, "dog".toList] = true ∧
    (danglingServer ℝ).FindAllDocuments Real.log .seq ⟨["big".toList, "dog".toList], []⟩
      (fun _ _ _ => true) = .error .undefined_behaviour :=
  ⟨danglingServer_reachable ℝ, rfl, by decide, by decide, by decide, rfl⟩

/-- C29, failing input: the demo server of `main` is reachable, no key of its inverted index
dangles, and the id 5 is not stored. `AddDocument(5, "zebra")` succeeds and brings the new word
`zebra` into the inverted index; after `RemoveDocument(5)` the ids and the document count are
those of the state before, but the key `zebra` remains and points into the destroyed word set
of document 5. Before the two calls `MatchDocument("zebra", 1)` returns the empty word list
and `FindTopDocuments("zebra")` returns the empty list; after them both calls compare the
query word with the destroyed key and their behaviour is undefined. -/
theorem add_then_remove_leaves_destroyed_key :
    (trackedDemo ℝ).Reachable ∧ (trackedDemoAfterZebra ℝ).Reachable ∧
    (trackedDemo ℝ).keysLive = true ∧
    (5 : Int) ∉ (trackedDemo ℝ).server.ids ∧
    ((trackedDemo ℝ).AddDocument 5 "zebra".toList .ACTUAL [1]).1 = .ok () ∧
    trackedDemoAfterZebra ℝ =
      ((trackedDemo ℝ).AddDocument 5 "zebra".toList .ACTUAL [1]).2.RemoveDocument 5 ∧
    (trackedDemoAfterZebra ℝ).server.ids = (trackedDemo ℝ).server.ids ∧
    (trackedDemoAfterZebra ℝ).server.GetDocumentCount =
      (trackedDemo ℝ).server.GetDocumentCount ∧
    "zebra".toList ∉ StdMap.keys (trackedDemo ℝ).server.word_to_document_freqs_ ∧
    "zebra".toList ∈ StdMap.keys (trackedDemoAfterZebra ℝ).server.word_to_document_freqs_ ∧
    StdMap.find? (trackedDemoAfterZebra ℝ).key_owner_ "zebra".toList = some none ∧
    (trackedDemo ℝ).MatchDocument .seq "zebra".toList 1 = .ok ([], .ACTUAL) ∧
    (trackedDemoAfterZebra ℝ).MatchDocument .seq "zebra".toList 1 =
      .error .undefined_behaviour ∧
    (trackedDemo ℝ).FindTopDocumentsReturns 5 Real.log .seq "zebra".toList
      (fun _ _ _ => true) [] ∧
    (trackedDemoAfterZebra ℝ).FindTopDocumentsUndefined Real.log .seq "zebra".toList
      (fun _ _ _ => true) :=
  ⟨(trackedDemo_live ℝ).1, trackedDemoAfterZebra_reachable ℝ, by decide, by decide, rfl, rfl,
    by decide, by decide, by decide,
    by decide, by decide, rfl, rfl,
    ⟨⟨["zebra".toList], []⟩, [], [], rfl, rfl,
      fun a ha => absurd ha (List.not_mem_nil a), ⟨List.Perm.refl _, List.Pairwise.nil⟩, rfl⟩,
    ⟨_, rfl, Or.inl rfl⟩⟩

end TrackedServer


namespace TrackedServer

variable {R : Type}

/-- C20, amended: in a reachable state in which no key of the inverted index points into a
destroyed word set, for every key `w` of `GetWordFrequencies(id)` that is not empty and does
not start with `-`, the document `id` is stored and `MatchDocument(w, id)` returns exactly the
word list `[w]` with the status of the document, under either policy. -/
theorem MatchDocument_indexed_word [Field R] (t : TrackedServer R) (ht : t.Reachable)
    (hlive : t.keysLive = true) (document_id : Int) (w : Str)
    (hw : w ∈ StdMap.keys (t.server.GetWordFrequencies document_id))
    (hne : w ≠ []) (hdash : w.head? ≠ some '-') (policy : ExecutionPolicy) :
    ∃ data, StdMap.find? t.server.documents_ document_id = some data ∧
      t.MatchDocument policy w document_id = .ok ([w], data.status) := by
  rw [MatchDocument_of_live t hlive]
  exact SearchServer.MatchDocument_of_indexed_word t.server ht.server document_id w hw hne
    hdash policy

theorem MatchDocument_indexed_word_witness :
    (trackedDemo ℝ).Reachable ∧ (trackedDemo ℝ).keysLive = true ∧
    "curly".toList ∈ StdMap.keys ((trackedDemo ℝ).server.GetWordFrequencies 2) ∧
    ∃ data, StdMap.find? (trackedDemo ℝ).server.documents_ 2 = some data ∧
      (trackedDemo ℝ).MatchDocument .seq "curly".toList 2 =
        .ok (["curly".toList], data.status) :=
  ⟨(trackedDemo_live ℝ).1, by decide, by decide,
   MatchDocument_indexed_word (trackedDemo ℝ) (trackedDemo_live ℝ).1 (by decide) 2
     "curly".toList (by decide) (by decide) (by decide) .seq⟩

/-- C7, counterexample: on the reachable server `trackedChainServer`, where no key dangles,
the search for `a` matches six documents, and with `MAX_RESULT_DOCUMENT_COUNT = 5` one of them
is dropped. In whatever order `std::sort` leaves the six documents, the five that are kept
hold a document that the dropped document ranks strictly before. -/
theorem FindTopDocuments_truncation_drops_better_document :
    (trackedChainServer ℝ).Reachable ∧ (trackedChainServer ℝ).keysLive = true ∧
    (trackedChainServer ℝ).server.ParseQuery ['a'] = .ok ⟨[['a']], []⟩ ∧
    (trackedChainServer ℝ).FindAllDocuments Real.log .seq ⟨[['a']], []⟩
      (fun _ _ _ => true) = .ok ([1, 2, 3, 4, 5, 6].map (chainDocument Real.log)) ∧
    ∀ sorted : List (Document ℝ),
      sorted.Perm ([1, 2, 3, 4, 5, 6].map (chainDocument Real.log)) →
      (sorted.take 5).length = 5 ∧
      ∃ kept ∈ sorted.take 5, ∃ dropped ∈ sorted.drop 5,
        documentLess dropped kept = true := by
  obtain ⟨hreach, hlive, _⟩ := trackedChainServer_live ℝ
  obtain ⟨hq, hall0⟩ := trackedChainServer_matched (fun _ _ _ => true)
  have hall : (trackedChainServer ℝ).FindAllDocuments Real.log .seq ⟨[['a']], []⟩
      (fun _ _ _ => true) = .ok ([1, 2, 3, 4, 5, 6].map (chainDocument Real.log)) := hall0
  refine ⟨hreach, hlive, hq, hall, ?_⟩
  intro sorted hperm
  have hnd6 : ([1, 2, 3, 4, 5, 6].map (chainDocument Real.log)).Nodup := by
    apply List.Nodup.of_map Document.id
    simp [chainDocument]
  have hlen : sorted.length = 6 := by rw [hperm.length_eq]; rfl
  have hbeats : ∀ x ∈ sorted, ∃ y ∈ sorted, y ≠ x ∧ documentLess x y = true := by
    intro x hx
    obtain ⟨i, hi, rfl⟩ := List.mem_map.1 (hperm.mem_iff.1 hx)
    obtain ⟨j, hj, hne, hless⟩ := chainDocument_beats i hi
    refine ⟨chainDocument Real.log j, hperm.mem_iff.2 (List.mem_map.2 ⟨j, hj, rfl⟩), ?_, hless⟩
    intro heq
    exact hne (congrArg Document.id heq)
  obtain ⟨kept, hkept, dropped, hdropped, hnot, hless⟩ :=
    top_five_misses documentLess _ (hperm.nodup_iff.2 hnd6) hlen hbeats
  refine ⟨by rw [List.length_take, hlen]; rfl, kept, hkept, dropped, ?_, hless⟩
  rw [← List.take_append_drop 5 sorted, List.mem_append] at hdropped
  exact hdropped.resolve_left hnot

/-- C7, amended: when the query parses, `FindAllDocuments` returns `m` matched documents with
defined behaviour and the comparator is a strict weak ordering on them, `FindTopDocuments`
returns a list, and every list that it returns is made of the first
`MAX_RESULT_DOCUMENT_COUNT` elements of a rearrangement of the matched documents that the
contract of `std::sort` allows: it has `min(MAX_RESULT_DOCUMENT_COUNT, m)` elements, and no
dropped document ranks strictly before a kept one. -/
theorem FindTopDocuments_truncation_under_contract [LinearOrderedField R]
    (MAX_RESULT_DOCUMENT_COUNT : Nat) (ln : R → R) (t : TrackedServer R)
    (policy : ExecutionPolicy) (raw_query : Str) (document_predicate : DocumentPredicate)
    (query : Query) (matched_documents : List (Document R))
    (hq : t.server.ParseQuery raw_query = .ok query)
    (hall : t.FindAllDocuments ln policy query document_predicate = .ok matched_documents)
    (hswo : strictWeakOrderOn documentLess matched_documents) :
    (∃ docs, t.FindTopDocumentsReturns MAX_RESULT_DOCUMENT_COUNT ln policy raw_query
      document_predicate docs) ∧
    ∀ docs, t.FindTopDocumentsReturns MAX_RESULT_DOCUMENT_COUNT ln policy raw_query
        document_predicate docs →
      ∃ sorted, StdSortPost documentLess matched_documents sorted ∧
        docs = sorted.take MAX_RESULT_DOCUMENT_COUNT ∧
        docs.length = min MAX_RESULT_DOCUMENT_COUNT matched_documents.length ∧
        ∀ kept ∈ docs, ∀ dropped ∈ sorted.drop MAX_RESULT_DOCUMENT_COUNT,
          documentLess dropped kept = false := by
  refine ⟨⟨_, FindTopDocumentsReturns.intro hq hall hswo (std_sort_post _ _ hswo)⟩, ?_⟩
  intro docs hdocs
  obtain ⟨_, sorted, hpost, rfl⟩ := hdocs.elim hq hall
  refine ⟨sorted, hpost, rfl, ?_, hpost.drop_not_before_take _⟩
  rw [List.length_take, hpost.length_eq]

theorem FindTopDocuments_truncation_under_contract_witness :
    (trackedTieServer ℝ).Reachable ∧
    (trackedTieServer ℝ).server.ParseQuery "cat".toList = .ok ⟨["cat".toList], []⟩ ∧
    ∃ matched_documents,
      (trackedTieServer ℝ).FindAllDocuments Real.log .seq ⟨["cat".toList], []⟩
        (fun _ _ _ => true) = .ok matched_documents ∧
      matched_documents.map Document.id = [1, 2] ∧
      matched_documents.map Document.rating = [1, 5] ∧
      strictWeakOrderOn documentLess matched_documents ∧
      (∃ docs, (trackedTieServer ℝ).FindTopDocumentsReturns 1 Real.log .seq "cat".toList
        (fun _ _ _ => true) docs) ∧
      ∀ docs, (trackedTieServer ℝ).FindTopDocumentsReturns 1 Real.log .seq "cat".toList
          (fun _ _ _ => true) docs →
        ∃ sorted, StdSortPost documentLess matched_documents sorted ∧
          docs = sorted.take 1 ∧ docs.length = min 1 matched_documents.length ∧
          ∀ kept ∈ docs, ∀ dropped ∈ sorted.drop 1, documentLess dropped kept = false := by
  obtain ⟨hreach, hlive, hs⟩ := trackedTieServer_live ℝ
  have hq : (trackedTieServer ℝ).server.ParseQuery "cat".toList =
      .ok ⟨["cat".toList], []⟩ := by rw [hs]; rfl
  have hall := FindAllDocuments_of_live Real.log (trackedTieServer ℝ) hlive .seq
    ⟨["cat".toList], []⟩ (fun _ _ _ => true)
  rw [hs, SearchServer.tieServer_all] at hall
  have hswo : strictWeakOrderOn documentLess
      [(⟨1, 0 + (0 + 1 / ((1 : ℕ) : ℝ)) * Real.log (((2 : ℤ) : ℝ) * 1 / ((2 : ℕ) : ℝ)), 1⟩ :
          Document ℝ),
        ⟨2, 0 + (0 + 1 / ((1 : ℕ) : ℝ)) * Real.log (((2 : ℤ) : ℝ) * 1 / ((2 : ℕ) : ℝ)), 5⟩] := by
    apply strictWeakOrderOn_of_separated
    intro a ha b hb
    simp only [List.mem_cons, List.mem_singleton, List.not_mem_nil, or_false] at ha hb
    rcases ha with rfl | rfl <;> rcases hb with rfl | rfl <;> exact Or.inl rfl
  exact ⟨hreach, hq, _, hall, rfl, rfl, hswo,
    FindTopDocuments_truncation_under_contract 1 Real.log (trackedTieServer ℝ) .seq
      "cat".toList (fun _ _ _ => true) ⟨["cat".toList], []⟩ _ hq hall hswo⟩

end TrackedServer
